import Mathlib

/-!
# Verification of the calculator orchestrator

A shallow embedding of `internal/orchestrator/orchestrator.go` (parser, task
builder, task store and scheduler) and of `computeOperation` from
`cmd/agent/main.go`, followed by theorems about them.

Modelling conventions
* `float64` is `Float64`, IEEE 754 binary64: a finite number carried as its
  exact rational value, the zero with the negative sign, the two infinities
  and `NaN`.  Every operation rounds its exact result to the nearest binary64
  number, a tie to the even significand (`Float64.ofRat`), with subnormal
  numbers and with overflow to an infinity.
* A `float64` crosses the HTTP boundary as JSON, which has no text for `NaN`
  or an infinity: `encoding/json` refuses to encode them and never decodes to
  them.  So a result that `PostTaskResult` passes to `CompleteTask` is finite
  (`Call.fromHandler`), and a worker reports only a task it could decode and
  a result it could encode (`workerStep`).
* Go `int` is `Int`; the two counters never come near `2^63`.
* A Go `error` is its message; a function returning `(x, error)` returns an
  `Outcome`, and a function that writes to the package-level variables returns
  the store it leaves behind as well, whatever the outcome.  A nil-pointer
  dereference is the separate outcome `panic`.
* The package-level variables form the record `Store`.  A `*Task` is the key
  under which the task is registered in `tasks` (the only place where a task
  is allocated, `buildTasks`, registers it under its fresh id at once), so the
  ready queue is a list of task keys.
* The parser state `(input, pos)` is the unread suffix `input[pos:]`.
* Input text is a sequence of Unicode characters (valid UTF-8).  The parser of
  the source reads bytes: it compares them with ASCII characters only, which a
  byte of a multi-byte character never equals, and it shows a byte only in the
  message "Unexpected character", which `byteString` reproduces.
* The recursion and the loops of the parser run on a step budget; `Res.fuel`
  is the answer of a function whose budget is used up.  The budget that
  `parseExpression` hands out is never used up (`parseExpr_parseFuel`).
-/

namespace Orchestrator

/-! ## Numbers -/

/-- Model of `float64` (IEEE 754 binary64): a finite number given by its exact
rational value (`num 0` is the zero with the positive sign), the zero with the
negative sign, an infinity, or the not-a-number value.  The finite numbers of
binary64 are the values that `Float64.ofRat` returns; the operations below
return no others. -/
inductive Float64 where
  | num (q : ℚ)
  | negZero
  | inf (neg : Bool)
  | NaN
deriving DecidableEq

namespace Float64

/-- The power `2 ^ e` of two with an integer exponent. -/
def pow2 (e : Int) : ℚ :=
  if 0 ≤ e then ((2 ^ e.toNat : Nat) : ℚ) else 1 / ((2 ^ (-e).toNat : Nat) : ℚ)

/-- The number of halvings that take `n` below 2, in at most `f` steps. -/
def log2Fuel : Nat → Nat → Nat
  | 0, _ => 0
  | f + 1, n => if n < 2 then 0 else log2Fuel f (n / 2) + 1

/-- The integer part of the binary logarithm of a natural number (0 for 0). -/
def nlog2 (n : Nat) : Nat := log2Fuel n n

/-- The integer part of the binary logarithm of a positive rational. -/
def ilog2 (q : ℚ) : Int :=
  let k : Int := (nlog2 q.num.natAbs : Int) - (nlog2 q.den : Int)
  if pow2 k ≤ q then k else k - 1

/-- Rounding to the nearest integer, a tie to the even one. -/
def roundHalfEven (x : ℚ) : Int :=
  let f := x.floor
  let r := x - f
  if r < 1 / 2 then f
  else if 1 / 2 < r then f + 1
  else if f % 2 = 0 then f else f + 1

/-- The binary64 number nearest to a positive rational (a tie to the even
significand): 53 bits of significand, the least exponent that of the
subnormal numbers; none when the rounded value is `2 ^ 1024` or more. -/
def roundMag (q : ℚ) : Option ℚ :=
  let e := max (ilog2 q - 52) (-1074)
  let r := (roundHalfEven (q / pow2 e) : ℚ) * pow2 e
  if pow2 1024 ≤ r then none else some r

/-- The float64 result of an operation whose exact result is `q`, rounded to
nearest; `neg` is the sign given to an exact zero. -/
def ofRat (neg : Bool) (q : ℚ) : Float64 :=
  if q = 0 then (if neg then negZero else num 0)
  else
    match roundMag |q| with
    | none => inf (decide (q < 0))
    | some r =>
      if r = 0 then (if q < 0 then negZero else num 0)
      else num (if q < 0 then -r else r)

/-- Model of `math.IsNaN`. -/
def isNaN : Float64 → Bool
  | NaN => true
  | _ => false

/-- Neither an infinity nor NaN: the values `encoding/json` writes and reads. -/
def isFinite : Float64 → Bool
  | num _ => true
  | negZero => true
  | _ => false

/-- The comparison `x == 0`. -/
def isZero : Float64 → Bool
  | num q => decide (q = 0)
  | negZero => true
  | _ => false

/-- The sign bit (false for NaN, whose sign no operation here reads). -/
def sign : Float64 → Bool
  | num q => decide (q < 0)
  | negZero => true
  | inf neg => neg
  | NaN => false

/-- The exact value of a finite number (0 for the others). -/
def toRat : Float64 → ℚ
  | num q => q
  | _ => 0

/-- The zero with the given sign. -/
def zero (neg : Bool) : Float64 := if neg then negZero else num 0

/-- Float negation `-a`. -/
def neg : Float64 → Float64
  | num q => if q = 0 then negZero else num (-q)
  | negZero => num 0
  | inf n => inf (!n)
  | NaN => NaN

/-- Float addition `a + b`. -/
def add (a b : Float64) : Float64 :=
  if a.isFinite && b.isFinite then ofRat (a.sign && b.sign) (a.toRat + b.toRat)
  else if a.isNaN || b.isNaN then NaN
  else if !a.isFinite && !b.isFinite then (if a.sign = b.sign then a else NaN)
  else if !a.isFinite then a
  else b

/-- Float subtraction `a - b`. -/
def sub (a b : Float64) : Float64 := add a (neg b)

/-- Float multiplication `a * b`. -/
def mul (a b : Float64) : Float64 :=
  if a.isFinite && b.isFinite then ofRat (a.sign != b.sign) (a.toRat * b.toRat)
  else if a.isNaN || b.isNaN then NaN
  else if a.isZero || b.isZero then NaN
  else inf (a.sign != b.sign)

/-- Float division `a / b`. -/
def div (a b : Float64) : Float64 :=
  if a.isNaN || b.isNaN then NaN
  else if a.isFinite && b.isFinite then
    if b.isZero then (if a.isZero then NaN else inf (a.sign != b.sign))
    else ofRat (a.sign != b.sign) (a.toRat / b.toRat)
  else if !a.isFinite && !b.isFinite then NaN
  else if !a.isFinite then inf (a.sign != b.sign)
  else zero (a.sign != b.sign)

end Float64

/-! ## Outcomes -/

/-- Result of a call: a value, a returned error (its message), or a run-time
panic. -/
inductive Outcome (α : Type) where
  | ok (a : α)
  | error (msg : String)
  | panic (msg : String)
deriving DecidableEq

/-- Result of a parsing function run with a step budget. -/
inductive Res (α : Type) where
  | ok (a : α)
  | err (msg : String)
  | fuel
deriving DecidableEq

/-! ## Data model -/

/-- Go `Expression`. -/
structure Expression where
  ID : Int
  Raw : String
  Status : String
  Result : Float64
  TaskIDs : List Int
  RootTaskID : Int
deriving DecidableEq

/-- Go `Task`. -/
structure Task where
  ID : Int
  ExpressionID : Int
  Operator : String
  Arg1 : Float64
  Arg2 : Float64
  Result : Float64
  Status : String
  LeftDependency : Int
  RightDependency : Int
  OperationTime : Int
deriving DecidableEq

/-- Go `*Node`: `nil` is the nil pointer. -/
inductive Node where
  | nil
  | mk (Op : String) (Value : Float64) (Left Right : Node)
deriving DecidableEq

/-- The package-level variables `expressions`, `tasks`, `readyTasks`,
`exprCounter`, `taskCounter`. -/
structure Store where
  expressions : Int → Option Expression
  tasks : Int → Option Task
  readyTasks : List Int
  exprCounter : Int
  taskCounter : Int

/-- The store at process start. -/
def Store.init : Store :=
  { expressions := fun _ => none
    tasks := fun _ => none
    readyTasks := []
    exprCounter := 0
    taskCounter := 0 }

/-! ## Parser -/

/-- The unread part of the input, `input[pos:]`. -/
abbrev parser := List Char

/-- Go `peek`. -/
def peek : parser → Char
  | [] => Char.ofNat 0
  | c :: _ => c

/-- Go `next`: the byte read and the advanced parser. -/
def next : parser → Char × parser
  | [] => (Char.ofNat 0, [])
  | c :: r => (c, r)

/-- Go `skipWhitespace`. -/
def skipWhitespace : parser → parser
  | [] => []
  | c :: r => if c = ' ' ∨ c = '\t' then skipWhitespace r else c :: r

/-- The test `ch >= '0' && ch <= '9'`. -/
def isDigit (ch : Char) : Bool := decide ('0' ≤ ch ∧ ch ≤ '9')

/-- The value `strconv.ParseFloat(string(ch), 64)` of a digit. -/
def digitValue (ch : Char) : Float64 := Float64.num ((ch.toNat - 48 : Nat) : ℚ)

/-- The first byte of the UTF-8 encoding of a character: what the byte-wise
parser sees at the position of that character. -/
def firstByte (c : Char) : Nat :=
  let n := c.toNat
  if n < 128 then n
  else if n < 2048 then 192 + n / 64
  else if n < 65536 then 224 + n / 4096
  else 240 + n / 262144

/-- Go `string(ch)` for a byte `ch`. -/
def byteString (c : Char) : String := String.singleton (Char.ofNat (firstByte c))

mutual
/-- Go `parseExpr`, the part before the loop. -/
def parseExpr : Nat → parser → Res (Node × parser)
  | 0, _ => .fuel
  | n + 1, p =>
    match parseTerm n p with
    | .ok (node, p) => parseExprLoop n node p
    | .err e => .err e
    | .fuel => .fuel
/-- The `for` loop of `parseExpr`. -/
def parseExprLoop : Nat → Node → parser → Res (Node × parser)
  | 0, _, _ => .fuel
  | n + 1, node, p =>
    let p := skipWhitespace p
    let ch := peek p
    if ch = '+' ∨ ch = '-' then
      let op := byteString (next p).1
      match parseTerm n (next p).2 with
      | .ok (right, p) => parseExprLoop n (Node.mk op (Float64.num 0) node right) p
      | .err e => .err e
      | .fuel => .fuel
    else .ok (node, p)
/-- Go `parseTerm`, the part before the loop. -/
def parseTerm : Nat → parser → Res (Node × parser)
  | 0, _ => .fuel
  | n + 1, p =>
    match parseFactor n p with
    | .ok (node, p) => parseTermLoop n node p
    | .err e => .err e
    | .fuel => .fuel
/-- The `for` loop of `parseTerm`. -/
def parseTermLoop : Nat → Node → parser → Res (Node × parser)
  | 0, _, _ => .fuel
  | n + 1, node, p =>
    let p := skipWhitespace p
    let ch := peek p
    if ch = '*' ∨ ch = '/' then
      let op := byteString (next p).1
      match parseFactor n (next p).2 with
      | .ok (right, p) => parseTermLoop n (Node.mk op (Float64.num 0) node right) p
      | .err e => .err e
      | .fuel => .fuel
    else .ok (node, p)
/-- Go `parseFactor`. -/
def parseFactor : Nat → parser → Res (Node × parser)
  | 0, _ => .fuel
  | n + 1, p =>
    let p := skipWhitespace p
    let ch := peek p
    if isDigit ch then
      let p := (next p).2
      if p ≠ [] ∧ isDigit (peek p) then .err "LenNumError"
      else .ok (Node.mk "" (digitValue ch) Node.nil Node.nil, p)
    else if ch = '(' then
      let p := (next p).2
      match parseExpr n p with
      | .ok (node, p) =>
        let p := skipWhitespace p
        if peek p ≠ ')' then .err "Parenthesis error"
        else .ok (node, (next p).2)
      | .err e => .err e
      | .fuel => .fuel
    else .err ("Unexpected character: " ++ byteString ch)
end

/-- Go `unicode.IsSpace`. -/
def isSpace (c : Char) : Bool :=
  let n := c.toNat
  (9 ≤ n ∧ n ≤ 13) ∨ n = 32 ∨ n = 133 ∨ n = 160 ∨ n = 5760 ∨ (8192 ≤ n ∧ n ≤ 8202)
    ∨ n = 8232 ∨ n = 8233 ∨ n = 8239 ∨ n = 8287 ∨ n = 12288

/-- Go `strings.TrimSpace`. -/
def TrimSpace (s : List Char) : List Char :=
  ((s.dropWhile isSpace).reverse.dropWhile isSpace).reverse

/-- Step budget that `parseExpr` never exhausts on an input of this length. -/
def parseFuel (p : parser) : Nat := 3 * p.length + 5

/-- Go `parseExpression`. -/
def parseExpression (input : String) : Outcome Node :=
  let p : parser := TrimSpace input.data
  let p := skipWhitespace p
  match parseExpr (parseFuel p) p with
  | .err e => .error e
  | .fuel => .error "out of fuel"
  | .ok (node, p) =>
    let p := skipWhitespace p
    if p ≠ [] then .error "CharactersError" else .ok node

/-! ## Task builder -/

/-- Go `getOperationTime`. -/
def getOperationTime (varName : String) : Int :=
  if varName = "TIME_ADDITION_MS" then 500
  else if varName = "TIME_SUBTRACTION_MS" then 500
  else if varName = "TIME_MULTIPLICATIONS_MS" then 700
  else if varName = "TIME_DIVISIONS_MS" then 800
  else 1000

/-- The `switch node.Op` of `buildTasks`. -/
def operationTime (op : String) : Int :=
  if op = "+" then getOperationTime "TIME_ADDITION_MS"
  else if op = "-" then getOperationTime "TIME_SUBTRACTION_MS"
  else if op = "*" then getOperationTime "TIME_MULTIPLICATIONS_MS"
  else if op = "/" then getOperationTime "TIME_DIVISIONS_MS"
  else 1000

/-- Go `nextExprID`. -/
def nextExprID (s : Store) : Int × Store :=
  (s.exprCounter + 1, { s with exprCounter := s.exprCounter + 1 })

/-- Go `nextTaskID`. -/
def nextTaskID (s : Store) : Int × Store :=
  (s.taskCounter + 1, { s with taskCounter := s.taskCounter + 1 })

/-- The task that `buildTasks` leaves registered for an internal node: the
struct literal, the operation time, and the two writes of `math.NaN()` made
through the registered pointer. -/
def newTask (id exprID : Int) (op : String) (leftVal rightVal : Float64)
    (leftTaskID rightTaskID : Int) : Task :=
  { ID := id
    ExpressionID := exprID
    Operator := op
    Arg1 := if leftTaskID ≠ 0 then Float64.NaN else leftVal
    Arg2 := if rightTaskID ≠ 0 then Float64.NaN else rightVal
    Result := Float64.num 0
    Status := "pending"
    LeftDependency := leftTaskID
    RightDependency := rightTaskID
    OperationTime := operationTime op }

/-- Go `buildTasks`; the slice behind `taskIDs` travels with the store. -/
def buildTasks : Node → Int → Store × List Int →
    Outcome (Float64 × Int) × (Store × List Int)
  | .nil, _, st => (.error "nil node", st)
  | .mk op value left right, exprID, st =>
    if op = "" then (.ok (value, 0), st)
    else
      match buildTasks left exprID st with
      | (.ok (leftVal, leftTaskID), st) =>
        match buildTasks right exprID st with
        | (.ok (rightVal, rightTaskID), (s, taskIDs)) =>
          let id := (nextTaskID s).1
          let s := (nextTaskID s).2
          let task := newTask id exprID op leftVal rightVal leftTaskID rightTaskID
          let s := { s with tasks := Function.update s.tasks task.ID (some task) }
          (.ok (Float64.NaN, task.ID), (s, taskIDs ++ [task.ID]))
        | (.error e, st) => (.error e, st)
        | (.panic e, st) => (.panic e, st)
      | (.error e, st) => (.error e, st)
      | (.panic e, st) => (.panic e, st)

/-! ## Task store and scheduler -/

/-- The loop `for _, tid := range taskIDs` of `AddExpression`. -/
def enqueueReady : List Int → Store → Outcome Unit × Store
  | [], s => (.ok (), s)
  | tid :: rest, s =>
    match s.tasks tid with
    | none => (.panic "nil pointer dereference", s)
    | some t =>
      if t.LeftDependency = 0 ∧ t.RightDependency = 0 then
        enqueueReady rest { s with readyTasks := s.readyTasks ++ [tid] }
      else enqueueReady rest s

/-- Go `AddExpression`. -/
def AddExpression (raw : String) (s : Store) : Outcome Int × Store :=
  match parseExpression raw with
  | .error e => (.error e, s)
  | .panic e => (.panic e, s)
  | .ok node =>
    let exprID := (nextExprID s).1
    let s := (nextExprID s).2
    match buildTasks node exprID (s, []) with
    | (.error e, (s, _)) => (.error e, s)
    | (.panic e, (s, _)) => (.panic e, s)
    | (.ok (_, rootTaskID), (s, taskIDs)) =>
      let exprStatus := if rootTaskID = 0 then "completed" else "pending"
      let expression : Expression :=
        { ID := exprID
          Raw := raw
          Status := exprStatus
          Result := Float64.NaN
          TaskIDs := taskIDs
          RootTaskID := rootTaskID }
      let s := { s with expressions := Function.update s.expressions exprID (some expression) }
      match enqueueReady taskIDs s with
      | (.ok _, s) => (.ok exprID, s)
      | (.error e, s) => (.error e, s)
      | (.panic e, s) => (.panic e, s)

/-- Go `GetExpression`. -/
def GetExpression (id : Int) (s : Store) : Option Expression := s.expressions id

/-- Go `GetReadyTask`; the pointer returned is the key of the task. -/
def GetReadyTask (s : Store) : Outcome Int × Store :=
  match s.readyTasks with
  | [] => (.error "No task available", s)
  | t :: rest => (.ok t, { s with readyTasks := rest })

/-- One pass of the body of the loop of `CompleteTask` over the task `child`:
the updated task and the flag `updated`. -/
def resolveChild (tID : Int) (result : Float64) (child : Task) : Task × Bool :=
  let updated := false
  let c1 : Task × Bool :=
    if child.LeftDependency = tID then
      ({ child with Arg1 := result, LeftDependency := 0 }, true)
    else (child, updated)
  if c1.1.RightDependency = tID then
    ({ c1.1 with Arg2 := result, RightDependency := 0 }, true)
  else c1

/-- The loop `for _, tid := range expressions[t.ExpressionID].TaskIDs` of
`CompleteTask`. -/
def propagate (tID : Int) (result : Float64) : List Int → Store → Outcome Unit × Store
  | [], s => (.ok (), s)
  | tid :: rest, s =>
    match s.tasks tid with
    | none => (.panic "nil pointer dereference", s)
    | some child =>
      let c := resolveChild tID result child
      let s := { s with tasks := Function.update s.tasks tid (some c.1) }
      if c.2 = true ∧ c.1.LeftDependency = 0 ∧ c.1.RightDependency = 0
          ∧ c.1.Status = "pending" then
        propagate tID result rest { s with readyTasks := s.readyTasks ++ [tid] }
      else propagate tID result rest s

/-- The end of `CompleteTask`: `expr := expressions[t.ExpressionID]` and the
test `t.ID == expr.RootTaskID`. -/
def completeRoot (t : Task) (result : Float64) (s : Store) : Outcome Unit × Store :=
  match s.expressions t.ExpressionID with
  | none => (.panic "nil pointer dereference", s)
  | some expr =>
    if t.ID = expr.RootTaskID then
      let expr := { expr with Status := "completed", Result := result }
      (.ok (), { s with
        expressions := Function.update s.expressions t.ExpressionID (some expr) })
    else (.ok (), s)

/-- The writes `t.Result = result; t.Status = "completed"` through the pointer
registered under `taskID`. -/
def markCompleted (taskID : Int) (t : Task) (result : Float64) (s : Store) : Store :=
  let t : Task := { t with Result := result, Status := "completed" }
  { s with tasks := Function.update s.tasks taskID (some t) }

/-- Go `CompleteTask`. -/
def CompleteTask (taskID : Int) (result : Float64) (s : Store) : Outcome Unit × Store :=
  match s.tasks taskID with
  | none => (.error "Task not found", s)
  | some t =>
    if t.Status ≠ "pending" then (.error "Task already completed", s)
    else
      let s := markCompleted taskID t result s
      match s.expressions t.ExpressionID with
      | none => (.panic "nil pointer dereference", s)
      | some e =>
        match propagate t.ID result e.TaskIDs s with
        | (.ok _, s) => completeRoot t result s
        | (.error e, s) => (.error e, s)
        | (.panic e, s) => (.panic e, s)

/-! ## Worker -/

/-- Go `computeOperation` of the agent. -/
def computeOperation (op : String) (a b : Float64) : Outcome Float64 :=
  if op = "+" then .ok (a.add b)
  else if op = "-" then .ok (a.sub b)
  else if op = "*" then .ok (a.mul b)
  else if op = "/" then
    if b.isZero then .error "division by zero"
    else .ok (a.div b)
  else .error "unknown operator"

/-- One round of the worker loop of the agent against the store, through the
handlers `GetTask` and `PostTaskResult`.  The head task is taken and sent as
JSON: `Encode` writes nothing when a float field of the task is not finite, and
the agent drops such a response.  The agent computes the operation and posts
the value: `json.Marshal` gives no body for a value that is not finite, the
handler answers 422 and the store stays as it is.  A task whose computation
fails is dropped. -/
def workerStep (s : Store) : Store :=
  match GetReadyTask s with
  | (.ok tid, s1) =>
    match s1.tasks tid with
    | none => s1
    | some task =>
      if task.Arg1.isFinite && task.Arg2.isFinite && task.Result.isFinite then
        match computeOperation task.Operator task.Arg1 task.Arg2 with
        | .ok result => if result.isFinite then (CompleteTask task.ID result s1).2 else s1
        | _ => s1
      else s1
  | (_, s1) => s1

/-- Worker rounds repeated until the ready queue is empty, at most `n` of them. -/
def drain : Nat → Store → Store
  | 0, s => s
  | n + 1, s => if s.readyTasks = [] then s else drain n (workerStep s)

/-! ## Call sequences -/

/-- A call of one of the three mutating operations. -/
inductive Call where
  | add (raw : String)
  | get
  | complete (taskID : Int) (result : Float64)

/-- The store after a call. -/
def step (s : Store) : Call → Store
  | .add raw => (AddExpression raw s).2
  | .get => (GetReadyTask s).2
  | .complete taskID result => (CompleteTask taskID result s).2

/-- The store after a sequence of calls. -/
def run (calls : List Call) (s : Store) : Store := calls.foldl step s

/-- A store that some sequence of calls produces from the initial store. -/
def Reachable (s : Store) : Prop := ∃ calls, s = run calls Store.init

/-! ## Auxiliary definitions for the statements -/

/-- A leaf node as `parseFactor` allocates it. -/
def leafNode (ch : Char) : Node := Node.mk "" (digitValue ch) Node.nil Node.nil

/-- An operator node as the loops of `parseExpr` and `parseTerm` allocate it. -/
def opNode (ch : Char) (l r : Node) : Node := Node.mk (byteString ch) (Float64.num 0) l r

/-- Whether two adjacent characters of the text are both decimal digits. -/
def hasDigitPair : List Char → Bool
  | a :: b :: r => (isDigit a && isDigit b) || hasDigitPair (b :: r)
  | _ => false

/-- The shape of the trees the parser builds: a leaf has the empty operator, a
number as value and no children; an internal node has one of the four
operators and two trees as children. -/
def Node.isTree : Node → Bool
  | .nil => false
  | .mk op v l r =>
    if op = "" then decide (l = Node.nil) && decide (r = Node.nil) && v.isFinite
    else decide (op = "+" ∨ op = "-" ∨ op = "*" ∨ op = "/") && l.isTree && r.isTree

/-- The error messages of the parser. -/
def isParseError (e : String) : Prop :=
  e = "LenNumError" ∨ e = "Parenthesis error" ∨ e = "CharactersError" ∨
    ∃ ch : Char, e = "Unexpected character: " ++ byteString ch

/-- The text `pre` read by a parsing step, followed by the first unread
character, holds no two adjacent digits. -/
def ReadOk (pre rest : List Char) : Prop := hasDigitPair (pre ++ rest.take 1) = false

/-- What is known of a parsing step that went from `p` to `p'` and returned
`node`. -/
def Sound (p : parser) (node : Node) (p' : parser) : Prop :=
  (∃ pre, p = pre ++ p' ∧ ReadOk pre p') ∧ node.isTree = true

/-- Number of internal nodes of a tree: the number of tasks `buildTasks` creates for it. -/
def Node.size : Node → Nat
  | .nil => 0
  | .mk op _ l r => if op = "" then 0 else l.size + r.size + 1

/-- The value `buildTasks` returns for a tree. -/
def Node.retVal : Node → Float64
  | .nil => Float64.num 0
  | .mk op v _ _ => if op = "" then v else Float64.NaN

/-- The task id `buildTasks` returns for a tree when the task counter stands at `c`. -/
def Node.rootID (c : Int) : Node → Int
  | .nil => 0
  | .mk op _ l r => if op = "" then 0 else c + (l.size + r.size + 1 : Nat)

/-- The tasks `buildTasks` creates for a tree, in the order of their creation,
for expression `e` when the task counter stands at `c`. -/
def Node.tasks (e : Int) : Node → Int → List Task
  | .nil, _ => []
  | .mk op _ l r, c =>
    if op = "" then []
    else
      l.tasks e c ++ r.tasks e (c + (l.size : Nat)) ++
        [newTask (c + (l.size : Nat) + (r.size : Nat) + 1) e op l.retVal r.retVal
          (l.rootID c) (r.rootID (c + (l.size : Nat)))]

/-- The task map after the registrations `tasks[task.ID] = task` of a list of tasks. -/
def register (ts : List Task) (m : Int → Option Task) : Int → Option Task :=
  ts.foldl (fun m t => Function.update m t.ID (some t)) m

/-- The ids `c + 1, ..., c + n`. -/
def idRange (c : Int) (n : Nat) : List Int := (List.range n).map (fun (i : Nat) => c + 1 + (i : Int))

/-- The test `t.LeftDependency == 0 && t.RightDependency == 0`. -/
def Task.unblocked (t : Task) : Bool := decide (t.LeftDependency = 0 ∧ t.RightDependency = 0)

/-- The test of `enqueueReady` on the task registered under `k`. -/
def unblockedAt (m : Int → Option Task) (k : Int) : Bool :=
  match m k with
  | some t => t.unblocked
  | none => false

/-- The store `AddExpression` leaves behind when the text parses to `node`. -/
def addResult (raw : String) (node : Node) (s : Store) : Store :=
  { expressions := Function.update s.expressions (s.exprCounter + 1)
      (some
        { ID := s.exprCounter + 1
          Raw := raw
          Status := if node.rootID s.taskCounter = 0 then "completed" else "pending"
          Result := Float64.NaN
          TaskIDs := (node.tasks (s.exprCounter + 1) s.taskCounter).map (·.ID)
          RootTaskID := node.rootID s.taskCounter })
    tasks := register (node.tasks (s.exprCounter + 1) s.taskCounter) s.tasks
    readyTasks := s.readyTasks ++
      ((node.tasks (s.exprCounter + 1) s.taskCounter).filter Task.unblocked).map (·.ID)
    exprCounter := s.exprCounter + 1
    taskCounter := s.taskCounter + (node.size : Nat) }

/-- The task map after the loop of `CompleteTask` has gone over the ids `ids`. -/
def resolveAll (tID : Int) (result : Float64) (ids : List Int) (m : Int → Option Task) :
    Int → Option Task :=
  fun k => if k ∈ ids then (m k).map (fun c => (resolveChild tID result c).1) else m k

/-- Whether the loop of `CompleteTask` appends the task registered under `k` to
the ready queue. -/
def newlyReady (tID : Int) (result : Float64) (m : Int → Option Task) (k : Int) : Bool :=
  match m k with
  | some c =>
    (resolveChild tID result c).2 && decide ((resolveChild tID result c).1.LeftDependency = 0)
      && decide ((resolveChild tID result c).1.RightDependency = 0)
      && decide ((resolveChild tID result c).1.Status = "pending")
  | none => false

/-- The store a successful `CompleteTask` leaves behind, for the task `t`
registered under `taskID` and its expression `x`. -/
def completeResult (taskID : Int) (t : Task) (x : Expression) (result : Float64)
    (s : Store) : Store :=
  let s1 := markCompleted taskID t result s
  let s2 : Store :=
    { s1 with
      tasks := resolveAll t.ID result x.TaskIDs s1.tasks
      readyTasks := s1.readyTasks ++ x.TaskIDs.filter (newlyReady t.ID result s1.tasks) }
  if t.ID = x.RootTaskID then
    let x' : Expression := { x with Status := "completed", Result := result }
    { s2 with expressions := Function.update s2.expressions t.ExpressionID (some x') }
  else s2

/-- The ids a call appends to the ready queue. -/
def appended (s : Store) : Call → List Int
  | .get => []
  | c => (step s c).readyTasks.drop s.readyTasks.length

/-- The ids appended to the ready queue during a sequence of calls, in order. -/
def enqueued : List Call → Store → List Int
  | [], _ => []
  | c :: cs, s => appended s c ++ enqueued cs (step s c)

/-- A dependency slot holding `d` of the task registered under `k`: empty, or
the id of a pending task of the same expression with a smaller id. -/
def DepOk (s : Store) (k : Int) (t : Task) (d : Int) : Prop :=
  d ≠ 0 → ∃ td, s.tasks d = some td ∧ td.Status = "pending" ∧
    td.ExpressionID = t.ExpressionID ∧ d < k

/-- Well-formedness of a store, together with the list `log` of the ids that
have been appended to its ready queue so far. -/
structure Inv (s : Store) (log : List Int) : Prop where
  counters : 0 ≤ s.exprCounter ∧ 0 ≤ s.taskCounter
  task_key : ∀ k t, s.tasks k = some t → t.ID = k ∧ 0 < k ∧ k ≤ s.taskCounter
  task_expr : ∀ k t, s.tasks k = some t →
    ∃ x, s.expressions t.ExpressionID = some x ∧ k ∈ x.TaskIDs
  expr_key : ∀ i x, s.expressions i = some x → x.ID = i ∧ 0 < i ∧ i ≤ s.exprCounter
  expr_tasks : ∀ i x, s.expressions i = some x →
    ∀ k ∈ x.TaskIDs, ∃ t, s.tasks k = some t ∧ t.ExpressionID = i
  expr_nodup : ∀ i x, s.expressions i = some x → x.TaskIDs.Nodup
  status : ∀ k t, s.tasks k = some t → t.Status = "pending" ∨ t.Status = "completed"
  root : ∀ i x, s.expressions i = some x → x.RootTaskID ≠ 0 →
    ∃ t, s.tasks x.RootTaskID = some t ∧ t.ExpressionID = i ∧
      (x.Status = "completed" ↔ t.Status = "completed") ∧
      (x.Status = "completed" → x.Result = t.Result)
  deps : ∀ k t, s.tasks k = some t →
    DepOk s k t t.LeftDependency ∧ DepOk s k t t.RightDependency
  log_nodup : log.Nodup
  log_unblocked : ∀ k ∈ log, ∃ t, s.tasks k = some t ∧
    t.LeftDependency = 0 ∧ t.RightDependency = 0
  ready_log : ∃ pre, log = pre ++ s.readyTasks
  pending_logged : ∀ k t, s.tasks k = some t → t.LeftDependency = 0 →
    t.RightDependency = 0 → t.Status = "pending" → k ∈ log

/-- What a successful `CompleteTask taskID result` does to the task `u`
registered under `k`, when `ids` is the task list of the expression of the
completed task. -/
def stepTask (taskID : Int) (result : Float64) (ids : List Int) (k : Int) (u : Task) : Task :=
  let u1 : Task := if k = taskID then { u with Result := result, Status := "completed" } else u
  if k ∈ ids then (resolveChild taskID result u1).1 else u1

/-- On each side of every registered task, the dependency is none exactly when
the operand is a number. -/
def ArgsOk (s : Store) : Prop :=
  ∀ k t, s.tasks k = some t →
    (t.LeftDependency = 0 ↔ t.Arg1 ≠ Float64.NaN) ∧
    (t.RightDependency = 0 ↔ t.Arg2 ≠ Float64.NaN)

/-- On each side of every registered task, a dependency that is set comes with
the unresolved operand. -/
def BlockedArgsNaN (s : Store) : Prop :=
  ∀ k t, s.tasks k = some t →
    (t.LeftDependency ≠ 0 → t.Arg1 = Float64.NaN) ∧
    (t.RightDependency ≠ 0 → t.Arg2 = Float64.NaN)

/-- A call that reports no NaN: every call but a `CompleteTask` with result NaN. -/
def Call.reportsNumber : Call → Prop
  | .complete _ result => result ≠ Float64.NaN
  | _ => True

/-- A call as the handlers of the API make it.  `PostTaskResult`, the only
caller of `CompleteTask`, takes the result from the JSON body of the request
with `json.Unmarshal` and answers 422 without a call when that fails: the
float64 of a JSON number is finite (JSON has neither NaN nor an infinity, a
number out of range is a decoding error, a missing field leaves 0). -/
def Call.fromHandler : Call → Prop
  | .complete _ result => result.isFinite = true
  | _ => True

/-- On each side of every registered task, an operand without dependency is a
finite number. -/
def ArgsFinite (s : Store) : Prop :=
  ∀ k t, s.tasks k = some t →
    (t.LeftDependency = 0 → t.Arg1.isFinite = true) ∧
    (t.RightDependency = 0 → t.Arg2.isFinite = true)

/-! ### Reference semantics of expression texts -/

/-- An arithmetic expression: a digit or a binary operation. -/
inductive Exp where
  | lit (d : Char)
  | bin (op : Char) (l r : Exp)
deriving DecidableEq

/-- The three syntactic levels of the grammar. -/
inductive Level where
  | expr
  | term
  | factor
deriving DecidableEq

/-- The grammar of expression texts with standard precedence and left
associativity, `expr := term | expr ('+'|'-') term`,
`term := factor | term ('*'|'/') factor`, `factor := DIGIT | '(' expr ')'`,
each sentence with the expression it denotes. -/
inductive Sentence : Level → List Char → Exp → Prop where
  | digit (d : Char) : isDigit d = true → Sentence .factor [d] (.lit d)
  | paren {t : List Char} {e : Exp} : Sentence .expr t e →
      Sentence .factor ('(' :: t ++ [')']) e
  | factor {t : List Char} {e : Exp} : Sentence .factor t e → Sentence .term t e
  | mul {t1 t2 : List Char} {e1 e2 : Exp} (op : Char) : op = '*' ∨ op = '/' →
      Sentence .term t1 e1 → Sentence .factor t2 e2 →
      Sentence .term (t1 ++ op :: t2) (.bin op e1 e2)
  | term {t : List Char} {e : Exp} : Sentence .term t e → Sentence .expr t e
  | add {t1 t2 : List Char} {e1 e2 : Exp} (op : Char) : op = '+' ∨ op = '-' →
      Sentence .expr t1 e1 → Sentence .term t2 e2 →
      Sentence .expr (t1 ++ op :: t2) (.bin op e1 e2)

/-- The value of an expression in exact arithmetic; none when a division by
zero occurs in its evaluation. -/
def Exp.value : Exp → Option ℚ
  | .lit d => some ((d.toNat - 48 : Nat) : ℚ)
  | .bin op l r =>
    match l.value, r.value with
    | some a, some b =>
      if op = '+' then some (a + b)
      else if op = '-' then some (a - b)
      else if op = '*' then some (a * b)
      else if op = '/' then (if b = 0 then none else some (a / b))
      else none
    | _, _ => none

/-- A rational that is a float64 number: rounding returns it as it is. -/
def Float64.fits (q : ℚ) : Bool := decide (Float64.ofRat false q = Float64.num q)

/-- Every operation of the expression has an exact value, and this value is a
float64 number. -/
def Exp.exact : Exp → Bool
  | .lit _ => true
  | .bin op l r =>
    l.exact && r.exact &&
      match (Exp.bin op l r).value with
      | some q => Float64.fits q
      | none => false

/-- The operator tree of an expression. -/
def Exp.toNode : Exp → Node
  | .lit d => leafNode d
  | .bin op l r => opNode op l.toNode r.toNode

/-- The product `8*8*...*8` of `n + 1` factors. -/
def eights : Nat → Exp
  | 0 => .lit '8'
  | n + 1 => .bin '*' (eights n) (.lit '8')

/-- The text of `eights n`. -/
def eightsText : Nat → List Char
  | 0 => ['8']
  | n + 1 => eightsText n ++ ['*', '8']

/-- The expression `1/(P+1-P)` for the product `P` of eighteen factors 8, which
is `2 ^ 54`; its exact value is 1. -/
def cancelExp : Exp :=
  .bin '/' (.lit '1') (.bin '-' (.bin '+' (eights 17) (.lit '1')) (eights 17))

/-- The value the workers compute for a tree: each internal node by
`computeOperation` from the values of its children; none when some
`computeOperation` fails or some value is not finite (such a value is not
passed on between the agent and the store). -/
def Node.eval : Node → Option Float64
  | .nil => none
  | .mk op v l r =>
    if op = "" then (if v.isFinite then some v else none)
    else
      match l.eval, r.eval with
      | some a, some b =>
        match computeOperation op a b with
        | .ok x => if x.isFinite then some x else none
        | _ => none
      | _, _ => none

/-- The unread text does not start with a digit. -/
def NoDigitNext (rest : List Char) : Prop := ¬ (rest ≠ [] ∧ isDigit (peek rest) = true)

/-- What the parser does on a sentence of each level followed by `rest`: a
factor is read by `parseFactor`; after a term `parseTerm` is where its loop
would be with the tree of the term; after an expression `parseExpr` is where
its loop would be with the tree of the expression. -/
def Complete : Level → List Char → Exp → Prop
  | .factor, t, e => ∀ rest, NoDigitNext rest →
      ∃ n0, ∀ n, n0 ≤ n → parseFactor n (t ++ rest) = .ok (e.toNode, rest)
  | .term, t, e => ∀ rest, NoDigitNext rest →
      ∀ m res, parseTermLoop m e.toNode rest = res → res ≠ .fuel →
        ∃ n0, ∀ n, n0 ≤ n → parseTerm n (t ++ rest) = res
  | .expr, t, e => ∀ rest, NoDigitNext rest →
      peek (skipWhitespace rest) ≠ '*' ∧ peek (skipWhitespace rest) ≠ '/' →
      ∀ m res, parseExprLoop m e.toNode rest = res → res ≠ .fuel →
        ∃ n0, ∀ n, n0 ≤ n → parseExpr n (t ++ rest) = res

/-- Number of operators of an expression. -/
def Exp.ops : Exp → Nat
  | .lit _ => 0
  | .bin _ l r => l.ops + r.ops + 1

/-! ### The plan of an expression: what each of its tasks has to compute -/

/-- A task as `buildTasks` creates it, with the values of its two operands and
of its result in the workers' evaluation of the tree. -/
structure PlanEntry where
  task : Task
  a : Float64
  b : Float64
  val : Float64

/-- The workers' value of a tree, NaN when there is none. -/
def Node.evalD (node : Node) : Float64 := node.eval.getD Float64.NaN

/-- The plan of a tree: its tasks in the order of `Node.tasks`, with their values. -/
def Node.plan (e : Int) : Node → Int → List PlanEntry
  | .nil, _ => []
  | .mk op v l r, c =>
    if op = "" then []
    else
      l.plan e c ++ r.plan e (c + (l.size : Nat)) ++
        [{ task := newTask (c + (l.size : Nat) + (r.size : Nat) + 1) e op l.retVal r.retVal
              (l.rootID c) (r.rootID (c + (l.size : Nat)))
           a := l.evalD
           b := r.evalD
           val := (Node.mk op v l r).evalD }]

/-- A dependency slot of a task during the evaluation of its plan: `d0` and `a`
are the dependency the task was created with and the value of the operand;
`d` and `arg` are the dependency and operand the task holds now.  Either the
slot is resolved and holds the value, or it still waits for a pending task. -/
def SlotOk (s : Store) (d0 : Int) (a : Float64) (d : Int) (arg : Float64) : Prop :=
  (d = 0 ∧ arg = a) ∨
    (d0 ≠ 0 ∧ d = d0 ∧ ∃ td, s.tasks d0 = some td ∧ td.Status = "pending")

/-- The state of the task `t` of a plan entry during the evaluation of the
plan; `hole` is the id of a task that has been dequeued and not yet reported. -/
structure EntryOk (s : Store) (e hole : Int) (p : PlanEntry) (t : Task) : Prop where
  op : t.Operator = p.task.Operator
  expr : t.ExpressionID = e
  status : t.Status = "pending" ∨ (t.Status = "completed" ∧ t.Result = p.val)
  left : SlotOk s p.task.LeftDependency p.a t.LeftDependency t.Arg1
  right : SlotOk s p.task.RightDependency p.b t.RightDependency t.Arg2
  queued : p.task.ID ≠ hole → t.Status = "pending" → t.LeftDependency = 0 →
    t.RightDependency = 0 → p.task.ID ∈ s.readyTasks
  pending : p.task.ID ∈ s.readyTasks → t.Status = "pending"
  result : t.Result.isFinite = true

/-- The state of expression `e` and of the tasks of its plan during the
evaluation. -/
def PlanInv (plan : List PlanEntry) (e root hole : Int) (s : Store) : Prop :=
  (∃ x, s.expressions e = some x ∧ x.TaskIDs = plan.map (fun p => p.task.ID) ∧
    x.RootTaskID = root) ∧
  ∀ p ∈ plan, ∃ t, s.tasks p.task.ID = some t ∧ EntryOk s e hole p t

/-- The static properties of a plan. -/
structure PlanOk (plan : List PlanEntry) : Prop where
  pos : ∀ p ∈ plan, 0 < p.task.ID
  unique : ∀ p ∈ plan, ∀ q ∈ plan, p.task.ID = q.task.ID → p = q
  compute : ∀ p ∈ plan, computeOperation p.task.Operator p.a p.b = .ok p.val
  finite : ∀ p ∈ plan, p.a.isFinite = true ∧ p.b.isFinite = true ∧ p.val.isFinite = true
  left : ∀ p ∈ plan, p.task.LeftDependency ≠ 0 →
    p.task.LeftDependency < p.task.ID ∧
      ∃ q ∈ plan, q.task.ID = p.task.LeftDependency ∧ q.val = p.a
  right : ∀ p ∈ plan, p.task.RightDependency ≠ 0 →
    p.task.RightDependency < p.task.ID ∧
      ∃ q ∈ plan, q.task.ID = p.task.RightDependency ∧ q.val = p.b

/-! ### Whitespace and tokens -/

/-- The text `q` is the text `p` with spaces and tabs inserted at any places. -/
inductive Padded : List Char → List Char → Prop where
  | nil : Padded [] []
  | keep (c : Char) {a b : List Char} : Padded a b → Padded (c :: a) (c :: b)
  | pad (c : Char) {a b : List Char} : c = ' ' ∨ c = '\t' → Padded a b → Padded a (c :: b)

/-- The token sequence of a text: its characters that are neither a space nor a
tab (every token of the grammar is one character). -/
def tokens (p : List Char) : List Char := p.filter (fun c => !(decide (c = ' ' ∨ c = '\t')))

/-- A parsing step that went from `p` to `p'` and returned `node`, after the
tokens `t0` had been read: the tokens read so far form a sentence of the level
and `node` is the tree of the expression it denotes. -/
def Reads (lvl : Level) (t0 : List Char) (p : parser) (node : Node) (p' : parser) : Prop :=
  ∃ pre e, p = pre ++ p' ∧ Sentence lvl (t0 ++ tokens pre) e ∧ node = e.toNode

/-- The characters of which the tokens of the grammar consist. -/
def isTokenChar (c : Char) : Prop :=
  isDigit c = true ∨ c = '+' ∨ c = '-' ∨ c = '*' ∨ c = '/' ∨ c = '(' ∨ c = ')'

/-- The id a call hands out: the task a successful `GetReadyTask` returns. -/
def handedOut (s : Store) : Call → List Int
  | .get =>
    match (GetReadyTask s).1 with
    | .ok k => [k]
    | _ => []
  | _ => []

/-- The ids handed out by the `GetReadyTask` calls of a sequence, in order. -/
def returned : List Call → Store → List Int
  | [], _ => []
  | c :: cs, s => handedOut s c ++ returned cs (step s c)

/-! ### Waiting tasks -/

/-- The task registered under `u` waits for the task `v`: one of its dependency
slots holds `v`, or holds a task that waits for `v`. -/
inductive DependsOn (s : Store) : Int → Int → Prop where
  | direct {u v : Int} {t : Task} : s.tasks u = some t → v ≠ 0 →
      t.LeftDependency = v ∨ t.RightDependency = v → DependsOn s u v
  | via {u w v : Int} {t : Task} : s.tasks u = some t → w ≠ 0 →
      t.LeftDependency = w ∨ t.RightDependency = w → DependsOn s w v → DependsOn s u v

/-- Whether a call, made in the store `s`, is a `CompleteTask` call for a task
that still waits: a registered task with a dependency slot that is not cleared. -/
def Call.completesBlocked (s : Store) : Call → Bool
  | .complete a _ =>
    match s.tasks a with
    | some t => decide (t.LeftDependency ≠ 0 ∨ t.RightDependency ≠ 0)
    | none => false
  | _ => false

/-- Whether no call of a sequence, made from the store `s` on, is a
`CompleteTask` call for a task that still waits. -/
def orderly : List Call → Store → Bool
  | [], _ => true
  | c :: cs, s => !c.completesBlocked s && orderly cs (step s c)

/-- More of the well-formedness of a store: a pending task that is not the root
of its expression is held in a dependency slot of a task of the expression, and
an expression is pending or completed. -/
structure Inv2 (s : Store) : Prop where
  parent : ∀ k t x, s.tasks k = some t → t.Status = "pending" →
    s.expressions t.ExpressionID = some x → k ≠ x.RootTaskID →
    ∃ u tu, s.tasks u = some tu ∧ tu.ExpressionID = t.ExpressionID ∧
      (tu.LeftDependency = k ∨ tu.RightDependency = k)
  expr_status : ∀ i x, s.expressions i = some x →
    x.Status = "pending" ∨ x.Status = "completed"

/-- Every completed task has both dependency slots cleared. -/
def CompletedUnblocked (s : Store) : Prop :=
  ∀ k t, s.tasks k = some t → t.Status = "completed" →
    t.LeftDependency = 0 ∧ t.RightDependency = 0

/-- The state of a run in which no waiting task has been completed: the store
is well-formed, `log` are the ids appended to the ready queue so far, and only
tasks with cleared slots have been completed. -/
structure Protocol (s : Store) (log : List Int) : Prop where
  inv : Inv s log
  inv2 : Inv2 s
  unblocked : CompletedUnblocked s

/-- Whether a call is a `CompleteTask` call for the task `k`. -/
def Call.reports (k : Int) : Call → Bool
  | .complete a _ => decide (a = k)
  | _ => false

/-! ### The same text on two stores -/

/-- The task `t`, created for some expression when the task counter stood at
`c1`, as it is created for expression `e2` when the counter stands at `c2`. -/
def reindex (c1 c2 e2 : Int) (t : Task) : Task :=
  { t with
    ID := t.ID - c1 + c2
    ExpressionID := e2
    LeftDependency := if t.LeftDependency = 0 then 0 else t.LeftDependency - c1 + c2
    RightDependency := if t.RightDependency = 0 then 0 else t.RightDependency - c1 + c2 }

/-- Two task ids are both none, or stand at the same position of the two task lists. -/
def SamePos (l1 l2 : List Int) (d1 d2 : Int) : Prop :=
  (d1 = 0 ∧ d2 = 0) ∨ ∃ j : Nat, l1[j]? = some d1 ∧ l2[j]? = some d2

/-! ### Task ids -/

/-- The task ids a call assigns, in the order of their assignment: the ids
`buildTasks` has appended to the task list of the expression that a successful
`AddExpression` registers. -/
def assigned (s : Store) : Call → List Int
  | .add raw =>
    match AddExpression raw s with
    | (.ok id, s') =>
      match s'.expressions id with
      | some x => x.TaskIDs
      | none => []
    | _ => []
  | _ => []

/-- The task ids assigned during a sequence of calls, in the order of their assignment. -/
def created : List Call → Store → List Int
  | [], _ => []
  | c :: cs, s => assigned s c ++ created cs (step s c)

/-! ### The tasks of a tree in post-order -/

/-- One side of the task of a node, for the child on this side and the id
`childID` of the child's task: the child is a leaf, the operand is its literal
value and the dependency is none; or the child is an internal node, the operand
is unresolved and the dependency is `childID`. -/
inductive Side : Node → Int → Float64 → Int → Prop where
  | leaf (v : Float64) (childID : Int) : Side (Node.mk "" v Node.nil Node.nil) childID v 0
  | inner (op : String) (v : Float64) (l r : Node) (childID : Int) : op ≠ "" →
      Side (Node.mk op v l r) childID Float64.NaN childID

/-- The list of tasks the description of `buildTasks` prescribes for a tree,
for expression `e` and with the ids following `c`: none for a leaf; for an
internal node the tasks of the left subtree, then those of the right subtree,
then the task of the node itself, which gets the next id. -/
inductive PostOrder (e : Int) : Node → Int → List Task → Prop where
  | leaf (v : Float64) (c : Int) : PostOrder e (Node.mk "" v Node.nil Node.nil) c []
  | node (op : String) (v : Float64) (l r : Node) (c : Int) (tl tr : List Task) (t : Task) :
      op ≠ "" → PostOrder e l c tl → PostOrder e r (c + (tl.length : Nat)) tr →
      t.ID = c + (tl.length : Nat) + (tr.length : Nat) + 1 → t.ExpressionID = e →
      t.Operator = op → t.Status = "pending" →
      Side l (c + (tl.length : Nat)) t.Arg1 t.LeftDependency →
      Side r (c + (tl.length : Nat) + (tr.length : Nat)) t.Arg2 t.RightDependency →
      PostOrder e (Node.mk op v l r) c (tl ++ tr ++ [t])

/-! ## Theorems -/

/-! ### Parser: unfolding lemmas -/

theorem parseFactor_ok_iff (n : Nat) (p : parser) (node : Node) (p' : parser) :
    parseFactor (n + 1) p = .ok (node, p') ↔
      (isDigit (peek (skipWhitespace p)) = true ∧
        ¬ ((next (skipWhitespace p)).2 ≠ [] ∧ isDigit (peek (next (skipWhitespace p)).2) = true) ∧
        node = leafNode (peek (skipWhitespace p)) ∧ p' = (next (skipWhitespace p)).2) ∨
      (peek (skipWhitespace p) = '(' ∧
        ∃ p1, parseExpr n (next (skipWhitespace p)).2 = .ok (node, p1) ∧
          peek (skipWhitespace p1) = ')' ∧ p' = (next (skipWhitespace p1)).2) := by
  rw [parseFactor]
  generalize skipWhitespace p = q
  generalize hch : peek q = ch
  have hpar : isDigit '(' = false := by decide
  by_cases hd : isDigit ch = true
  · have hne : ch ≠ '(' := by rintro rfl; simp [hpar] at hd
    by_cases h2 : (next q).2 ≠ [] ∧ isDigit (peek (next q).2) = true
    · simp [hd, h2, hne]
    · simp only [hd, h2, if_true, if_false, leafNode, hne, false_and, or_false, not_false_eq_true,
        true_and]
      constructor
      · intro h; injection h with h; injection h with h1 h2
        exact ⟨h1.symm, h2.symm⟩
      · rintro ⟨h1, h2⟩
        rw [h1, h2]
  · by_cases hp : ch = '('
    · subst hp
      cases hE : parseExpr n (next q).2 with
      | ok a =>
        obtain ⟨nd, p1⟩ := a
        by_cases hc : peek (skipWhitespace p1) = ')'
        · simp only [hpar, hE, hc]
          simp
          constructor
          · rintro ⟨rfl, rfl⟩; exact ⟨p1, ⟨rfl, rfl⟩, hc, rfl⟩
          · rintro ⟨p2, ⟨rfl, rfl⟩, -, rfl⟩; exact ⟨rfl, rfl⟩
        · simp only [hpar, hE, hc]
          simp
          constructor
          · intro h; simp [hc] at h
          · rintro ⟨p2, ⟨rfl, rfl⟩, h, -⟩; exact absurd h hc
      | err e => simp [hpar, hE]
      | fuel => simp [hpar, hE]
    · simp [hd, hp]

theorem parseTermLoop_ok_iff (n : Nat) (acc : Node) (p : parser) (node : Node) (p' : parser) :
    parseTermLoop (n + 1) acc p = .ok (node, p') ↔
      ((peek (skipWhitespace p) = '*' ∨ peek (skipWhitespace p) = '/') ∧
        ∃ r p1, parseFactor n (next (skipWhitespace p)).2 = .ok (r, p1) ∧
          parseTermLoop n (opNode (next (skipWhitespace p)).1 acc r) p1 = .ok (node, p')) ∨
      (¬ (peek (skipWhitespace p) = '*' ∨ peek (skipWhitespace p) = '/') ∧
        node = acc ∧ p' = skipWhitespace p) := by
  rw [parseTermLoop]
  generalize skipWhitespace p = q
  by_cases hc : peek q = '*' ∨ peek q = '/'
  · simp only [hc, if_true, true_and, not_true_eq_false, false_and, or_false, opNode]
    cases hF : parseFactor n (next q).2 with
    | ok a =>
      obtain ⟨r, p1⟩ := a
      constructor
      · intro h; exact ⟨r, p1, rfl, h⟩
      · rintro ⟨r2, p2, h1, h2⟩
        injection h1 with h1; injection h1 with h3 h4; subst h3; subst h4; exact h2
    | err e => simp
    | fuel => simp
  · simp only [hc, if_false, false_and, false_or, not_false_eq_true, true_and]
    constructor
    · intro h; injection h with h; injection h with h1 h2; exact ⟨h1.symm, h2.symm⟩
    · rintro ⟨rfl, rfl⟩; rfl

theorem parseExprLoop_ok_iff (n : Nat) (acc : Node) (p : parser) (node : Node) (p' : parser) :
    parseExprLoop (n + 1) acc p = .ok (node, p') ↔
      ((peek (skipWhitespace p) = '+' ∨ peek (skipWhitespace p) = '-') ∧
        ∃ r p1, parseTerm n (next (skipWhitespace p)).2 = .ok (r, p1) ∧
          parseExprLoop n (opNode (next (skipWhitespace p)).1 acc r) p1 = .ok (node, p')) ∨
      (¬ (peek (skipWhitespace p) = '+' ∨ peek (skipWhitespace p) = '-') ∧
        node = acc ∧ p' = skipWhitespace p) := by
  rw [parseExprLoop]
  generalize skipWhitespace p = q
  by_cases hc : peek q = '+' ∨ peek q = '-'
  · simp only [hc, if_true, true_and, not_true_eq_false, false_and, or_false, opNode]
    cases hF : parseTerm n (next q).2 with
    | ok a =>
      obtain ⟨r, p1⟩ := a
      constructor
      · intro h; exact ⟨r, p1, rfl, h⟩
      · rintro ⟨r2, p2, h1, h2⟩
        injection h1 with h1; injection h1 with h3 h4; subst h3; subst h4; exact h2
    | err e => simp
    | fuel => simp
  · simp only [hc, if_false, false_and, false_or, not_false_eq_true, true_and]
    constructor
    · intro h; injection h with h; injection h with h1 h2; exact ⟨h1.symm, h2.symm⟩
    · rintro ⟨rfl, rfl⟩; rfl

theorem parseTerm_ok_iff (n : Nat) (p : parser) (node : Node) (p' : parser) :
    parseTerm (n + 1) p = .ok (node, p') ↔
      ∃ l p1, parseFactor n p = .ok (l, p1) ∧ parseTermLoop n l p1 = .ok (node, p') := by
  rw [parseTerm]
  cases hF : parseFactor n p with
  | ok a =>
    obtain ⟨r, p1⟩ := a
    constructor
    · intro h; exact ⟨r, p1, rfl, h⟩
    · rintro ⟨r2, p2, h1, h2⟩
      injection h1 with h1; injection h1 with h3 h4; subst h3; subst h4; exact h2
  | err e => simp
  | fuel => simp

theorem parseExpr_ok_iff (n : Nat) (p : parser) (node : Node) (p' : parser) :
    parseExpr (n + 1) p = .ok (node, p') ↔
      ∃ l p1, parseTerm n p = .ok (l, p1) ∧ parseExprLoop n l p1 = .ok (node, p') := by
  rw [parseExpr]
  cases hF : parseTerm n p with
  | ok a =>
    obtain ⟨r, p1⟩ := a
    constructor
    · intro h; exact ⟨r, p1, rfl, h⟩
    · rintro ⟨r2, p2, h1, h2⟩
      injection h1 with h1; injection h1 with h3 h4; subst h3; subst h4; exact h2
  | err e => simp
  | fuel => simp

/-! ### Parser: what a successful parse has read -/

theorem skipWhitespace_split (p : parser) :
    ∃ ws, p = ws ++ skipWhitespace p ∧ ∀ c ∈ ws, c = ' ' ∨ c = '\t' := by
  induction p with
  | nil => exact ⟨[], rfl, by simp⟩
  | cons c r ih =>
    rw [skipWhitespace]
    by_cases h : c = ' ' ∨ c = '\t'
    · obtain ⟨ws, h1, h2⟩ := ih
      refine ⟨c :: ws, ?_, ?_⟩
      · simp only [h, if_true, List.cons_append]; rw [← h1]
      · intro x hx
        rcases List.mem_cons.1 hx with rfl | hx
        · exact h
        · exact h2 x hx
    · exact ⟨[], by simp [h], by simp⟩

theorem next_of_peek (q : parser) (h : peek q ≠ Char.ofNat 0) :
    q = peek q :: (next q).2 ∧ (next q).1 = peek q := by
  cases q with
  | nil => exact absurd rfl h
  | cons c r => exact ⟨rfl, rfl⟩

theorem hasDigitPair_glue (a : List Char) (y : Char) (t : List Char)
    (h1 : hasDigitPair (a ++ [y]) = false) (h2 : hasDigitPair (y :: t) = false) :
    hasDigitPair (a ++ y :: t) = false := by
  induction a with
  | nil => exact h2
  | cons x a ih =>
    cases a with
    | nil =>
      cases t with
      | nil => exact h1
      | cons z t =>
        simp only [List.nil_append, List.cons_append, hasDigitPair, Bool.or_eq_false_iff] at h1 h2 ⊢
        exact ⟨h1.1, h2⟩
    | cons x2 a =>
      simp only [List.cons_append, hasDigitPair, Bool.or_eq_false_iff] at h1 ih ⊢
      exact ⟨h1.1, ih h1.2⟩

theorem ReadOk.glue {a b rest : List Char} (h1 : ReadOk a (b ++ rest)) (h2 : ReadOk b rest) :
    ReadOk (a ++ b) rest := by
  cases b with
  | nil => simpa using h1
  | cons y t =>
    unfold ReadOk at *
    rw [List.append_assoc]
    exact hasDigitPair_glue a y (t ++ rest.take 1) (by simpa using h1) (by simpa using h2)

theorem hasDigitPair_cons_of_not_digit (c : Char) (l : List Char) (h : isDigit c = false) :
    hasDigitPair (c :: l) = hasDigitPair l := by
  cases l with
  | nil => rfl
  | cons x l => simp [hasDigitPair, h]

theorem ReadOk.whitespace {ws rest : List Char} (h : ∀ c ∈ ws, c = ' ' ∨ c = '\t') :
    ReadOk ws rest := by
  unfold ReadOk
  induction ws with
  | nil => cases rest <;> simp [hasDigitPair]
  | cons c ws ih =>
    have hc : isDigit c = false := by
      rcases h c (List.mem_cons_self _ _) with rfl | rfl <;> decide
    rw [List.cons_append, hasDigitPair_cons_of_not_digit c _ hc]
    exact ih (fun x hx => h x (List.mem_cons_of_mem _ hx))

theorem ReadOk.single {c : Char} {rest : List Char}
    (h : isDigit c = false ∨ ¬ (rest ≠ [] ∧ isDigit (peek rest) = true)) :
    ReadOk [c] rest := by
  unfold ReadOk
  cases rest with
  | nil => simp [hasDigitPair]
  | cons x r =>
    simp only [List.take, List.singleton_append, hasDigitPair, Bool.or_false,
      Bool.and_eq_false_iff, List.take_zero]
    rcases h with h | h
    · exact Or.inl h
    · right; simpa [peek] using h

theorem Sound.skip {p : parser} {node : Node} {p' : parser}
    (h : Sound (skipWhitespace p) node p') : Sound p node p' := by
  obtain ⟨⟨pre, h1, h2⟩, h3⟩ := h
  obtain ⟨ws, h4, h5⟩ := skipWhitespace_split p
  refine ⟨⟨ws ++ pre, ?_, ?_⟩, h3⟩
  · rw [List.append_assoc, ← h1, ← h4]
  · exact ReadOk.glue (by rw [← h1]; exact ReadOk.whitespace h5) h2

theorem Sound.skip_end {p : parser} {node : Node} (h : node.isTree = true) :
    Sound p node (skipWhitespace p) := by
  obtain ⟨ws, h4, h5⟩ := skipWhitespace_split p
  exact ⟨⟨ws, h4, ReadOk.whitespace h5⟩, h⟩

theorem Sound.step {c : Char} {q p1 : parser} {node node1 : Node} {p' : parser}
    (hq : q = c :: p1) (hc : isDigit c = false) (h : Sound p1 node1 p')
    (hn : node.isTree = true) : Sound q node p' := by
  obtain ⟨⟨pre, h1, h2⟩, -⟩ := h
  refine ⟨⟨[c] ++ pre, ?_, ?_⟩, hn⟩
  · rw [hq, h1]; rfl
  · exact ReadOk.glue (ReadOk.single (Or.inl hc)) h2

theorem Sound.compose {p p1 p' : parser} {node1 node : Node}
    (h1 : Sound p node1 p1) (h2 : Sound p1 node p') : Sound p node p' := by
  obtain ⟨⟨a, ha, ha'⟩, -⟩ := h1
  obtain ⟨⟨b, hb, hb'⟩, hn⟩ := h2
  refine ⟨⟨a ++ b, ?_, ?_⟩, hn⟩
  · rw [ha, hb, List.append_assoc]
  · exact ReadOk.glue (by rw [← hb]; exact ha') hb'

theorem Sound.char {c : Char} {q : parser} {node : Node} {p' : parser}
    (hq : q = c :: p') (hc : isDigit c = false ∨ ¬ (p' ≠ [] ∧ isDigit (peek p') = true))
    (hn : node.isTree = true) : Sound q node p' :=
  ⟨⟨[c], hq, ReadOk.single hc⟩, hn⟩

theorem peek_ne_zero_of_digit {q : parser} (h : isDigit (peek q) = true) :
    peek q ≠ Char.ofNat 0 := by
  intro h0; rw [h0] at h; exact absurd h (by decide)

theorem isTree_leafNode (c : Char) : (leafNode c).isTree = true := by
  simp [leafNode, Node.isTree, digitValue, Float64.isFinite]

theorem isTree_opNode {c : Char} {l r : Node} (hc : c = '+' ∨ c = '-' ∨ c = '*' ∨ c = '/')
    (hl : l.isTree = true) (hr : r.isTree = true) : (opNode c l r).isTree = true := by
  rcases hc with rfl | rfl | rfl | rfl
  · have h : byteString '+' = "+" := by decide
    simp [opNode, Node.isTree, h, hl, hr]
  · have h : byteString '-' = "-" := by decide
    simp [opNode, Node.isTree, h, hl, hr]
  · have h : byteString '*' = "*" := by decide
    simp [opNode, Node.isTree, h, hl, hr]
  · have h : byteString '/' = "/" := by decide
    simp [opNode, Node.isTree, h, hl, hr]

theorem parse_sound (n : Nat) : ∀ (p : parser) (node : Node) (p' : parser),
    (parseFactor n p = .ok (node, p') → Sound p node p') ∧
    (parseTerm n p = .ok (node, p') → Sound p node p') ∧
    (parseExpr n p = .ok (node, p') → Sound p node p') ∧
    (∀ acc, acc.isTree = true → parseTermLoop n acc p = .ok (node, p') → Sound p node p') ∧
    (∀ acc, acc.isTree = true → parseExprLoop n acc p = .ok (node, p') → Sound p node p') := by
  induction n with
  | zero =>
    intro p node p'
    simp [parseFactor, parseTerm, parseExpr, parseTermLoop, parseExprLoop]
  | succ n ih =>
    intro p node p'
    refine ⟨?_, ?_, ?_, ?_, ?_⟩
    · intro h
      rcases (parseFactor_ok_iff n p node p').1 h with ⟨hd, h2, rfl, rfl⟩ | ⟨hp, p1, hE, hc, rfl⟩
      · have hq := (next_of_peek _ (peek_ne_zero_of_digit hd)).1
        exact Sound.skip (Sound.char hq (Or.inr h2) (isTree_leafNode _))
      · have hq := (next_of_peek (skipWhitespace p) (by rw [hp]; decide)).1
        rw [hp] at hq
        have hq2 := (next_of_peek (skipWhitespace p1) (by rw [hc]; decide)).1
        rw [hc] at hq2
        have s1 := (ih _ node p1).2.2.1 hE
        have s2 : Sound p1 node (next (skipWhitespace p1)).2 :=
          Sound.skip (Sound.char hq2 (Or.inl (by decide)) s1.2)
        exact Sound.skip (Sound.step hq (by decide) (Sound.compose s1 s2) s1.2)
    · intro h
      obtain ⟨l, p1, h1, h2⟩ := (parseTerm_ok_iff n p node p').1 h
      have s1 := (ih p l p1).1 h1
      exact Sound.compose s1 ((ih p1 node p').2.2.2.1 l s1.2 h2)
    · intro h
      obtain ⟨l, p1, h1, h2⟩ := (parseExpr_ok_iff n p node p').1 h
      have s1 := (ih p l p1).2.1 h1
      exact Sound.compose s1 ((ih p1 node p').2.2.2.2 l s1.2 h2)
    · intro acc hacc h
      rcases (parseTermLoop_ok_iff n acc p node p').1 h with ⟨hc, r, p1, h1, h2⟩ | ⟨-, rfl, rfl⟩
      · have hnz : peek (skipWhitespace p) ≠ Char.ofNat 0 := by
          rcases hc with hc | hc <;> (rw [hc]; decide)
        obtain ⟨hq, hq1⟩ := next_of_peek _ hnz
        have hcd : isDigit (peek (skipWhitespace p)) = false := by
          rcases hc with hc | hc <;> (rw [hc]; decide)
        have s1 := (ih _ r p1).1 h1
        rw [hq1] at h2
        have hop : (opNode (peek (skipWhitespace p)) acc r).isTree = true :=
          isTree_opNode (by tauto) hacc s1.2
        have s2 := (ih p1 node p').2.2.2.1 _ hop h2
        exact Sound.skip (Sound.step hq hcd (Sound.compose s1 s2) s2.2)
      · exact Sound.skip_end hacc
    · intro acc hacc h
      rcases (parseExprLoop_ok_iff n acc p node p').1 h with ⟨hc, r, p1, h1, h2⟩ | ⟨-, rfl, rfl⟩
      · have hnz : peek (skipWhitespace p) ≠ Char.ofNat 0 := by
          rcases hc with hc | hc <;> (rw [hc]; decide)
        obtain ⟨hq, hq1⟩ := next_of_peek _ hnz
        have hcd : isDigit (peek (skipWhitespace p)) = false := by
          rcases hc with hc | hc <;> (rw [hc]; decide)
        have s1 := (ih _ r p1).2.1 h1
        rw [hq1] at h2
        have hop : (opNode (peek (skipWhitespace p)) acc r).isTree = true :=
          isTree_opNode (by tauto) hacc s1.2
        have s2 := (ih p1 node p').2.2.2.2 _ hop h2
        exact Sound.skip (Sound.step hq hcd (Sound.compose s1 s2) s2.2)
      · exact Sound.skip_end hacc

/-! ### Parser: the step budget is never exhausted -/

theorem Sound.length_le {p : parser} {node : Node} {p' : parser} (h : Sound p node p') :
    p'.length ≤ p.length := by
  obtain ⟨⟨pre, h1, -⟩, -⟩ := h
  rw [h1, List.length_append]; omega

theorem skipWhitespace_length (p : parser) : (skipWhitespace p).length ≤ p.length := by
  obtain ⟨ws, h, -⟩ := skipWhitespace_split p
  have := congrArg List.length h
  rw [List.length_append] at this; omega

theorem next_length (q : parser) (h : peek q ≠ Char.ofNat 0) :
    (next q).2.length + 1 = q.length := by
  have := congrArg List.length (next_of_peek q h).1
  rw [List.length_cons] at this; omega

theorem parseFactor_fuel (n : Nat) (p : parser)
    (h : peek (skipWhitespace p) = '(' → parseExpr n (next (skipWhitespace p)).2 ≠ .fuel) :
    parseFactor (n + 1) p ≠ .fuel := by
  rw [parseFactor]
  generalize skipWhitespace p = q at h ⊢
  by_cases hd : isDigit (peek q) = true
  · simp only [hd, if_true]; split <;> simp
  · by_cases hp : peek q = '('
    · have hpar : isDigit '(' = false := by decide
      have hE := h hp
      simp only [hp, hpar, Bool.false_eq_true, if_false, if_true]
      cases hE' : parseExpr n (next q).2 with
      | ok a => simp only []; split <;> simp
      | err e => simp
      | fuel => exact absurd hE' hE
    · simp [hd, hp]

theorem parseTermLoop_fuel (n : Nat) (acc : Node) (p : parser)
    (h1 : parseFactor n (next (skipWhitespace p)).2 ≠ .fuel)
    (h2 : ∀ r p1, parseFactor n (next (skipWhitespace p)).2 = .ok (r, p1) →
      parseTermLoop n (opNode (next (skipWhitespace p)).1 acc r) p1 ≠ .fuel) :
    parseTermLoop (n + 1) acc p ≠ .fuel := by
  rw [parseTermLoop]
  generalize skipWhitespace p = q at h1 h2 ⊢
  by_cases hc : peek q = '*' ∨ peek q = '/'
  · simp only [hc, if_true]
    cases hF : parseFactor n (next q).2 with
    | ok a => obtain ⟨r, p1⟩ := a; exact h2 r p1 hF
    | err e => simp
    | fuel => exact absurd hF h1
  · simp [hc]

theorem parseExprLoop_fuel (n : Nat) (acc : Node) (p : parser)
    (h1 : parseTerm n (next (skipWhitespace p)).2 ≠ .fuel)
    (h2 : ∀ r p1, parseTerm n (next (skipWhitespace p)).2 = .ok (r, p1) →
      parseExprLoop n (opNode (next (skipWhitespace p)).1 acc r) p1 ≠ .fuel) :
    parseExprLoop (n + 1) acc p ≠ .fuel := by
  rw [parseExprLoop]
  generalize skipWhitespace p = q at h1 h2 ⊢
  by_cases hc : peek q = '+' ∨ peek q = '-'
  · simp only [hc, if_true]
    cases hF : parseTerm n (next q).2 with
    | ok a => obtain ⟨r, p1⟩ := a; exact h2 r p1 hF
    | err e => simp
    | fuel => exact absurd hF h1
  · simp [hc]

theorem parseTerm_fuel (n : Nat) (p : parser) (h1 : parseFactor n p ≠ .fuel)
    (h2 : ∀ r p1, parseFactor n p = .ok (r, p1) → parseTermLoop n r p1 ≠ .fuel) :
    parseTerm (n + 1) p ≠ .fuel := by
  rw [parseTerm]
  cases hF : parseFactor n p with
  | ok a => obtain ⟨r, p1⟩ := a; exact h2 r p1 hF
  | err e => simp
  | fuel => exact absurd hF h1

theorem parseExpr_fuel (n : Nat) (p : parser) (h1 : parseTerm n p ≠ .fuel)
    (h2 : ∀ r p1, parseTerm n p = .ok (r, p1) → parseExprLoop n r p1 ≠ .fuel) :
    parseExpr (n + 1) p ≠ .fuel := by
  rw [parseExpr]
  cases hF : parseTerm n p with
  | ok a => obtain ⟨r, p1⟩ := a; exact h2 r p1 hF
  | err e => simp
  | fuel => exact absurd hF h1

theorem parse_fuel (n : Nat) : ∀ p : parser,
    (3 * p.length + 3 ≤ n → parseFactor n p ≠ .fuel) ∧
    (3 * p.length + 4 ≤ n → parseTerm n p ≠ .fuel) ∧
    (3 * p.length + 5 ≤ n → parseExpr n p ≠ .fuel) ∧
    (∀ acc, 3 * p.length + 1 ≤ n → parseTermLoop n acc p ≠ .fuel) ∧
    (∀ acc, 3 * p.length + 2 ≤ n → parseExprLoop n acc p ≠ .fuel) := by
  induction n with
  | zero => intro p; simp
  | succ n ih =>
    intro p
    have hs := skipWhitespace_length p
    refine ⟨?_, ?_, ?_, ?_, ?_⟩
    · intro h
      apply parseFactor_fuel
      intro hp
      have := next_length (skipWhitespace p) (by rw [hp]; decide)
      exact (ih _).2.2.1 (by omega)
    · intro h
      apply parseTerm_fuel
      · exact (ih p).1 (by omega)
      · intro r p1 h1
        have := ((parse_sound n p r p1).1 h1).length_le
        exact (ih p1).2.2.2.1 r (by omega)
    · intro h
      apply parseExpr_fuel
      · exact (ih p).2.1 (by omega)
      · intro r p1 h1
        have := ((parse_sound n p r p1).2.1 h1).length_le
        exact (ih p1).2.2.2.2 r (by omega)
    · intro acc h
      by_cases hc : peek (skipWhitespace p) = '*' ∨ peek (skipWhitespace p) = '/'
      · have hnz : peek (skipWhitespace p) ≠ Char.ofNat 0 := by
          rcases hc with hc | hc <;> (rw [hc]; decide)
        have hl := next_length _ hnz
        apply parseTermLoop_fuel
        · exact (ih _).1 (by omega)
        · intro r p1 h1
          have := ((parse_sound n _ r p1).1 h1).length_le
          exact (ih p1).2.2.2.1 _ (by omega)
      · rw [parseTermLoop]; simp [hc]
    · intro acc h
      by_cases hc : peek (skipWhitespace p) = '+' ∨ peek (skipWhitespace p) = '-'
      · have hnz : peek (skipWhitespace p) ≠ Char.ofNat 0 := by
          rcases hc with hc | hc <;> (rw [hc]; decide)
        have hl := next_length _ hnz
        apply parseExprLoop_fuel
        · exact (ih _).2.1 (by omega)
        · intro r p1 h1
          have := ((parse_sound n _ r p1).2.1 h1).length_le
          exact (ih p1).2.2.2.2 _ (by omega)
      · rw [parseExprLoop]; simp [hc]

/-- The budget `parseExpression` passes to `parseExpr` is never used up. -/
theorem parseExpr_parseFuel (p : parser) : parseExpr (parseFuel p) p ≠ .fuel :=
  (parse_fuel (parseFuel p) p).2.2.1 (le_refl _)

/-! ### Parser: the errors it reports -/

theorem parseFactor_err (n : Nat) (p : parser) (e : String)
    (h : parseFactor (n + 1) p = .err e)
    (hsub : parseExpr n (next (skipWhitespace p)).2 = .err e → isParseError e) :
    isParseError e := by
  rw [parseFactor] at h
  generalize skipWhitespace p = q at h hsub
  by_cases hd : isDigit (peek q) = true
  · simp only [hd, if_true] at h
    split at h
    · injection h with h; exact Or.inl h.symm
    · exact absurd h (by simp)
  · by_cases hp : peek q = '('
    · have hpar : isDigit '(' = false := by decide
      simp only [hp, hpar, Bool.false_eq_true, if_false, if_true] at h
      cases hE : parseExpr n (next q).2 with
      | ok a =>
        rw [hE] at h
        simp only [] at h
        split at h
        · injection h with h; exact Or.inr (Or.inl h.symm)
        · exact absurd h (by simp)
      | err e' =>
        rw [hE] at h
        injection h with h
        subst h
        exact hsub hE
      | fuel => rw [hE] at h; exact absurd h (by simp)
    · simp only [hd, hp, if_false] at h
      injection h with h
      exact Or.inr (Or.inr (Or.inr ⟨peek q, h.symm⟩))

theorem parseTermLoop_err (n : Nat) (acc : Node) (p : parser) (e : String)
    (h : parseTermLoop (n + 1) acc p = .err e)
    (h1 : parseFactor n (next (skipWhitespace p)).2 = .err e → isParseError e)
    (h2 : ∀ a q, parseTermLoop n a q = .err e → isParseError e) : isParseError e := by
  rw [parseTermLoop] at h
  generalize skipWhitespace p = q at h h1
  by_cases hc : peek q = '*' ∨ peek q = '/'
  · simp only [hc, if_true] at h
    cases hF : parseFactor n (next q).2 with
    | ok a => rw [hF] at h; exact h2 _ _ h
    | err e' => rw [hF] at h; injection h with h; subst h; exact h1 hF
    | fuel => rw [hF] at h; exact absurd h (by simp)
  · simp [hc] at h

theorem parseExprLoop_err (n : Nat) (acc : Node) (p : parser) (e : String)
    (h : parseExprLoop (n + 1) acc p = .err e)
    (h1 : parseTerm n (next (skipWhitespace p)).2 = .err e → isParseError e)
    (h2 : ∀ a q, parseExprLoop n a q = .err e → isParseError e) : isParseError e := by
  rw [parseExprLoop] at h
  generalize skipWhitespace p = q at h h1
  by_cases hc : peek q = '+' ∨ peek q = '-'
  · simp only [hc, if_true] at h
    cases hF : parseTerm n (next q).2 with
    | ok a => rw [hF] at h; exact h2 _ _ h
    | err e' => rw [hF] at h; injection h with h; subst h; exact h1 hF
    | fuel => rw [hF] at h; exact absurd h (by simp)
  · simp [hc] at h

theorem parseTerm_err (n : Nat) (p : parser) (e : String)
    (h : parseTerm (n + 1) p = .err e)
    (h1 : parseFactor n p = .err e → isParseError e)
    (h2 : ∀ a q, parseTermLoop n a q = .err e → isParseError e) : isParseError e := by
  rw [parseTerm] at h
  cases hF : parseFactor n p with
  | ok a => rw [hF] at h; exact h2 _ _ h
  | err e' => rw [hF] at h; injection h with h; subst h; exact h1 hF
  | fuel => rw [hF] at h; exact absurd h (by simp)

theorem parseExpr_err (n : Nat) (p : parser) (e : String)
    (h : parseExpr (n + 1) p = .err e)
    (h1 : parseTerm n p = .err e → isParseError e)
    (h2 : ∀ a q, parseExprLoop n a q = .err e → isParseError e) : isParseError e := by
  rw [parseExpr] at h
  cases hF : parseTerm n p with
  | ok a => rw [hF] at h; exact h2 _ _ h
  | err e' => rw [hF] at h; injection h with h; subst h; exact h1 hF
  | fuel => rw [hF] at h; exact absurd h (by simp)

theorem parse_err (n : Nat) (e : String) : ∀ p : parser,
    (parseFactor n p = .err e → isParseError e) ∧
    (parseTerm n p = .err e → isParseError e) ∧
    (parseExpr n p = .err e → isParseError e) ∧
    (∀ acc, parseTermLoop n acc p = .err e → isParseError e) ∧
    (∀ acc, parseExprLoop n acc p = .err e → isParseError e) := by
  induction n with
  | zero =>
    intro p
    simp [parseFactor, parseTerm, parseExpr, parseTermLoop, parseExprLoop]
  | succ n ih =>
    intro p
    refine ⟨?_, ?_, ?_, ?_, ?_⟩
    · intro h; exact parseFactor_err n p e h (ih _).2.2.1
    · intro h; exact parseTerm_err n p e h (ih _).1 (fun a q => (ih q).2.2.2.1 a)
    · intro h; exact parseExpr_err n p e h (ih _).2.1 (fun a q => (ih q).2.2.2.2 a)
    · intro acc h
      exact parseTermLoop_err n acc p e h (ih _).1 (fun a q => (ih q).2.2.2.1 a)
    · intro acc h
      exact parseExprLoop_err n acc p e h (ih _).2.1 (fun a q => (ih q).2.2.2.2 a)

/-! ### `parseExpression` -/

/-- The function `parseExpression` either returns a tree, having read the whole trimmed
input without meeting two adjacent digits, or one of the parser's errors. -/
theorem parseExpression_cases (input : String) :
    (∃ node, parseExpression input = .ok node ∧ node.isTree = true ∧
      hasDigitPair (TrimSpace input.data) = false) ∨
    (∃ e, parseExpression input = .error e ∧ isParseError e) := by
  unfold parseExpression
  generalize TrimSpace input.data = t
  have hf := parseExpr_parseFuel (skipWhitespace t)
  cases hE : parseExpr (parseFuel (skipWhitespace t)) (skipWhitespace t) with
  | ok a =>
    obtain ⟨node, p'⟩ := a
    by_cases hp : skipWhitespace p' = []
    · left
      refine ⟨node, by simp [hE, hp], ?_⟩
      have s1 := Sound.skip ((parse_sound _ _ node p').2.2.1 hE)
      have s2 : Sound t node [] := Sound.compose s1 (hp ▸ Sound.skip_end s1.2)
      obtain ⟨⟨pre, h1, h2⟩, h3⟩ := s2
      refine ⟨h3, ?_⟩
      rw [h1]; simpa [ReadOk] using h2
    · right
      exact ⟨"CharactersError", by simp [hE, hp], Or.inr (Or.inr (Or.inl rfl))⟩
  | err e =>
    right
    exact ⟨e, by simp [hE], (parse_err _ e _).2.2.1 hE⟩
  | fuel => exact absurd hE hf

/-! ### Adjacent digits -/

theorem isDigit_iff (c : Char) : isDigit c = true ↔ 48 ≤ c.toNat ∧ c.toNat ≤ 57 := by
  unfold isDigit
  rw [decide_eq_true_iff, Char.le_def, Char.le_def]
  rfl

theorem isSpace_of_isDigit {c : Char} (h : isDigit c = true) : isSpace c = false := by
  rw [isDigit_iff] at h
  unfold isSpace
  simp only [Bool.decide_and, Bool.decide_or, Bool.or_eq_false_iff, Bool.and_eq_false_iff,
    decide_eq_false_iff_not]
  omega

theorem hasDigitPair_of_split (pre : List Char) (a b : Char) (post : List Char)
    (ha : isDigit a = true) (hb : isDigit b = true) :
    hasDigitPair (pre ++ a :: b :: post) = true := by
  induction pre with
  | nil => simp [hasDigitPair, ha, hb]
  | cons x pre ih =>
    cases pre with
    | nil => simp only [List.cons_append, List.nil_append, hasDigitPair] at ih ⊢; simp [ih]
    | cons y pre => simp only [List.cons_append, hasDigitPair] at ih ⊢; simp [ih]

theorem dropWhile_append_stop (f : Char → Bool) (pre : List Char) (a : Char) (rest : List Char)
    (ha : f a = false) :
    (pre ++ a :: rest).dropWhile f = pre.dropWhile f ++ a :: rest := by
  induction pre with
  | nil => simp [List.dropWhile, ha]
  | cons x pre ih =>
    by_cases hx : f x = true
    · simp [List.dropWhile, hx, ih]
    · simp [List.dropWhile, hx]

theorem TrimSpace_split (pre : List Char) (a b : Char) (post : List Char)
    (ha : isSpace a = false) (hb : isSpace b = false) :
    ∃ pre' post', TrimSpace (pre ++ a :: b :: post) = pre' ++ a :: b :: post' := by
  unfold TrimSpace
  rw [dropWhile_append_stop isSpace pre a _ ha]
  have : (pre.dropWhile isSpace ++ a :: b :: post).reverse
      = post.reverse ++ b :: (a :: (pre.dropWhile isSpace).reverse) := by simp
  rw [this, dropWhile_append_stop isSpace _ b _ hb]
  exact ⟨pre.dropWhile isSpace, (post.reverse.dropWhile isSpace).reverse, by simp⟩

/-- A text with two adjacent digits is rejected by `parseExpression`. -/
theorem parseExpression_digitPair (input : String) (pre : List Char) (a b : Char)
    (post : List Char) (h : input.data = pre ++ a :: b :: post)
    (ha : isDigit a = true) (hb : isDigit b = true) :
    ∃ e, parseExpression input = .error e ∧ isParseError e := by
  rcases parseExpression_cases input with ⟨node, -, -, h3⟩ | h'
  · obtain ⟨pre', post', h4⟩ :=
      TrimSpace_split pre a b post (isSpace_of_isDigit ha) (isSpace_of_isDigit hb)
    rw [h, h4, hasDigitPair_of_split pre' a b post' ha hb] at h3
    exact absurd h3 (by simp)
  · exact h'

/-! ### The task builder in closed form -/

theorem register_append (a b : List Task) (m : Int → Option Task) :
    register (a ++ b) m = register b (register a m) := by
  simp [register, List.foldl_append]

theorem isTree_children {op : String} {v : Float64} {l r : Node} (hop : op ≠ "")
    (h : (Node.mk op v l r).isTree = true) : l.isTree = true ∧ r.isTree = true := by
  simp only [Node.isTree, hop, if_false, Bool.and_eq_true] at h
  exact ⟨h.1.2, h.2⟩

/-- The result of `buildTasks` on a tree, in closed form. -/
theorem buildTasks_eq (node : Node) (h : node.isTree = true) (e : Int) (s : Store)
    (l : List Int) :
    buildTasks node e (s, l) =
      (.ok (node.retVal, node.rootID s.taskCounter),
        ({ s with
            tasks := register (node.tasks e s.taskCounter) s.tasks
            taskCounter := s.taskCounter + (node.size : Nat) },
          l ++ (node.tasks e s.taskCounter).map (·.ID))) := by
  induction node generalizing s l with
  | nil => simp [Node.isTree] at h
  | mk op v lt rt ihl ihr =>
    by_cases hop : op = ""
    · subst hop
      simp [buildTasks, Node.retVal, Node.rootID, Node.tasks, Node.size, register]
    · obtain ⟨hl, hr⟩ := isTree_children hop h
      rw [buildTasks]
      simp only [hop, if_false]
      rw [ihl hl]
      simp only []
      rw [ihr hr]
      simp only [nextTaskID, Node.retVal, Node.rootID, Node.tasks, Node.size, hop, if_false,
        register_append, List.map_append, List.map_cons, List.map_nil, newTask]
      simp only [Nat.cast_add, Nat.cast_one, add_assoc, List.append_assoc, register,
        List.foldl_cons, List.foldl_nil]

theorem idRange_add (c : Int) (a b : Nat) :
    idRange c (a + b) = idRange c a ++ idRange (c + (a : Nat)) b := by
  simp only [idRange, List.range_add, List.map_append, List.map_map]
  congr 1
  apply List.map_congr_left
  intro i _
  simp only [Function.comp, Nat.cast_add]
  ring

theorem mem_idRange {c : Int} {n : Nat} {k : Int} : k ∈ idRange c n ↔ c < k ∧ k ≤ c + n := by
  simp only [idRange, List.mem_map, List.mem_range]
  constructor
  · rintro ⟨i, hi, rfl⟩; omega
  · intro h; exact ⟨(k - c - 1).toNat, by omega, by omega⟩

theorem idRange_nodup (c : Int) (n : Nat) : (idRange c n).Nodup := by
  unfold idRange
  refine List.Nodup.map ?_ (List.nodup_range n)
  intro a b h
  simp only at h
  omega

theorem tasks_ids (node : Node) (e c : Int) :
    (node.tasks e c).map (·.ID) = idRange c node.size := by
  induction node generalizing c with
  | nil => rfl
  | mk op v l r ihl ihr =>
    by_cases hop : op = ""
    · simp [Node.tasks, Node.size, hop, idRange]
    · simp only [Node.tasks, Node.size, hop, if_false, List.map_append, ihl, ihr,
        List.map_cons, List.map_nil, idRange_add, newTask]
      simp [idRange, List.range_succ, add_assoc]

theorem register_of_not_mem (ts : List Task) (m : Int → Option Task) (k : Int)
    (h : ∀ t ∈ ts, t.ID ≠ k) : register ts m k = m k := by
  induction ts generalizing m with
  | nil => rfl
  | cons t ts ih =>
    simp only [register, List.foldl_cons] at ih ⊢
    rw [ih _ (fun x hx => h x (List.mem_cons_of_mem _ hx))]
    exact Function.update_noteq (Ne.symm (h t (List.mem_cons_self _ _))) _ _

theorem register_of_mem (ts : List Task) (m : Int → Option Task) (t : Task)
    (hnd : (ts.map (·.ID)).Nodup) (h : t ∈ ts) : register ts m t.ID = some t := by
  induction ts generalizing m with
  | nil => simp at h
  | cons t0 ts ih =>
    simp only [List.map_cons, List.nodup_cons, List.mem_map, not_exists, not_and] at hnd
    rcases List.mem_cons.1 h with rfl | h
    · have := register_of_not_mem ts (Function.update m t.ID (some t)) t.ID
        (fun x hx hxe => hnd.1 x hx hxe)
      simp only [register, List.foldl_cons] at this ⊢
      rw [this]; exact Function.update_same _ _ _
    · simp only [register, List.foldl_cons] at ih ⊢
      exact ih _ hnd.2 h

theorem register_cases (ts : List Task) (m : Int → Option Task) (k : Int)
    (hnd : (ts.map (·.ID)).Nodup) :
    (∃ t ∈ ts, t.ID = k ∧ register ts m k = some t) ∨
    ((∀ t ∈ ts, t.ID ≠ k) ∧ register ts m k = m k) := by
  by_cases h : ∃ t ∈ ts, t.ID = k
  · obtain ⟨t, ht, rfl⟩ := h
    exact Or.inl ⟨t, ht, rfl, register_of_mem ts m t hnd ht⟩
  · push_neg at h
    exact Or.inr ⟨h, register_of_not_mem ts m k h⟩

theorem enqueueReady_eq (ids : List Int) (s : Store)
    (h : ∀ k ∈ ids, ∃ t, s.tasks k = some t) :
    enqueueReady ids s =
      (.ok (), { s with readyTasks := s.readyTasks ++ ids.filter (unblockedAt s.tasks) }) := by
  induction ids generalizing s with
  | nil => simp [enqueueReady]
  | cons k ids ih =>
    obtain ⟨t, ht⟩ := h k (List.mem_cons_self _ _)
    have h' : ∀ k ∈ ids, ∃ t, s.tasks k = some t :=
      fun x hx => h x (List.mem_cons_of_mem _ hx)
    rw [enqueueReady]
    simp only [ht]
    by_cases hu : t.LeftDependency = 0 ∧ t.RightDependency = 0
    · rw [if_pos hu, ih { s with readyTasks := s.readyTasks ++ [k] } h']
      simp [List.filter_cons, ht, Task.unblocked, unblockedAt, hu]
    · rw [if_neg hu, ih s h']
      simp [List.filter_cons, ht, Task.unblocked, unblockedAt, hu]

/-! ### `AddExpression` in closed form -/

theorem tasks_nodup (node : Node) (e c : Int) : ((node.tasks e c).map (·.ID)).Nodup := by
  rw [tasks_ids]; exact idRange_nodup _ _

theorem filter_unblockedAt (ts : List Task) (m : Int → Option Task)
    (hnd : (ts.map (·.ID)).Nodup) :
    (ts.map (·.ID)).filter (unblockedAt (register ts m)) = (ts.filter Task.unblocked).map (·.ID) := by
  rw [List.filter_map]
  congr 1
  apply List.filter_congr
  intro t ht
  simp [unblockedAt, register_of_mem ts m t hnd ht]

/-- The result of `AddExpression` on a text that parses, in closed form. -/
theorem AddExpression_ok (raw : String) (s : Store) (node : Node)
    (hp : parseExpression raw = .ok node) (ht : node.isTree = true) :
    AddExpression raw s = (.ok (s.exprCounter + 1), addResult raw node s) := by
  unfold AddExpression
  rw [hp]
  simp only [nextExprID]
  rw [buildTasks_eq node ht]
  simp only [List.nil_append]
  rw [enqueueReady_eq]
  · simp only [addResult, filter_unblockedAt _ _ (tasks_nodup node _ _)]
  · intro k hk
    obtain ⟨t, ht', rfl⟩ := List.mem_map.1 hk
    exact ⟨t, register_of_mem _ _ t (tasks_nodup node _ _) ht'⟩

/-- The result of `AddExpression` on a text that does not parse. -/
theorem AddExpression_error (raw : String) (s : Store) (e : String)
    (hp : parseExpression raw = .error e) : AddExpression raw s = (.error e, s) := by
  unfold AddExpression
  rw [hp]

/-- The two ways `AddExpression` can end. -/
theorem AddExpression_cases (raw : String) (s : Store) :
    (∃ node, parseExpression raw = .ok node ∧ node.isTree = true ∧
      AddExpression raw s = (.ok (s.exprCounter + 1), addResult raw node s)) ∨
    (∃ e, parseExpression raw = .error e ∧ isParseError e ∧
      AddExpression raw s = (.error e, s)) := by
  rcases parseExpression_cases raw with ⟨node, h1, h2, -⟩ | ⟨e, h1, h2⟩
  · exact Or.inl ⟨node, h1, h2, AddExpression_ok raw s node h1 h2⟩
  · exact Or.inr ⟨e, h1, h2, AddExpression_error raw s e h1⟩

/-! ### `CompleteTask` in closed form -/

theorem propagate_not_error (tID : Int) (result : Float64) (ids : List Int) (s : Store)
    (e : String) : (propagate tID result ids s).1 ≠ .error e := by
  induction ids generalizing s with
  | nil => simp [propagate]
  | cons k ids ih =>
    rw [propagate]
    cases hk : s.tasks k with
    | none => simp
    | some child =>
      simp only []
      split
      · exact ih _
      · exact ih _

theorem completeRoot_not_error (t : Task) (result : Float64) (s : Store) (e : String) :
    (completeRoot t result s).1 ≠ .error e := by
  unfold completeRoot
  cases s.expressions t.ExpressionID with
  | none => simp
  | some x => simp only []; split <;> simp

theorem CompleteTask_error_unchanged (taskID : Int) (result : Float64) (s : Store) (e : String)
    (h : (CompleteTask taskID result s).1 = .error e) : (CompleteTask taskID result s).2 = s := by
  unfold CompleteTask at h ⊢
  cases ht : s.tasks taskID with
  | none => simp
  | some t =>
    simp only [ht] at h ⊢
    by_cases hs : t.Status = "pending"
    · simp only [hs, ne_eq, not_true_eq_false, if_false] at h ⊢
      exfalso
      revert h
      generalize markCompleted taskID t result s = s1
      cases hx : s1.expressions t.ExpressionID with
      | none => simp
      | some x =>
        simp only []
        have hp := propagate_not_error t.ID result x.TaskIDs s1
        rcases hpr : propagate t.ID result x.TaskIDs s1 with ⟨o, s2⟩
        rw [hpr] at hp
        cases o with
        | ok a => exact completeRoot_not_error t result s2 e
        | error e' => exact absurd rfl (hp e')
        | panic m => simp
    · simp [hs]

theorem resolveAll_nil (tID : Int) (result : Float64) (m : Int → Option Task) :
    resolveAll tID result [] m = m := by
  funext k; simp [resolveAll]

theorem propagate_eq (tID : Int) (result : Float64) (ids : List Int) (s : Store)
    (hnd : ids.Nodup) (h : ∀ k ∈ ids, ∃ t, s.tasks k = some t) :
    propagate tID result ids s =
      (.ok (), { s with
        tasks := resolveAll tID result ids s.tasks
        readyTasks := s.readyTasks ++ ids.filter (newlyReady tID result s.tasks) }) := by
  induction ids generalizing s with
  | nil => simp [propagate, resolveAll_nil]
  | cons k ids ih =>
    obtain ⟨c, hc⟩ := h k (List.mem_cons_self _ _)
    obtain ⟨hk, hnd'⟩ := List.nodup_cons.1 hnd
    have key : ∀ (rq : List Int),
        propagate tID result ids { s with
            tasks := Function.update s.tasks k (some (resolveChild tID result c).1)
            readyTasks := rq } =
          (.ok (), { s with
            tasks := resolveAll tID result (k :: ids) s.tasks
            readyTasks := rq ++ ids.filter (newlyReady tID result s.tasks) }) := by
      intro rq
      rw [ih _ hnd']
      · simp only [Prod.mk.injEq, true_and]
        congr 1
        · funext j
          by_cases hj : j = k
          · subst hj
            simp [resolveAll, hk, hc]
          · simp [resolveAll, hj, Function.update_noteq hj]
        · congr 1
          apply List.filter_congr
          intro j hj
          have hjk : j ≠ k := fun h => hk (h ▸ hj)
          simp [newlyReady, Function.update_noteq hjk]
      · intro j hj
        have hjk : j ≠ k := fun h => hk (h ▸ hj)
        simp only [Function.update_noteq hjk]
        exact h j (List.mem_cons_of_mem _ hj)
    rw [propagate]
    simp only [hc]
    split
    · rename_i hcond
      rw [key]
      simp [List.filter_cons, newlyReady, hc, hcond]
    · rename_i hcond
      rw [key]
      have : newlyReady tID result s.tasks k = false := by
        simp only [newlyReady, hc]
        simpa using hcond
      simp [List.filter_cons, this]

theorem CompleteTask_ok (taskID : Int) (result : Float64) (s : Store) (t : Task)
    (x : Expression) (ht : s.tasks taskID = some t) (hs : t.Status = "pending")
    (hx : s.expressions t.ExpressionID = some x) (hnd : x.TaskIDs.Nodup)
    (hreg : ∀ k ∈ x.TaskIDs, ∃ c, s.tasks k = some c) :
    CompleteTask taskID result s = (.ok (), completeResult taskID t x result s) := by
  unfold CompleteTask
  simp only [ht, hs, ne_eq, not_true_eq_false, if_false]
  have hx1 : (markCompleted taskID t result s).expressions t.ExpressionID = some x := hx
  simp only [hx1]
  rw [propagate_eq _ _ _ _ hnd]
  · simp only [completeRoot]
    have hx2 : (markCompleted taskID t result s).expressions t.ExpressionID = some x := hx
    simp only [hx2, completeResult]
    split <;> rfl
  · intro k hk
    obtain ⟨c, hc⟩ := hreg k hk
    by_cases hkt : k = taskID
    · subst hkt; exact ⟨_, Function.update_same _ _ _⟩
    · exact ⟨c, by simp only [markCompleted, Function.update_noteq hkt]; exact hc⟩

theorem CompleteTask_not_found (taskID : Int) (result : Float64) (s : Store)
    (h : s.tasks taskID = none) :
    CompleteTask taskID result s = (.error "Task not found", s) := by
  unfold CompleteTask; simp [h]

theorem CompleteTask_already (taskID : Int) (result : Float64) (s : Store) (t : Task)
    (h : s.tasks taskID = some t) (hs : t.Status ≠ "pending") :
    CompleteTask taskID result s = (.error "Task already completed", s) := by
  unfold CompleteTask; simp [h, hs]

/-! ### Claims on parsing and on failed calls -/

/-- C2 (the code at the bare literal): `AddExpression` on the text `5`, in any
store, registers an expression with Status "completed", no task, no root task,
and leaves the task store, the task counter and the ready queue as they were;
but the Result it records is NaN, not the literal 5 that the claim promises:
the value `buildTasks` returns for the leaf is discarded. -/
theorem bare_literal_result_is_NaN (s : Store) :
    AddExpression "5" s = (.ok (s.exprCounter + 1), addResult "5" (leafNode '5') s) ∧
    (addResult "5" (leafNode '5') s).expressions (s.exprCounter + 1) =
      some
        { ID := s.exprCounter + 1
          Raw := "5"
          Status := "completed"
          Result := Float64.NaN
          TaskIDs := []
          RootTaskID := 0 } ∧
    Float64.NaN ≠ Float64.num 5 ∧
    (addResult "5" (leafNode '5') s).tasks = s.tasks ∧
    (addResult "5" (leafNode '5') s).taskCounter = s.taskCounter ∧
    (addResult "5" (leafNode '5') s).readyTasks = s.readyTasks := by
  refine ⟨AddExpression_ok "5" s _ (by decide) (by decide), ?_, by decide, ?_, ?_, ?_⟩
  · simp [addResult, leafNode, Node.rootID, Node.tasks]
  · simp [addResult, leafNode, Node.tasks, register]
  · simp [addResult, leafNode, Node.size]
  · simp [addResult, leafNode, Node.tasks]

/-- C6: `parseExpression` fails, with one of the parser's own errors, on every
input in which a decimal digit is immediately followed by another one; when
`parseFactor` reads a digit that is followed by a digit the error is
"LenNumError", as on "12"; and `AddExpression` on such a text returns an error
and leaves the store, hence every registered expression and task, untouched. -/
theorem adjacent_digits_rejected (input : String) (pre : List Char) (a b : Char)
    (post : List Char) (h : input.data = pre ++ a :: b :: post)
    (ha : isDigit a = true) (hb : isDigit b = true) :
    (∃ e, parseExpression input = .error e ∧ isParseError e) ∧
    (∀ n ws rest, (∀ c ∈ ws, c = ' ' ∨ c = '\t') →
      parseFactor (n + 1) (ws ++ a :: b :: rest) = .err "LenNumError") ∧
    parseExpression "12" = .error "LenNumError" ∧
    (∀ s : Store, ∃ e, AddExpression input s = (.error e, s)) := by
  obtain ⟨e, he, hpe⟩ := parseExpression_digitPair input pre a b post h ha hb
  refine ⟨⟨e, he, hpe⟩, ?_, by decide, fun s => ⟨e, AddExpression_error input s e he⟩⟩
  intro n ws rest hws
  have hskip : skipWhitespace (ws ++ a :: b :: rest) = a :: b :: rest := by
    induction ws with
    | nil =>
      have : ¬ (a = ' ' ∨ a = '\t') := by
        rintro (rfl | rfl) <;> exact absurd ha (by decide)
      simp [skipWhitespace, this]
    | cons c ws ih =>
      have hc := hws c (List.mem_cons_self _ _)
      simp only [List.cons_append, skipWhitespace, hc, if_true]
      exact ih (fun x hx => hws x (List.mem_cons_of_mem _ hx))
  rw [parseFactor]
  simp [hskip, peek, next, ha, hb]

/-- Witness for C6 at the text "12". -/
theorem adjacent_digits_rejected_witness :
    (∃ e, parseExpression "12" = .error e ∧ isParseError e) ∧
    (∀ n ws rest, (∀ c ∈ ws, c = ' ' ∨ c = '\t') →
      parseFactor (n + 1) (ws ++ '1' :: '2' :: rest) = .err "LenNumError") ∧
    parseExpression "12" = .error "LenNumError" ∧
    (∀ s : Store, ∃ e, AddExpression "12" s = (.error e, s)) :=
  adjacent_digits_rejected "12" [] '1' '2' [] rfl (by decide) (by decide)

/-- C7 (as stated, fails): the text "10/0" does not parse; it is rejected for
its two-digit literal. -/
theorem ten_over_zero_rejected : parseExpression "10/0" = .error "LenNumError" := by
  decide

/-- C7 (amended): `parseExpression` performs no semantic validation: on the
text "1/0" it succeeds and returns an internal node with operator "/" whose two
children are the leaves 1 and 0, and `AddExpression` accepts the text. -/
theorem one_over_zero_parses :
    parseExpression "1/0" =
      .ok (Node.mk "/" (Float64.num 0)
        (Node.mk "" (Float64.num 1) Node.nil Node.nil)
        (Node.mk "" (Float64.num 0) Node.nil Node.nil)) ∧
    (AddExpression "1/0" Store.init).1 = .ok 1 := by
  constructor
  · decide!
  · decide

/-- C8: a call that returns an error leaves the whole store unchanged:
`AddExpression` on every text and store, `GetReadyTask` (which on an empty
queue returns "No task available", however often it is repeated), and
`CompleteTask` (which returns an error on an unknown and on an
already-completed task id). -/
theorem error_leaves_store_unchanged :
    (∀ raw s e, (AddExpression raw s).1 = .error e → (AddExpression raw s).2 = s) ∧
    (∀ s e, (GetReadyTask s).1 = .error e → (GetReadyTask s).2 = s) ∧
    (∀ s, s.readyTasks = [] → ∀ n : Nat,
      GetReadyTask ((fun s => (GetReadyTask s).2)^[n] s) = (.error "No task available", s)) ∧
    (∀ taskID result s e,
      (CompleteTask taskID result s).1 = .error e → (CompleteTask taskID result s).2 = s) ∧
    (∀ taskID result s, s.tasks taskID = none →
      CompleteTask taskID result s = (.error "Task not found", s)) ∧
    (∀ taskID result s t, s.tasks taskID = some t → t.Status ≠ "pending" →
      CompleteTask taskID result s = (.error "Task already completed", s)) := by
  refine ⟨?_, ?_, ?_, CompleteTask_error_unchanged, CompleteTask_not_found,
    CompleteTask_already⟩
  · intro raw s e h
    rcases AddExpression_cases raw s with ⟨node, -, -, h1⟩ | ⟨e', -, -, h1⟩
    · rw [h1] at h; exact absurd h (by simp)
    · rw [h1]
  · intro s e h
    unfold GetReadyTask at h ⊢
    cases hr : s.readyTasks with
    | nil => simp
    | cons t r => rw [hr] at h; exact absurd h (by simp)
  · intro s hs n
    have hstep : (GetReadyTask s).2 = s := by unfold GetReadyTask; simp [hs]
    have hit : (fun s => (GetReadyTask s).2)^[n] s = s := by
      induction n with
      | zero => rfl
      | succ n ih => rw [Function.iterate_succ_apply, hstep, ih]
    rw [hit]
    unfold GetReadyTask; simp [hs]

/-- Witness for C8: the failed submission of "12" to the initial store. -/
theorem error_leaves_store_unchanged_witness :
    (AddExpression "12" Store.init).1 = .error "LenNumError" ∧
    (AddExpression "12" Store.init).2 = Store.init :=
  ⟨by decide, error_leaves_store_unchanged.1 "12" Store.init "LenNumError" (by decide)⟩

/-! ### The tasks of a tree -/

theorem rootID_cases (node : Node) (h : node.isTree = true) (e c : Int) (hc : 0 ≤ c) :
    (node.rootID c = 0 ∧ node.size = 0 ∧ node.retVal ≠ Float64.NaN) ∨
    (node.rootID c = c + (node.size : Nat) ∧ 0 < node.size ∧ node.rootID c ≠ 0 ∧
      node.retVal = Float64.NaN ∧
      ∃ t ∈ node.tasks e c, t.ID = node.rootID c) := by
  cases node with
  | nil => simp [Node.isTree] at h
  | mk op v l r =>
    by_cases hop : op = ""
    · left
      subst hop
      simp only [Node.isTree, if_true, Bool.and_eq_true] at h
      refine ⟨by simp [Node.rootID], by simp [Node.size], ?_⟩
      simp only [Node.retVal, if_true]
      intro hv; rw [hv] at h; simp [Float64.isFinite] at h
    · right
      refine ⟨by simp [Node.rootID, Node.size, hop], by simp [Node.size, hop],
        by simp only [Node.rootID, hop, if_false]; omega, by simp [Node.retVal, hop], ?_⟩
      refine ⟨newTask (c + (l.size : Nat) + (r.size : Nat) + 1) e op l.retVal r.retVal
        (l.rootID c) (r.rootID (c + (l.size : Nat))), ?_, ?_⟩
      · simp only [Node.tasks, hop, if_false]
        exact List.mem_append_right _ (List.mem_singleton_self _)
      · simp only [newTask, Node.rootID, hop, if_false]
        push_cast; ring

/-- What `buildTasks` puts into each task of a tree. -/
theorem tasks_spec (node : Node) (h : node.isTree = true) (e c : Int) (hc : 0 ≤ c) :
    ∀ t ∈ node.tasks e c,
      t.ExpressionID = e ∧ t.Status = "pending" ∧ c < t.ID ∧ t.ID ≤ c + (node.size : Nat) ∧
      (t.LeftDependency ≠ 0 → t.LeftDependency < t.ID ∧
        ∃ d ∈ node.tasks e c, d.ID = t.LeftDependency) ∧
      (t.RightDependency ≠ 0 → t.RightDependency < t.ID ∧
        ∃ d ∈ node.tasks e c, d.ID = t.RightDependency) ∧
      (t.LeftDependency = 0 ↔ t.Arg1 ≠ Float64.NaN) ∧
      (t.RightDependency = 0 ↔ t.Arg2 ≠ Float64.NaN) := by
  induction node generalizing c with
  | nil => simp [Node.tasks]
  | mk op v l r ihl ihr =>
    by_cases hop : op = ""
    · simp [Node.tasks, hop]
    · obtain ⟨hl, hr⟩ := isTree_children hop h
      intro t ht
      simp only [Node.tasks, hop, if_false, List.mem_append, List.mem_singleton] at ht
      have hsz : (Node.mk op v l r).size = l.size + r.size + 1 := by simp [Node.size, hop]
      have hsub1 : ∀ d, d ∈ l.tasks e c → d ∈ (Node.mk op v l r).tasks e c := by
        intro d hd
        simp only [Node.tasks, hop, if_false, List.mem_append]
        exact Or.inl (Or.inl hd)
      have hsub2 : ∀ d, d ∈ r.tasks e (c + (l.size : Nat)) →
          d ∈ (Node.mk op v l r).tasks e c := by
        intro d hd
        simp only [Node.tasks, hop, if_false, List.mem_append]
        exact Or.inl (Or.inr hd)
      rcases ht with (ht | ht) | rfl
      · obtain ⟨h1, h2, h3, h4, h5, h6, h7, h8⟩ := ihl hl c hc t ht
        refine ⟨h1, h2, h3, by rw [hsz]; push_cast; omega, ?_, ?_, h7, h8⟩
        · intro hd; obtain ⟨a, d, hd1, hd2⟩ := h5 hd; exact ⟨a, d, hsub1 d hd1, hd2⟩
        · intro hd; obtain ⟨a, d, hd1, hd2⟩ := h6 hd; exact ⟨a, d, hsub1 d hd1, hd2⟩
      · obtain ⟨h1, h2, h3, h4, h5, h6, h7, h8⟩ := ihr hr _ (by omega) t ht
        refine ⟨h1, h2, by omega, by rw [hsz]; push_cast; omega, ?_, ?_, h7, h8⟩
        · intro hd; obtain ⟨a, d, hd1, hd2⟩ := h5 hd; exact ⟨a, d, hsub2 d hd1, hd2⟩
        · intro hd; obtain ⟨a, d, hd1, hd2⟩ := h6 hd; exact ⟨a, d, hsub2 d hd1, hd2⟩
      · have rl := rootID_cases l hl e c hc
        have rr := rootID_cases r hr e (c + (l.size : Nat)) (by omega)
        refine ⟨rfl, rfl, by simp only [newTask]; omega,
          by simp only [newTask]; rw [hsz]; push_cast; omega, ?_, ?_, ?_, ?_⟩
        · intro hd
          simp only [newTask] at hd ⊢
          rcases rl with ⟨h0, -⟩ | ⟨h1, -, -, -, d, hd1, hd2⟩
          · exact absurd h0 hd
          · exact ⟨by rw [h1]; omega, d, hsub1 d hd1, hd2⟩
        · intro hd
          simp only [newTask] at hd ⊢
          rcases rr with ⟨h0, -⟩ | ⟨h1, -, -, -, d, hd1, hd2⟩
          · exact absurd h0 hd
          · exact ⟨by rw [h1]; omega, d, hsub2 d hd1, hd2⟩
        · simp only [newTask]
          rcases rl with ⟨h0, -, h2⟩ | ⟨-, -, h3, -, -⟩
          · simp [h0, h2]
          · simp [h3]
        · simp only [newTask]
          rcases rr with ⟨h0, -, h2⟩ | ⟨-, -, h3, -, -⟩
          · simp [h0, h2]
          · simp [h3]

/-! ### Well-formedness is kept by `AddExpression` -/

theorem add_tasks_cases (raw : String) (node : Node) (s : Store) (k : Int) (t : Task)
    (h : (addResult raw node s).tasks k = some t) :
    (t ∈ node.tasks (s.exprCounter + 1) s.taskCounter ∧ t.ID = k) ∨
    (s.tasks k = some t ∧ ∀ t' ∈ node.tasks (s.exprCounter + 1) s.taskCounter, t'.ID ≠ k) := by
  simp only [addResult] at h
  rcases register_cases (node.tasks (s.exprCounter + 1) s.taskCounter) s.tasks k
    (tasks_nodup _ _ _) with ⟨t', h1, h2, h3⟩ | ⟨h1, h2⟩
  · rw [h3] at h; injection h with h; subst h; exact Or.inl ⟨h1, h2⟩
  · rw [h2] at h; exact Or.inr ⟨h, h1⟩

theorem add_tasks_new (raw : String) (node : Node) (s : Store) (t : Task)
    (h : t ∈ node.tasks (s.exprCounter + 1) s.taskCounter) :
    (addResult raw node s).tasks t.ID = some t :=
  register_of_mem _ _ t (tasks_nodup _ _ _) h

theorem add_tasks_old (raw : String) (node : Node) (s : Store) (log : List Int)
    (hI : Inv s log) (k : Int) (t : Task) (h : s.tasks k = some t) :
    (addResult raw node s).tasks k = some t := by
  simp only [addResult]
  rw [register_of_not_mem _ _ _ ?_]
  · exact h
  · intro t' ht' he
    have h1 : t'.ID ∈ (node.tasks (s.exprCounter + 1) s.taskCounter).map (·.ID) :=
      List.mem_map.2 ⟨t', ht', rfl⟩
    rw [tasks_ids, mem_idRange] at h1
    have h2 := (hI.task_key k t h).2.2
    omega

theorem Inv_add (raw : String) (node : Node) (s : Store) (log : List Int)
    (hI : Inv s log) (ht : node.isTree = true) :
    Inv (addResult raw node s)
      (log ++ ((node.tasks (s.exprCounter + 1) s.taskCounter).filter Task.unblocked).map
        (·.ID)) := by
  have hc := hI.counters
  have spec := tasks_spec node ht (s.exprCounter + 1) s.taskCounter hc.2
  have hex : ∀ i, (addResult raw node s).expressions i =
      if i = s.exprCounter + 1 then
        some
          { ID := s.exprCounter + 1
            Raw := raw
            Status := if node.rootID s.taskCounter = 0 then "completed" else "pending"
            Result := Float64.NaN
            TaskIDs := (node.tasks (s.exprCounter + 1) s.taskCounter).map (·.ID)
            RootTaskID := node.rootID s.taskCounter }
      else s.expressions i := by
    intro i
    simp only [addResult, Function.update_apply]
  have hexold : ∀ i x, s.expressions i = some x →
      (addResult raw node s).expressions i = some x := by
    intro i x hx
    rw [hex, if_neg]
    · exact hx
    · have := (hI.expr_key i x hx).2.2; omega
  have hnewid : ∀ t ∈ node.tasks (s.exprCounter + 1) s.taskCounter,
      ∀ k t', s.tasks k = some t' → t.ID ≠ k := by
    intro t ht' k t' hk he
    have := (spec t ht').2.2.1
    have := (hI.task_key k t' hk).2.2
    omega
  refine
    { counters := ?_, task_key := ?_, task_expr := ?_, expr_key := ?_, expr_tasks := ?_,
      expr_nodup := ?_, status := ?_, root := ?_, deps := ?_, log_nodup := ?_,
      log_unblocked := ?_, ready_log := ?_, pending_logged := ?_ }
  · simp only [addResult]; constructor <;> omega
  · intro k t h
    rcases add_tasks_cases raw node s k t h with ⟨h1, h2⟩ | ⟨h1, -⟩
    · obtain ⟨-, -, h3, h4, -⟩ := spec t h1
      simp only [addResult]
      exact ⟨h2, by omega, by omega⟩
    · obtain ⟨h3, h4, h5⟩ := hI.task_key k t h1
      simp only [addResult]
      exact ⟨h3, h4, by omega⟩
  · intro k t h
    rcases add_tasks_cases raw node s k t h with ⟨h1, h2⟩ | ⟨h1, -⟩
    · rw [(spec t h1).1, hex, if_pos rfl]
      exact ⟨_, rfl, List.mem_map.2 ⟨t, h1, h2⟩⟩
    · obtain ⟨x, hx, hk⟩ := hI.task_expr k t h1
      exact ⟨x, hexold _ x hx, hk⟩
  · intro i x h
    rw [hex] at h
    by_cases hi : i = s.exprCounter + 1
    · rw [if_pos hi] at h
      injection h with h; subst h
      simp only [addResult]
      exact ⟨hi.symm, by omega, by omega⟩
    · rw [if_neg hi] at h
      obtain ⟨h1, h2, h3⟩ := hI.expr_key i x h
      simp only [addResult]
      exact ⟨h1, h2, by omega⟩
  · intro i x h k hk
    rw [hex] at h
    by_cases hi : i = s.exprCounter + 1
    · rw [if_pos hi] at h
      injection h with h; subst h
      obtain ⟨t, ht1, rfl⟩ := List.mem_map.1 hk
      exact ⟨t, add_tasks_new raw node s t ht1, by rw [(spec t ht1).1, hi]⟩
    · rw [if_neg hi] at h
      obtain ⟨t, h1, h2⟩ := hI.expr_tasks i x h k hk
      exact ⟨t, add_tasks_old raw node s log hI k t h1, h2⟩
  · intro i x h
    rw [hex] at h
    by_cases hi : i = s.exprCounter + 1
    · rw [if_pos hi] at h
      injection h with h; subst h
      exact tasks_nodup _ _ _
    · rw [if_neg hi] at h
      exact hI.expr_nodup i x h
  · intro k t h
    rcases add_tasks_cases raw node s k t h with ⟨h1, h2⟩ | ⟨h1, -⟩
    · exact Or.inl (spec t h1).2.1
    · exact hI.status k t h1
  · intro i x h hr
    rw [hex] at h
    by_cases hi : i = s.exprCounter + 1
    · rw [if_pos hi] at h
      injection h with h; subst h
      simp only at hr ⊢
      rcases rootID_cases node ht (s.exprCounter + 1) s.taskCounter hc.2 with
        ⟨h0, -⟩ | ⟨-, -, -, -, t, ht1, ht2⟩
      · exact absurd h0 hr
      · refine ⟨t, ?_, ?_, ?_, ?_⟩
        · rw [← ht2]; exact add_tasks_new raw node s t ht1
        · rw [(spec t ht1).1, hi]
        · rw [if_neg hr, (spec t ht1).2.1]
        · rw [if_neg hr]; intro hh; exact absurd hh (by decide)
    · rw [if_neg hi] at h
      obtain ⟨t, h1, h2, h3, h4⟩ := hI.root i x h hr
      exact ⟨t, add_tasks_old raw node s log hI _ t h1, h2, h3, h4⟩
  · intro k t h
    rcases add_tasks_cases raw node s k t h with ⟨h1, h2⟩ | ⟨h1, -⟩
    · obtain ⟨h3, -, -, -, h5, h6, -⟩ := spec t h1
      constructor
      · intro hd
        obtain ⟨h7, d, hd1, hd2⟩ := h5 hd
        refine ⟨d, ?_, (spec d hd1).2.1, ?_, ?_⟩
        · rw [← hd2]; exact add_tasks_new raw node s d hd1
        · rw [(spec d hd1).1, h3]
        · omega
      · intro hd
        obtain ⟨h7, d, hd1, hd2⟩ := h6 hd
        refine ⟨d, ?_, (spec d hd1).2.1, ?_, ?_⟩
        · rw [← hd2]; exact add_tasks_new raw node s d hd1
        · rw [(spec d hd1).1, h3]
        · omega
    · obtain ⟨h2, h3⟩ := hI.deps k t h1
      constructor
      · intro hd
        obtain ⟨td, h4, h5⟩ := h2 hd
        exact ⟨td, add_tasks_old raw node s log hI _ td h4, h5⟩
      · intro hd
        obtain ⟨td, h4, h5⟩ := h3 hd
        exact ⟨td, add_tasks_old raw node s log hI _ td h4, h5⟩
  · rw [List.nodup_append]
    refine ⟨hI.log_nodup, ?_, ?_⟩
    · exact ((tasks_nodup node _ _).sublist
        (List.Sublist.map _ (List.filter_sublist _)))
    · intro k hk1 hk2
      obtain ⟨t', h1, -⟩ := hI.log_unblocked k hk1
      obtain ⟨t, ht1, ht2⟩ := List.mem_map.1 hk2
      exact hnewid t (List.mem_of_mem_filter ht1) k t' h1 ht2
  · intro k hk
    rcases List.mem_append.1 hk with hk | hk
    · obtain ⟨t, h1, h2⟩ := hI.log_unblocked k hk
      exact ⟨t, add_tasks_old raw node s log hI k t h1, h2⟩
    · obtain ⟨t, ht1, rfl⟩ := List.mem_map.1 hk
      obtain ⟨ht2, ht3⟩ := List.mem_filter.1 ht1
      refine ⟨t, add_tasks_new raw node s t ht2, ?_⟩
      simpa [Task.unblocked] using ht3
  · obtain ⟨pre, hpre⟩ := hI.ready_log
    exact ⟨pre, by simp only [addResult]; rw [hpre, List.append_assoc]⟩
  · intro k t h hl hr hs
    rcases add_tasks_cases raw node s k t h with ⟨h1, h2⟩ | ⟨h1, -⟩
    · apply List.mem_append_right
      refine List.mem_map.2 ⟨t, List.mem_filter.2 ⟨h1, ?_⟩, h2⟩
      simp [Task.unblocked, hl, hr]
    · exact List.mem_append_left _ (hI.pending_logged k t h1 hl hr hs)

/-! ### Well-formedness is kept by `CompleteTask` -/

theorem resolveChild_spec (tID : Int) (r : Float64) (c : Task) :
    (resolveChild tID r c).1.ID = c.ID ∧
    (resolveChild tID r c).1.ExpressionID = c.ExpressionID ∧
    (resolveChild tID r c).1.Operator = c.Operator ∧
    (resolveChild tID r c).1.Status = c.Status ∧
    (resolveChild tID r c).1.Result = c.Result ∧
    (resolveChild tID r c).1.OperationTime = c.OperationTime ∧
    (resolveChild tID r c).1.LeftDependency
      = (if c.LeftDependency = tID then 0 else c.LeftDependency) ∧
    (resolveChild tID r c).1.Arg1 = (if c.LeftDependency = tID then r else c.Arg1) ∧
    (resolveChild tID r c).1.RightDependency
      = (if c.RightDependency = tID then 0 else c.RightDependency) ∧
    (resolveChild tID r c).1.Arg2 = (if c.RightDependency = tID then r else c.Arg2) ∧
    (resolveChild tID r c).2 = decide (c.LeftDependency = tID ∨ c.RightDependency = tID) := by
  unfold resolveChild
  by_cases h1 : c.LeftDependency = tID <;> by_cases h2 : c.RightDependency = tID <;>
    simp [h1, h2]

theorem stepTask_spec (taskID : Int) (r : Float64) (ids : List Int) (k : Int) (u : Task) :
    (stepTask taskID r ids k u).ID = u.ID ∧
    (stepTask taskID r ids k u).ExpressionID = u.ExpressionID ∧
    (stepTask taskID r ids k u).Operator = u.Operator ∧
    (stepTask taskID r ids k u).Status = (if k = taskID then "completed" else u.Status) ∧
    (stepTask taskID r ids k u).Result = (if k = taskID then r else u.Result) ∧
    (stepTask taskID r ids k u).LeftDependency
      = (if k ∈ ids ∧ u.LeftDependency = taskID then 0 else u.LeftDependency) ∧
    (stepTask taskID r ids k u).Arg1
      = (if k ∈ ids ∧ u.LeftDependency = taskID then r else u.Arg1) ∧
    (stepTask taskID r ids k u).RightDependency
      = (if k ∈ ids ∧ u.RightDependency = taskID then 0 else u.RightDependency) ∧
    (stepTask taskID r ids k u).Arg2
      = (if k ∈ ids ∧ u.RightDependency = taskID then r else u.Arg2) := by
  unfold stepTask
  by_cases hk : k = taskID
  · subst hk
    by_cases hm : k ∈ ids
    · simp only [hm, if_true, true_and]
      obtain ⟨h1, h2, h3, h4, h5, -, h7, h8, h9, h10, -⟩ :=
        resolveChild_spec k r { u with Result := r, Status := "completed" }
      exact ⟨h1, h2, h3, h4, h5, h7, h8, h9, h10⟩
    · simp [hm]
  · by_cases hm : k ∈ ids
    · simp only [hk, hm, if_true, if_false, true_and]
      obtain ⟨h1, h2, h3, h4, h5, -, h7, h8, h9, h10, -⟩ := resolveChild_spec taskID r u
      exact ⟨h1, h2, h3, h4, h5, h7, h8, h9, h10⟩
    · simp [hk, hm]

theorem complete_tasks (taskID : Int) (t : Task) (x : Expression) (r : Float64) (s : Store)
    (ht : s.tasks taskID = some t) (hid : t.ID = taskID) (k : Int) :
    (completeResult taskID t x r s).tasks k
      = (s.tasks k).map (stepTask taskID r x.TaskIDs k) := by
  have : (completeResult taskID t x r s).tasks
      = resolveAll t.ID r x.TaskIDs (markCompleted taskID t r s).tasks := by
    unfold completeResult; simp only []; split <;> rfl
  rw [this, hid]
  simp only [resolveAll, markCompleted, stepTask, Function.update_apply]
  by_cases hk : k = taskID
  · subst hk
    by_cases hm : k ∈ x.TaskIDs <;> simp [hm, ht, stepTask]
  · by_cases hm : k ∈ x.TaskIDs <;> cases s.tasks k <;> simp [hm, hk, stepTask]

theorem complete_ready (taskID : Int) (t : Task) (x : Expression) (r : Float64) (s : Store) :
    (completeResult taskID t x r s).readyTasks
      = s.readyTasks ++ x.TaskIDs.filter (newlyReady t.ID r (markCompleted taskID t r s).tasks) := by
  unfold completeResult; simp only []; split <;> rfl

theorem complete_counters (taskID : Int) (t : Task) (x : Expression) (r : Float64) (s : Store) :
    (completeResult taskID t x r s).taskCounter = s.taskCounter ∧
    (completeResult taskID t x r s).exprCounter = s.exprCounter := by
  unfold completeResult; simp only []; split <;> exact ⟨rfl, rfl⟩

theorem complete_expressions (taskID : Int) (t : Task) (x : Expression) (r : Float64)
    (s : Store) (i : Int) :
    (completeResult taskID t x r s).expressions i
      = if t.ID = x.RootTaskID ∧ i = t.ExpressionID then
          some { x with Status := "completed", Result := r }
        else s.expressions i := by
  unfold completeResult
  simp only []
  by_cases h : t.ID = x.RootTaskID
  · simp only [h, if_true, true_and, Function.update_apply]; rfl
  · simp only [h, if_false, false_and]; rfl

theorem newlyReady_iff (taskID : Int) (t : Task) (r : Float64) (s : Store) (k : Int)
    (ht : s.tasks taskID = some t) :
    newlyReady taskID r (markCompleted taskID t r s).tasks k = true ↔
      k ≠ taskID ∧ ∃ u, s.tasks k = some u ∧
        (u.LeftDependency = taskID ∨ u.RightDependency = taskID) ∧
        (u.LeftDependency = taskID ∨ u.LeftDependency = 0) ∧
        (u.RightDependency = taskID ∨ u.RightDependency = 0) ∧ u.Status = "pending" := by
  simp only [newlyReady, markCompleted, Function.update_apply]
  by_cases hk : k = taskID
  · subst hk
    simp [(resolveChild_spec k r _).2.2.2.1]
  · simp only [hk, if_false, ne_eq, not_false_eq_true, true_and]
    cases hu : s.tasks k with
    | none => simp
    | some u =>
      obtain ⟨-, -, -, h4, -, -, h7, -, h9, -, h11⟩ := resolveChild_spec taskID r u
      simp only [h4, h7, h9, h11, Bool.and_eq_true, decide_eq_true_eq, Option.some.injEq,
        exists_eq_left']
      constructor
      · rintro ⟨⟨⟨h1, h2⟩, h3⟩, h5⟩
        refine ⟨h1, ?_, ?_, h5⟩
        · by_cases h : u.LeftDependency = taskID
          · exact Or.inl h
          · rw [if_neg h] at h2; exact Or.inr h2
        · by_cases h : u.RightDependency = taskID
          · exact Or.inl h
          · rw [if_neg h] at h3; exact Or.inr h3
      · rintro ⟨h1, h2, h3, h5⟩
        refine ⟨⟨⟨h1, ?_⟩, ?_⟩, h5⟩
        · rcases h2 with h | h
          · rw [if_pos h]
          · split <;> simp [h]
        · rcases h3 with h | h
          · rw [if_pos h]
          · split <;> simp [h]

theorem complete_tasks_some (taskID : Int) (t : Task) (x : Expression) (r : Float64)
    (s : Store) (ht : s.tasks taskID = some t) (hid : t.ID = taskID) (k : Int) (u : Task)
    (h : (completeResult taskID t x r s).tasks k = some u) :
    ∃ u0, s.tasks k = some u0 ∧ u = stepTask taskID r x.TaskIDs k u0 := by
  rw [complete_tasks taskID t x r s ht hid] at h
  cases hu : s.tasks k with
  | none => rw [hu] at h; simp at h
  | some u0 =>
    rw [hu] at h
    simp only [Option.map_some', Option.some.injEq] at h
    exact ⟨u0, rfl, h.symm⟩

theorem Inv_complete (taskID : Int) (r : Float64) (s : Store) (log : List Int) (t : Task)
    (x : Expression) (hI : Inv s log) (ht : s.tasks taskID = some t)
    (hx : s.expressions t.ExpressionID = some x) :
    Inv (completeResult taskID t x r s)
      (log ++ x.TaskIDs.filter (newlyReady t.ID r (markCompleted taskID t r s).tasks)) := by
  obtain ⟨hid, hpos, -⟩ := hI.task_key taskID t ht
  have hT := complete_tasks taskID t x r s ht hid
  have hTs := complete_tasks_some taskID t x r s ht hid
  have hE := complete_expressions taskID t x r s
  have hC := complete_counters taskID t x r s
  have hnew : ∀ k u0, s.tasks k = some u0 →
      (completeResult taskID t x r s).tasks k = some (stepTask taskID r x.TaskIDs k u0) := by
    intro k u0 h; rw [hT, h]; rfl
  -- expressions keep their id, task list and root
  have hEold : ∀ i x0, s.expressions i = some x0 →
      ∃ x1, (completeResult taskID t x r s).expressions i = some x1 ∧
        x1.TaskIDs = x0.TaskIDs ∧ x1.ID = x0.ID ∧ x1.RootTaskID = x0.RootTaskID := by
    intro i x0 h
    rw [hE]
    by_cases hc : t.ID = x.RootTaskID ∧ i = t.ExpressionID
    · rw [if_pos hc]
      have : x0 = x := by rw [hc.2, hx] at h; injection h with h; exact h.symm
      subst this
      exact ⟨_, rfl, rfl, rfl, rfl⟩
    · rw [if_neg hc]; exact ⟨x0, h, rfl, rfl, rfl⟩
  have hEnew : ∀ i x1, (completeResult taskID t x r s).expressions i = some x1 →
      ∃ x0, s.expressions i = some x0 ∧
        x1.TaskIDs = x0.TaskIDs ∧ x1.ID = x0.ID ∧ x1.RootTaskID = x0.RootTaskID := by
    intro i x1 h
    rw [hE] at h
    by_cases hc : t.ID = x.RootTaskID ∧ i = t.ExpressionID
    · rw [if_pos hc] at h
      injection h with h; subst h
      exact ⟨x, by rw [hc.2]; exact hx, rfl, rfl, rfl⟩
    · rw [if_neg hc] at h; exact ⟨x1, h, rfl, rfl, rfl⟩
  -- a task that waits for the completed task belongs to its expression
  have hwait : ∀ k u0, s.tasks k = some u0 →
      (u0.LeftDependency = taskID ∨ u0.RightDependency = taskID) → k ∈ x.TaskIDs := by
    intro k u0 h hd
    have hsame : u0.ExpressionID = t.ExpressionID := by
      obtain ⟨dl, dr⟩ := hI.deps k u0 h
      rcases hd with hd | hd
      · obtain ⟨td, h1, -, h3, -⟩ := dl (by rw [hd]; omega)
        rw [hd, ht] at h1; injection h1 with h1; subst h1; exact h3.symm
      · obtain ⟨td, h1, -, h3, -⟩ := dr (by rw [hd]; omega)
        rw [hd, ht] at h1; injection h1 with h1; subst h1; exact h3.symm
    obtain ⟨x0, h1, h2⟩ := hI.task_expr k u0 h
    rw [hsame, hx] at h1; injection h1 with h1; subst h1; exact h2
  have hdep : ∀ k u0 d, s.tasks k = some u0 → DepOk s k u0 d →
      (if k ∈ x.TaskIDs ∧ d = taskID then 0 else d) ≠ 0 →
      (d = u0.LeftDependency ∨ d = u0.RightDependency) →
      ∃ td, (completeResult taskID t x r s).tasks d = some td ∧ td.Status = "pending" ∧
        td.ExpressionID = u0.ExpressionID ∧ d < k := by
    intro k u0 d h hok hne hd
    have hd0 : d ≠ 0 := by
      intro h0; apply hne; rw [h0]; split <;> rfl
    have hdt : d ≠ taskID := by
      intro hdt
      have hm : k ∈ x.TaskIDs := hwait k u0 h (by rcases hd with hd | hd <;> [left; right] <;> rw [← hd, hdt])
      exact hne (by rw [if_pos ⟨hm, hdt⟩])
    obtain ⟨td, h1, h2, h3, h4⟩ := hok hd0
    refine ⟨_, hnew d td h1, ?_, ?_, h4⟩
    · rw [(stepTask_spec taskID r x.TaskIDs d td).2.2.2.1, if_neg hdt]; exact h2
    · rw [(stepTask_spec taskID r x.TaskIDs d td).2.1]; exact h3
  refine
    { counters := ?_, task_key := ?_, task_expr := ?_, expr_key := ?_, expr_tasks := ?_,
      expr_nodup := ?_, status := ?_, root := ?_, deps := ?_, log_nodup := ?_,
      log_unblocked := ?_, ready_log := ?_, pending_logged := ?_ }
  · rw [hC.1, hC.2]; exact hI.counters
  · intro k u h
    obtain ⟨u0, h0, rfl⟩ := hTs k u h
    rw [(stepTask_spec taskID r x.TaskIDs k u0).1, hC.1]
    exact hI.task_key k u0 h0
  · intro k u h
    obtain ⟨u0, h0, rfl⟩ := hTs k u h
    rw [(stepTask_spec taskID r x.TaskIDs k u0).2.1]
    obtain ⟨x0, h1, h2⟩ := hI.task_expr k u0 h0
    obtain ⟨x1, h3, h4, -⟩ := hEold _ x0 h1
    exact ⟨x1, h3, by rw [h4]; exact h2⟩
  · intro i x1 h
    obtain ⟨x0, h0, -, h2, -⟩ := hEnew i x1 h
    rw [h2, hC.2]
    exact hI.expr_key i x0 h0
  · intro i x1 h k hk
    obtain ⟨x0, h0, h1, -⟩ := hEnew i x1 h
    rw [h1] at hk
    obtain ⟨u0, h2, h3⟩ := hI.expr_tasks i x0 h0 k hk
    exact ⟨_, hnew k u0 h2, by rw [(stepTask_spec taskID r x.TaskIDs k u0).2.1]; exact h3⟩
  · intro i x1 h
    obtain ⟨x0, h0, h1, -⟩ := hEnew i x1 h
    rw [h1]; exact hI.expr_nodup i x0 h0
  · intro k u h
    obtain ⟨u0, h0, rfl⟩ := hTs k u h
    rw [(stepTask_spec taskID r x.TaskIDs k u0).2.2.2.1]
    split
    · exact Or.inr rfl
    · exact hI.status k u0 h0
  · intro i x1 h hr
    rw [hE] at h
    by_cases hc : t.ID = x.RootTaskID ∧ i = t.ExpressionID
    · rw [if_pos hc] at h
      injection h with h; subst h
      refine ⟨stepTask taskID r x.TaskIDs taskID t, ?_, ?_, ?_, ?_⟩
      · show (completeResult taskID t x r s).tasks x.RootTaskID = _
        rw [← hc.1, hid]; exact hnew taskID t ht
      · rw [(stepTask_spec taskID r x.TaskIDs taskID t).2.1]; exact hc.2.symm
      · rw [(stepTask_spec taskID r x.TaskIDs taskID t).2.2.2.1, if_pos rfl]
      · intro _
        rw [(stepTask_spec taskID r x.TaskIDs taskID t).2.2.2.2.1, if_pos rfl]
    · rw [if_neg hc] at h
      obtain ⟨tr, h1, h2, h3, h4⟩ := hI.root i x1 h hr
      have hne : x1.RootTaskID ≠ taskID := by
        intro he
        rw [he, ht] at h1; injection h1 with h1; subst h1
        have : x1 = x := by rw [← h2, hx] at h; injection h with h; exact h.symm
        subst this
        exact hc ⟨by rw [hid, he], h2.symm⟩
      refine ⟨stepTask taskID r x.TaskIDs x1.RootTaskID tr, hnew _ tr h1, ?_, ?_, ?_⟩
      · rw [(stepTask_spec taskID r x.TaskIDs _ tr).2.1]; exact h2
      · rw [(stepTask_spec taskID r x.TaskIDs _ tr).2.2.2.1, if_neg hne]; exact h3
      · rw [(stepTask_spec taskID r x.TaskIDs _ tr).2.2.2.2.1, if_neg hne]; exact h4
  · intro k u h
    obtain ⟨u0, h0, rfl⟩ := hTs k u h
    obtain ⟨dl, dr⟩ := hI.deps k u0 h0
    obtain ⟨-, h2, -, -, -, h6, -, h8, -⟩ := stepTask_spec taskID r x.TaskIDs k u0
    constructor
    · intro hd
      rw [h6] at hd
      have hd' : u0.LeftDependency ≠ taskID ∨ k ∉ x.TaskIDs := by
        by_contra hcon; push_neg at hcon
        exact hd (by rw [if_pos ⟨hcon.2, hcon.1⟩])
      have heq : (stepTask taskID r x.TaskIDs k u0).LeftDependency = u0.LeftDependency := by
        rw [h6, if_neg]; rintro ⟨a, b⟩; rcases hd' with h | h
        · exact h b
        · exact h a
      rw [heq, h2]
      exact hdep k u0 _ h0 dl hd (Or.inl rfl)
    · intro hd
      rw [h8] at hd
      have hd' : u0.RightDependency ≠ taskID ∨ k ∉ x.TaskIDs := by
        by_contra hcon; push_neg at hcon
        exact hd (by rw [if_pos ⟨hcon.2, hcon.1⟩])
      have heq : (stepTask taskID r x.TaskIDs k u0).RightDependency = u0.RightDependency := by
        rw [h8, if_neg]; rintro ⟨a, b⟩; rcases hd' with h | h
        · exact h b
        · exact h a
      rw [heq, h2]
      exact hdep k u0 _ h0 dr hd (Or.inr rfl)
  · rw [List.nodup_append]
    refine ⟨hI.log_nodup, (hI.expr_nodup _ x hx).sublist (List.filter_sublist _), ?_⟩
    intro k hk1 hk2
    obtain ⟨u0, h1, h2, h3⟩ := hI.log_unblocked k hk1
    rw [hid] at hk2
    obtain ⟨-, u, h4, h5, -⟩ := (newlyReady_iff taskID t r s k ht).1 (List.mem_filter.1 hk2).2
    rw [h1] at h4; injection h4 with h4; subst h4
    rcases h5 with h5 | h5 <;> omega
  · intro k hk
    rcases List.mem_append.1 hk with hk | hk
    · obtain ⟨u0, h1, h2, h3⟩ := hI.log_unblocked k hk
      obtain ⟨-, -, -, -, -, h6, -, h8, -⟩ := stepTask_spec taskID r x.TaskIDs k u0
      refine ⟨_, hnew k u0 h1, ?_, ?_⟩
      · rw [h6, h2]; split <;> rfl
      · rw [h8, h3]; split <;> rfl
    · rw [hid] at hk
      obtain ⟨hm, hk2⟩ := List.mem_filter.1 hk
      obtain ⟨-, u0, h4, -, h6, h7, -⟩ := (newlyReady_iff taskID t r s k ht).1 hk2
      obtain ⟨-, -, -, -, -, h6', -, h8', -⟩ := stepTask_spec taskID r x.TaskIDs k u0
      refine ⟨_, hnew k u0 h4, ?_, ?_⟩
      · rw [h6']; rcases h6 with h | h
        · rw [if_pos ⟨hm, h⟩]
        · rw [h]; split <;> rfl
      · rw [h8']; rcases h7 with h | h
        · rw [if_pos ⟨hm, h⟩]
        · rw [h]; split <;> rfl
  · obtain ⟨pre, hpre⟩ := hI.ready_log
    exact ⟨pre, by rw [complete_ready, hpre, List.append_assoc]⟩
  · intro k u h hl hr hst
    obtain ⟨u0, h0, rfl⟩ := hTs k u h
    obtain ⟨-, -, -, h4, -, h6, -, h8, -⟩ := stepTask_spec taskID r x.TaskIDs k u0
    rw [h4] at hst
    have hk : k ≠ taskID := by
      intro hk; rw [if_pos hk] at hst; exact absurd hst (by decide)
    rw [if_neg hk] at hst
    rw [h6] at hl
    rw [h8] at hr
    by_cases hb : u0.LeftDependency = 0 ∧ u0.RightDependency = 0
    · exact List.mem_append_left _ (hI.pending_logged k u0 h0 hb.1 hb.2 hst)
    · apply List.mem_append_right
      have hl' : (k ∈ x.TaskIDs ∧ u0.LeftDependency = taskID) ∨ u0.LeftDependency = 0 := by
        by_cases hc : k ∈ x.TaskIDs ∧ u0.LeftDependency = taskID
        · exact Or.inl hc
        · rw [if_neg hc] at hl; exact Or.inr hl
      have hr' : (k ∈ x.TaskIDs ∧ u0.RightDependency = taskID) ∨ u0.RightDependency = 0 := by
        by_cases hc : k ∈ x.TaskIDs ∧ u0.RightDependency = taskID
        · exact Or.inl hc
        · rw [if_neg hc] at hr; exact Or.inr hr
      have hm : k ∈ x.TaskIDs := by
        rcases hl' with h | h
        · exact h.1
        · rcases hr' with h' | h'
          · exact h'.1
          · exact absurd ⟨h, h'⟩ hb
      rw [hid]
      refine List.mem_filter.2 ⟨hm, (newlyReady_iff taskID t r s k ht).2 ⟨hk, u0, h0, ?_, ?_, ?_, hst⟩⟩
      · rcases hl' with h | h
        · exact Or.inl h.2
        · rcases hr' with h' | h'
          · exact Or.inr h'.2
          · exact absurd ⟨h, h'⟩ hb
      · rcases hl' with h | h
        · exact Or.inl h.2
        · exact Or.inr h
      · rcases hr' with h | h
        · exact Or.inl h.2
        · exact Or.inr h

/-! ### Well-formedness of every reachable store -/

theorem Inv_init : Inv Store.init [] := by
  refine
    { counters := ⟨le_refl _, le_refl _⟩, task_key := ?_, task_expr := ?_, expr_key := ?_,
      expr_tasks := ?_, expr_nodup := ?_, status := ?_, root := ?_, deps := ?_,
      log_nodup := List.nodup_nil, log_unblocked := ?_, ready_log := ⟨[], rfl⟩,
      pending_logged := ?_ } <;> simp [Store.init]

/-- A `CompleteTask` on a registered pending task of a well-formed store. -/
theorem CompleteTask_ok_of_Inv (taskID : Int) (r : Float64) (s : Store) (log : List Int)
    (t : Task) (hI : Inv s log) (ht : s.tasks taskID = some t) (hs : t.Status = "pending") :
    ∃ x, s.expressions t.ExpressionID = some x ∧
      CompleteTask taskID r s = (.ok (), completeResult taskID t x r s) := by
  obtain ⟨x, hx, -⟩ := hI.task_expr taskID t ht
  refine ⟨x, hx, CompleteTask_ok taskID r s t x ht hs hx (hI.expr_nodup _ x hx) ?_⟩
  intro k hk
  obtain ⟨c, hc, -⟩ := hI.expr_tasks _ x hx k hk
  exact ⟨c, hc⟩

/-- The three ways `CompleteTask` can end in a well-formed store. -/
theorem CompleteTask_cases (taskID : Int) (r : Float64) (s : Store) (log : List Int)
    (hI : Inv s log) :
    (s.tasks taskID = none ∧ CompleteTask taskID r s = (.error "Task not found", s)) ∨
    (∃ t, s.tasks taskID = some t ∧ t.Status = "completed" ∧
      CompleteTask taskID r s = (.error "Task already completed", s)) ∨
    (∃ t x, s.tasks taskID = some t ∧ t.Status = "pending" ∧
      s.expressions t.ExpressionID = some x ∧
      CompleteTask taskID r s = (.ok (), completeResult taskID t x r s)) := by
  cases ht : s.tasks taskID with
  | none => exact Or.inl ⟨rfl, CompleteTask_not_found taskID r s ht⟩
  | some t =>
    rcases hI.status taskID t ht with hs | hs
    · obtain ⟨x, hx, h⟩ := CompleteTask_ok_of_Inv taskID r s log t hI ht hs
      exact Or.inr (Or.inr ⟨t, x, rfl, hs, hx, h⟩)
    · exact Or.inr (Or.inl ⟨t, rfl, hs,
        CompleteTask_already taskID r s t ht (by rw [hs]; decide)⟩)

theorem Inv_get (s : Store) (log : List Int) (hI : Inv s log) :
    Inv (GetReadyTask s).2 log := by
  unfold GetReadyTask
  cases hr : s.readyTasks with
  | nil => exact hI
  | cons t rest =>
    obtain ⟨pre, hpre⟩ := hI.ready_log
    exact
      { counters := hI.counters, task_key := hI.task_key, task_expr := hI.task_expr,
        expr_key := hI.expr_key, expr_tasks := hI.expr_tasks, expr_nodup := hI.expr_nodup,
        status := hI.status, root := hI.root, deps := hI.deps, log_nodup := hI.log_nodup,
        log_unblocked := hI.log_unblocked,
        ready_log := ⟨pre ++ [t], by rw [hpre, hr]; simp⟩,
        pending_logged := hI.pending_logged }

theorem Inv_step (s : Store) (log : List Int) (c : Call) (hI : Inv s log) :
    Inv (step s c) (log ++ appended s c) := by
  cases c with
  | add raw =>
    simp only [step, appended]
    rcases AddExpression_cases raw s with ⟨node, -, h2, h3⟩ | ⟨e, -, -, h3⟩
    · rw [h3]
      have : (addResult raw node s).readyTasks.drop s.readyTasks.length
          = ((node.tasks (s.exprCounter + 1) s.taskCounter).filter Task.unblocked).map
            (·.ID) := by
        simp [addResult]
      rw [this]
      exact Inv_add raw node s log hI h2
    · rw [h3]; simpa using hI
  | get =>
    simp only [step, appended, List.append_nil]
    exact Inv_get s log hI
  | complete taskID r =>
    simp only [step, appended]
    rcases CompleteTask_cases taskID r s log hI with ⟨-, h⟩ | ⟨t, -, -, h⟩ | ⟨t, x, h1, -, h3, h⟩
    · rw [h]; simpa using hI
    · rw [h]; simpa using hI
    · rw [h]
      have : (completeResult taskID t x r s).readyTasks.drop s.readyTasks.length
          = x.TaskIDs.filter (newlyReady t.ID r (markCompleted taskID t r s).tasks) := by
        rw [complete_ready]; simp
      rw [this]
      exact Inv_complete taskID r s log t x hI h1 h3

theorem Inv_run_from (calls : List Call) (s : Store) (log : List Int) (hI : Inv s log) :
    Inv (run calls s) (log ++ enqueued calls s) := by
  induction calls generalizing s log with
  | nil => simpa [run, enqueued] using hI
  | cons c cs ih =>
    have := ih (step s c) (log ++ appended s c) (Inv_step s log c hI)
    simpa [run, enqueued, List.append_assoc] using this

/-- Every store reached from the initial one is well-formed, with the ids
appended to the ready queue on the way as its log. -/
theorem Inv_run (calls : List Call) : Inv (run calls Store.init) (enqueued calls Store.init) := by
  simpa using Inv_run_from calls Store.init [] Inv_init

/-! ### Operands and dependencies -/

theorem BlockedArgsNaN_step (s : Store) (log : List Int) (c : Call) (hI : Inv s log)
    (h : BlockedArgsNaN s) : BlockedArgsNaN (step s c) := by
  cases c with
  | add raw =>
    simp only [step]
    rcases AddExpression_cases raw s with ⟨node, -, h2, h3⟩ | ⟨e, -, -, h3⟩
    · rw [h3]
      intro k t ht
      rcases add_tasks_cases raw node s k t ht with ⟨h1, -⟩ | ⟨h1, -⟩
      · obtain ⟨-, -, -, -, -, -, h7, h8⟩ :=
          tasks_spec node h2 (s.exprCounter + 1) s.taskCounter hI.counters.2 t h1
        constructor
        · intro hd; by_contra hn; exact hd (h7.2 hn)
        · intro hd; by_contra hn; exact hd (h8.2 hn)
      · exact h k t h1
    · rw [h3]; exact h
  | get =>
    simp only [step]
    unfold GetReadyTask
    cases s.readyTasks <;> exact h
  | complete taskID r =>
    simp only [step]
    rcases CompleteTask_cases taskID r s log hI with ⟨-, h'⟩ | ⟨t, -, -, h'⟩ | ⟨t, x, h1, -, h3, h'⟩
    · rw [h']; exact h
    · rw [h']; exact h
    · rw [h']
      intro k u hu
      obtain ⟨u0, h0, rfl⟩ := complete_tasks_some taskID t x r s h1
        (hI.task_key taskID t h1).1 k u hu
      obtain ⟨-, -, -, -, -, h6, h7, h8, h9⟩ := stepTask_spec taskID r x.TaskIDs k u0
      obtain ⟨hl, hr⟩ := h k u0 h0
      rw [h6, h7, h8, h9]
      constructor
      · intro hd
        by_cases hc : k ∈ x.TaskIDs ∧ u0.LeftDependency = taskID
        · rw [if_pos hc] at hd; exact absurd rfl hd
        · rw [if_neg hc] at hd ⊢; exact hl hd
      · intro hd
        by_cases hc : k ∈ x.TaskIDs ∧ u0.RightDependency = taskID
        · rw [if_pos hc] at hd; exact absurd rfl hd
        · rw [if_neg hc] at hd ⊢; exact hr hd

theorem ArgsOk_step (s : Store) (log : List Int) (c : Call) (hI : Inv s log)
    (hc : c.reportsNumber) (h : ArgsOk s) : ArgsOk (step s c) := by
  cases c with
  | add raw =>
    simp only [step]
    rcases AddExpression_cases raw s with ⟨node, -, h2, h3⟩ | ⟨e, -, -, h3⟩
    · rw [h3]
      intro k t ht
      rcases add_tasks_cases raw node s k t ht with ⟨h1, -⟩ | ⟨h1, -⟩
      · obtain ⟨-, -, -, -, -, -, h7, h8⟩ :=
          tasks_spec node h2 (s.exprCounter + 1) s.taskCounter hI.counters.2 t h1
        exact ⟨h7, h8⟩
      · exact h k t h1
    · rw [h3]; exact h
  | get =>
    simp only [step]
    unfold GetReadyTask
    cases s.readyTasks <;> exact h
  | complete taskID r =>
    have hr : r ≠ Float64.NaN := hc
    simp only [step]
    rcases CompleteTask_cases taskID r s log hI with ⟨-, h'⟩ | ⟨t, -, -, h'⟩ | ⟨t, x, h1, -, h3, h'⟩
    · rw [h']; exact h
    · rw [h']; exact h
    · rw [h']
      intro k u hu
      obtain ⟨u0, h0, rfl⟩ := complete_tasks_some taskID t x r s h1
        (hI.task_key taskID t h1).1 k u hu
      obtain ⟨-, -, -, -, -, h6, h7, h8, h9⟩ := stepTask_spec taskID r x.TaskIDs k u0
      obtain ⟨hl, hr'⟩ := h k u0 h0
      rw [h6, h7, h8, h9]
      constructor
      · by_cases hc : k ∈ x.TaskIDs ∧ u0.LeftDependency = taskID
        · rw [if_pos hc, if_pos hc]; exact ⟨fun _ => hr, fun _ => rfl⟩
        · rw [if_neg hc, if_neg hc]; exact hl
      · by_cases hc : k ∈ x.TaskIDs ∧ u0.RightDependency = taskID
        · rw [if_pos hc, if_pos hc]; exact ⟨fun _ => hr, fun _ => rfl⟩
        · rw [if_neg hc, if_neg hc]; exact hr'

theorem BlockedArgsNaN_run (calls : List Call) : BlockedArgsNaN (run calls Store.init) := by
  have key : ∀ (cs : List Call) (s : Store) (log : List Int), Inv s log → BlockedArgsNaN s →
      BlockedArgsNaN (run cs s) := by
    intro cs
    induction cs with
    | nil => intro s log _ h; exact h
    | cons c cs ih =>
      intro s log hI h
      exact ih (step s c) _ (Inv_step s log c hI) (BlockedArgsNaN_step s log c hI h)
  exact key calls Store.init [] Inv_init (by intro k t h; simp [Store.init] at h)

theorem ArgsOk_run (calls : List Call) (hc : ∀ c ∈ calls, c.reportsNumber) :
    ArgsOk (run calls Store.init) := by
  have key : ∀ (cs : List Call) (s : Store) (log : List Int), Inv s log → ArgsOk s →
      (∀ c ∈ cs, c.reportsNumber) → ArgsOk (run cs s) := by
    intro cs
    induction cs with
    | nil => intro s log _ h _; exact h
    | cons c cs ih =>
      intro s log hI h hcs
      exact ih (step s c) _ (Inv_step s log c hI)
        (ArgsOk_step s log c hI (hcs c (List.mem_cons_self _ _)) h)
        (fun c' hc' => hcs c' (List.mem_cons_of_mem _ hc'))
  exact key calls Store.init [] Inv_init (by intro k t h; simp [Store.init] at h) hc

/-! ### Claims on the scheduler -/

theorem Reachable_Inv (s : Store) (h : Reachable s) : ∃ log, Inv s log := by
  obtain ⟨calls, rfl⟩ := h
  exact ⟨_, Inv_run calls⟩

theorem run_append (a b : List Call) (s : Store) : run (a ++ b) s = run b (run a s) := by
  simp [run, List.foldl_append]

theorem enqueued_append (a b : List Call) (s : Store) :
    enqueued (a ++ b) s = enqueued a s ++ enqueued b (run a s) := by
  induction a generalizing s with
  | nil => simp [enqueued, run]
  | cons c a ih => simp [enqueued, run, ih, List.append_assoc]

/-- What a `CompleteTask` on a non-zero id does to the two dependency slots and
the status of any registered task of a well-formed store. -/
theorem complete_slots (s : Store) (log : List Int) (hI : Inv s log) (k : Int) (t : Task)
    (a : Int) (r : Float64) (ht : s.tasks k = some t) (ha : a ≠ 0) :
    ∃ t', (step s (.complete a r)).tasks k = some t' ∧
      t'.LeftDependency = (if t.LeftDependency = a then 0 else t.LeftDependency) ∧
      t'.RightDependency = (if t.RightDependency = a then 0 else t.RightDependency) ∧
      (k ≠ a → t'.Status = t.Status) := by
  obtain ⟨dl, dr⟩ := hI.deps k t ht
  simp only [step]
  have hfail : (∀ ta, s.tasks a = some ta → ta.Status ≠ "pending") →
      t.LeftDependency ≠ a ∧ t.RightDependency ≠ a := by
    intro hno
    constructor
    · intro hl
      obtain ⟨td, h1, h2, -⟩ := dl (by rw [hl]; exact ha)
      rw [hl] at h1; exact hno td h1 h2
    · intro hr
      obtain ⟨td, h1, h2, -⟩ := dr (by rw [hr]; exact ha)
      rw [hr] at h1; exact hno td h1 h2
  rcases CompleteTask_cases a r s log hI with ⟨h0, h'⟩ | ⟨ta, h0, h1, h'⟩ | ⟨ta, x, h1, h2, h3, h'⟩
  · obtain ⟨n1, n2⟩ := hfail (by intro ta hta; rw [h0] at hta; exact absurd hta (by simp))
    rw [h']; exact ⟨t, ht, by rw [if_neg n1], by rw [if_neg n2], fun _ => rfl⟩
  · obtain ⟨n1, n2⟩ := hfail (by
      intro ta' hta; rw [h0] at hta; injection hta with hta; subst hta
      rw [h1]; decide)
    rw [h']; exact ⟨t, ht, by rw [if_neg n1], by rw [if_neg n2], fun _ => rfl⟩
  · rw [h']
    have hid := (hI.task_key a ta h1).1
    have hk : (completeResult a ta x r s).tasks k = some (stepTask a r x.TaskIDs k t) := by
      rw [complete_tasks a ta x r s h1 hid, ht]; rfl
    have hmem : (t.LeftDependency = a ∨ t.RightDependency = a) → k ∈ x.TaskIDs := by
      intro hd
      have hsame : t.ExpressionID = ta.ExpressionID := by
        rcases hd with hd | hd
        · obtain ⟨td, g1, -, g3, -⟩ := dl (by rw [hd]; exact ha)
          rw [hd, h1] at g1; injection g1 with g1; subst g1; exact g3.symm
        · obtain ⟨td, g1, -, g3, -⟩ := dr (by rw [hd]; exact ha)
          rw [hd, h1] at g1; injection g1 with g1; subst g1; exact g3.symm
      obtain ⟨x0, g1, g2⟩ := hI.task_expr k t ht
      rw [hsame, h3] at g1; injection g1 with g1; subst g1; exact g2
    obtain ⟨-, -, -, h4, -, h6, -, h8, -⟩ := stepTask_spec a r x.TaskIDs k t
    refine ⟨_, hk, ?_, ?_, ?_⟩
    · rw [h6]
      by_cases hl : t.LeftDependency = a
      · rw [if_pos ⟨hmem (Or.inl hl), hl⟩, if_pos hl]
      · rw [if_neg (fun h => hl h.2), if_neg hl]
    · rw [h8]
      by_cases hr : t.RightDependency = a
      · rw [if_pos ⟨hmem (Or.inr hr), hr⟩, if_pos hr]
      · rw [if_neg (fun h => hr h.2), if_neg hr]
    · intro hka; rw [h4, if_neg hka]

theorem slot_cleared (d a b : Int) (h : d = a ∨ d = b) :
    (if (if d = a then 0 else d) = b then 0 else (if d = a then 0 else d)) = 0 := by
  split_ifs <;> first | rfl | omega

/-- After `CompleteTask` calls on the two tasks a pending task depends on, the
second of them on `b` and the first on the other one, both slots are empty and
the task is still pending. -/
theorem two_completions (calls : List Call) (k : Int) (t : Task) (a b : Int) (r1 r2 : Float64)
    (ht : (run calls Store.init).tasks k = some t) (hp : t.Status = "pending")
    (hl : t.LeftDependency ≠ 0) (hr : t.RightDependency ≠ 0)
    (hab : (a = t.LeftDependency ∧ b = t.RightDependency) ∨
      (a = t.RightDependency ∧ b = t.LeftDependency)) :
    ∃ t', (run (calls ++ [.complete a r1, .complete b r2]) Store.init).tasks k = some t' ∧
      t'.LeftDependency = 0 ∧ t'.RightDependency = 0 ∧ t'.Status = "pending" := by
  have hI := Inv_run calls
  obtain ⟨dl, dr⟩ := hI.deps k t ht
  obtain ⟨-, -, -, -, hlk⟩ := dl hl
  obtain ⟨-, -, -, -, hrk⟩ := dr hr
  have ha : a ≠ 0 ∧ a ≠ k := by rcases hab with ⟨h, -⟩ | ⟨h, -⟩ <;> (rw [h]; constructor <;> omega)
  have hb : b ≠ 0 ∧ b ≠ k := by rcases hab with ⟨-, h⟩ | ⟨-, h⟩ <;> (rw [h]; constructor <;> omega)
  obtain ⟨t1, h1, l1, rr1, s1⟩ := complete_slots _ _ hI k t a r1 ht ha.1
  have hI1 := Inv_step _ _ (.complete a r1) hI
  obtain ⟨t2, h2, l2, rr2, s2⟩ := complete_slots _ _ hI1 k t1 b r2 h1 hb.1
  refine ⟨t2, ?_, ?_, ?_, ?_⟩
  · rw [run_append]; exact h2
  · rw [l2, l1]
    exact slot_cleared _ a b (by rcases hab with ⟨h, -⟩ | ⟨-, h⟩ <;> simp [h])
  · rw [rr2, rr1]
    exact slot_cleared _ a b (by rcases hab with ⟨-, h⟩ | ⟨h, -⟩ <;> simp [h])
  · rw [s2 (Ne.symm hb.2), s1 (Ne.symm ha.2)]; exact hp

/-- A task that is pending with both slots empty has been appended to the ready
queue exactly once, and this stays so whatever calls follow. -/
theorem unblocked_count_one (calls : List Call) (k : Int) (t : Task)
    (ht : (run calls Store.init).tasks k = some t) (hl : t.LeftDependency = 0)
    (hr : t.RightDependency = 0) (hp : t.Status = "pending") (more : List Call) :
    (enqueued (calls ++ more) Store.init).count k = 1 := by
  have hmem : k ∈ enqueued (calls ++ more) Store.init := by
    rw [enqueued_append]
    exact List.mem_append_left _ ((Inv_run calls).pending_logged k t ht hl hr hp)
  exact List.count_eq_one_of_mem (Inv_run (calls ++ more)).log_nodup hmem

/-- C3 (as stated, fails): "(1+2)*(3+4)" creates task 3 waiting for tasks 1
and 2; after `CompleteTask` on task 3 itself and then on tasks 1 and 2, both
slots of task 3 have been cleared by the calls on the tasks it depends on, yet
task 3 was never appended to the ready queue. -/
theorem completed_blocked_task_never_enqueued :
    ((run [.add "(1+2)*(3+4)"] Store.init).tasks 3).map
        (fun t => (t.LeftDependency, t.RightDependency, t.Status)) = some (1, 2, "pending") ∧
    ((run [.add "(1+2)*(3+4)", .complete 3 (Float64.num 0), .complete 1 (Float64.num 3),
        .complete 2 (Float64.num 7)] Store.init).tasks 3).map
        (fun t => (t.LeftDependency, t.RightDependency, t.Status)) = some (0, 0, "completed") ∧
    (enqueued [.add "(1+2)*(3+4)", .complete 3 (Float64.num 0), .complete 1 (Float64.num 3),
        .complete 2 (Float64.num 7)] Store.init).count 3 = 0 := by
  decide

/-- C4: in every reachable state, an expression with a root task is
"completed" exactly when its root task is, and then carries the root task's
Result; and a successful `CompleteTask` on a task that is not the root of its
expression leaves that expression's record, so its Status and Result, unchanged. -/
theorem expression_completed_iff_root (s : Store) (hs : Reachable s) :
    (∀ i x, s.expressions i = some x → x.RootTaskID ≠ 0 →
      ∃ t, s.tasks x.RootTaskID = some t ∧
        (x.Status = "completed" ↔ t.Status = "completed") ∧
        (x.Status = "completed" → x.Result = t.Result)) ∧
    (∀ taskID result t x, s.tasks taskID = some t → s.expressions t.ExpressionID = some x →
      taskID ≠ x.RootTaskID → (CompleteTask taskID result s).1 = .ok () →
      (CompleteTask taskID result s).2.expressions t.ExpressionID = some x) := by
  obtain ⟨log, hI⟩ := Reachable_Inv s hs
  constructor
  · intro i x hx hr
    obtain ⟨t, h1, -, h3, h4⟩ := hI.root i x hx hr
    exact ⟨t, h1, h3, h4⟩
  · intro taskID result t x ht hx hne hok
    rcases CompleteTask_cases taskID result s log hI with
      ⟨-, h'⟩ | ⟨t', -, -, h'⟩ | ⟨t', x', h1, -, h3, h'⟩
    · rw [h'] at hok; exact absurd hok (by simp)
    · rw [h'] at hok; exact absurd hok (by simp)
    · rw [ht] at h1; injection h1 with h1; subst h1
      rw [hx] at h3; injection h3 with h3; subst h3
      rw [h', complete_expressions, if_neg]
      · exact hx
      · rintro ⟨h, -⟩
        exact hne (by rw [← (hI.task_key taskID t ht).1, h])

/-- Witness for C4: completing task 1 of "(1+2)*3", whose root is task 2. -/
theorem expression_completed_iff_root_witness :
    (CompleteTask 1 (Float64.num 3) (run [Call.add "(1+2)*3"] Store.init)).2.expressions 1
      = some ⟨1, "(1+2)*3", "pending", Float64.NaN, [1, 2], 2⟩ :=
  (expression_completed_iff_root (run [Call.add "(1+2)*3"] Store.init) ⟨_, rfl⟩).2 1
    (Float64.num 3) (newTask 1 1 "+" (digitValue '1') (digitValue '2') 0 0)
    ⟨1, "(1+2)*3", "pending", Float64.NaN, [1, 2], 2⟩ (by decide) (by decide) (by decide)
    (by decide)

/-- C5: for a registered pending task of a reachable store,
`CompleteTask(id, r1)` succeeds and records `r1` as the task's Result; a
following `CompleteTask(id, r2)` returns "Task already completed" and changes
nothing, so the Result is still `r1`. -/
theorem complete_twice (s : Store) (hs : Reachable s) (taskID : Int) (t : Task)
    (r1 r2 : Float64) (ht : s.tasks taskID = some t) (hp : t.Status = "pending") :
    (CompleteTask taskID r1 s).1 = .ok () ∧
    (∃ t1, (CompleteTask taskID r1 s).2.tasks taskID = some t1 ∧ t1.Result = r1 ∧
      t1.Status = "completed" ∧
      CompleteTask taskID r2 (CompleteTask taskID r1 s).2
        = (.error "Task already completed", (CompleteTask taskID r1 s).2)) := by
  obtain ⟨log, hI⟩ := Reachable_Inv s hs
  obtain ⟨x, hx, h⟩ := CompleteTask_ok_of_Inv taskID r1 s log t hI ht hp
  have hid := (hI.task_key taskID t ht).1
  have hk : (completeResult taskID t x r1 s).tasks taskID
      = some (stepTask taskID r1 x.TaskIDs taskID t) := by
    rw [complete_tasks taskID t x r1 s ht hid, ht]; rfl
  obtain ⟨-, -, -, h4, h5, -⟩ := stepTask_spec taskID r1 x.TaskIDs taskID t
  rw [h]
  refine ⟨rfl, _, hk, by rw [h5, if_pos rfl], by rw [h4, if_pos rfl], ?_⟩
  exact CompleteTask_already taskID r2 _ _ hk (by rw [h4, if_pos rfl]; decide)

/-- Witness for C5: task 1 of "1+2" reported twice. -/
theorem complete_twice_witness :
    (CompleteTask 1 (Float64.num 3) (run [Call.add "1+2"] Store.init)).1 = .ok () ∧
    (∃ t1, (CompleteTask 1 (Float64.num 3) (run [Call.add "1+2"] Store.init)).2.tasks 1
        = some t1 ∧ t1.Result = Float64.num 3 ∧ t1.Status = "completed" ∧
      CompleteTask 1 (Float64.num 4)
          (CompleteTask 1 (Float64.num 3) (run [Call.add "1+2"] Store.init)).2
        = (.error "Task already completed",
          (CompleteTask 1 (Float64.num 3) (run [Call.add "1+2"] Store.init)).2)) :=
  complete_twice (run [Call.add "1+2"] Store.init) ⟨_, rfl⟩ 1
    (newTask 1 1 "+" (digitValue '1') (digitValue '2') 0 0) (Float64.num 3) (Float64.num 4)
    (by decide) rfl

theorem fromHandler_reportsNumber {c : Call} (h : c.fromHandler) : c.reportsNumber := by
  cases c with
  | add raw => trivial
  | get => trivial
  | complete k r =>
    intro hr
    have h' : r.isFinite = true := h
    rw [hr] at h'; simp [Float64.isFinite] at h'

theorem retVal_finite (node : Node) (h : node.isTree = true) (hs : node.size = 0) :
    node.retVal.isFinite = true := by
  cases node with
  | nil => simp [Node.isTree] at h
  | mk op v l r =>
    by_cases hop : op = ""
    · subst hop
      simp only [Node.isTree, if_true, Bool.and_eq_true] at h
      simp only [Node.retVal, if_true]
      exact h.2
    · simp [Node.size, hop] at hs

theorem tasks_args_finite (node : Node) (h : node.isTree = true) (e : Int) :
    ∀ c : Int, 0 ≤ c → ∀ t ∈ node.tasks e c,
      (t.LeftDependency = 0 → t.Arg1.isFinite = true) ∧
      (t.RightDependency = 0 → t.Arg2.isFinite = true) := by
  induction node with
  | nil => simp [Node.isTree] at h
  | mk op v l r ihl ihr =>
    intro c hc t ht
    by_cases hop : op = ""
    · simp [Node.tasks, hop] at ht
    · obtain ⟨hl, hr⟩ := isTree_children hop h
      simp only [Node.tasks, hop, if_false, List.mem_append, List.mem_singleton] at ht
      rcases ht with (ht | ht) | rfl
      · exact ihl hl c hc t ht
      · exact ihr hr _ (by omega) t ht
      · simp only [newTask]
        constructor
        · intro hd
          rw [if_neg (by simpa using hd)]
          rcases rootID_cases l hl e c hc with ⟨-, h2, -⟩ | ⟨-, -, h3, -⟩
          · exact retVal_finite l hl h2
          · exact absurd hd h3
        · intro hd
          rw [if_neg (by simpa using hd)]
          rcases rootID_cases r hr e (c + (l.size : Nat)) (by omega) with
            ⟨-, h2, -⟩ | ⟨-, -, h3, -⟩
          · exact retVal_finite r hr h2
          · exact absurd hd h3

theorem ArgsFinite_step (s : Store) (log : List Int) (c : Call) (hI : Inv s log)
    (hc : c.fromHandler) (h : ArgsFinite s) : ArgsFinite (step s c) := by
  cases c with
  | add raw =>
    simp only [step]
    rcases AddExpression_cases raw s with ⟨node, -, h2, h3⟩ | ⟨e, -, -, h3⟩
    · rw [h3]
      intro k t ht
      rcases add_tasks_cases raw node s k t ht with ⟨h1, -⟩ | ⟨h1, -⟩
      · exact tasks_args_finite node h2 _ _ hI.counters.2 t h1
      · exact h k t h1
    · rw [h3]; exact h
  | get =>
    simp only [step]
    unfold GetReadyTask
    cases s.readyTasks <;> exact h
  | complete taskID r =>
    have hr : r.isFinite = true := hc
    simp only [step]
    rcases CompleteTask_cases taskID r s log hI with ⟨-, h'⟩ | ⟨t, -, -, h'⟩ | ⟨t, x, h1, -, h3, h'⟩
    · rw [h']; exact h
    · rw [h']; exact h
    · rw [h']
      intro k u hu
      obtain ⟨u0, h0, rfl⟩ := complete_tasks_some taskID t x r s h1
        (hI.task_key taskID t h1).1 k u hu
      obtain ⟨-, -, -, -, -, h6, h7, h8, h9⟩ := stepTask_spec taskID r x.TaskIDs k u0
      obtain ⟨hl, hr'⟩ := h k u0 h0
      rw [h6, h7, h8, h9]
      constructor
      · by_cases hc : k ∈ x.TaskIDs ∧ u0.LeftDependency = taskID
        · rw [if_pos hc, if_pos hc]; exact fun _ => hr
        · rw [if_neg hc, if_neg hc]; exact hl
      · by_cases hc : k ∈ x.TaskIDs ∧ u0.RightDependency = taskID
        · rw [if_pos hc, if_pos hc]; exact fun _ => hr
        · rw [if_neg hc, if_neg hc]; exact hr'

theorem ArgsFinite_run (calls : List Call) (hc : ∀ c ∈ calls, c.fromHandler) :
    ArgsFinite (run calls Store.init) := by
  have key : ∀ (cs : List Call) (s : Store) (log : List Int), Inv s log → ArgsFinite s →
      (∀ c ∈ cs, c.fromHandler) → ArgsFinite (run cs s) := by
    intro cs
    induction cs with
    | nil => intro s log _ h _; exact h
    | cons c cs ih =>
      intro s log hI h hcs
      exact ih (step s c) _ (Inv_step s log c hI)
        (ArgsFinite_step s log c hI (hcs c (List.mem_cons_self _ _)) h)
        (fun c' hc' => hcs c' (List.mem_cons_of_mem _ hc'))
  exact key calls Store.init [] Inv_init (by intro k t h; simp [Store.init] at h) hc

/-- C9: in every state reached through calls as the handlers make them (the
result of a `CompleteTask` call is decoded from JSON, so it is finite), the
task that `GetReadyTask` returns is registered, has both dependencies equal to
none, and both its operands are finite numbers: the unresolved operand NaN is
not handed to a worker. -/
theorem ready_task_is_unblocked (calls : List Call) (hc : ∀ c ∈ calls, c.fromHandler)
    (tid : Int) (s' : Store) (h : GetReadyTask (run calls Store.init) = (.ok tid, s')) :
    ∃ t, (run calls Store.init).tasks tid = some t ∧ t.ID = tid ∧
      t.LeftDependency = 0 ∧ t.RightDependency = 0 ∧
      t.Arg1 ≠ Float64.NaN ∧ t.Arg2 ≠ Float64.NaN ∧
      t.Arg1.isFinite = true ∧ t.Arg2.isFinite = true := by
  have hI := Inv_run calls
  obtain ⟨pre, hpre⟩ := hI.ready_log
  have hmem : tid ∈ (run calls Store.init).readyTasks := by
    unfold GetReadyTask at h
    cases hr : (run calls Store.init).readyTasks with
    | nil => rw [hr] at h; simp at h
    | cons a rest =>
      rw [hr] at h
      simp only [Prod.mk.injEq, Outcome.ok.injEq] at h
      rw [← h.1]; exact List.mem_cons_self _ _
  obtain ⟨t, h1, h2, h3⟩ := hI.log_unblocked tid (by rw [hpre]; exact List.mem_append_right _ hmem)
  obtain ⟨a1, a2⟩ := ArgsOk_run calls (fun c hm => fromHandler_reportsNumber (hc c hm)) tid t h1
  obtain ⟨f1, f2⟩ := ArgsFinite_run calls hc tid t h1
  exact ⟨t, h1, (hI.task_key tid t h1).1, h2, h3, a1.1 h2, a2.1 h3, f1 h2, f2 h3⟩

/-- Witness for C9: the second task of "(1+2)*3", handed out after the first
was handed out and reported as 3. -/
theorem ready_task_is_unblocked_witness :
    ∃ t, (run [Call.add "(1+2)*3", Call.get, Call.complete 1 (Float64.num 3)]
        Store.init).tasks 2 = some t ∧ t.ID = 2 ∧
      t.LeftDependency = 0 ∧ t.RightDependency = 0 ∧
      t.Arg1 ≠ Float64.NaN ∧ t.Arg2 ≠ Float64.NaN ∧
      t.Arg1.isFinite = true ∧ t.Arg2.isFinite = true :=
  ready_task_is_unblocked [Call.add "(1+2)*3", Call.get, Call.complete 1 (Float64.num 3)]
    (by
      intro c hc
      simp only [List.mem_cons, List.mem_singleton, List.not_mem_nil, or_false] at hc
      rcases hc with rfl | rfl | rfl
      · trivial
      · trivial
      · exact rfl)
    2 (GetReadyTask (run [Call.add "(1+2)*3", Call.get, Call.complete 1 (Float64.num 3)]
      Store.init)).2 rfl

/-- C10: in every state reached through calls as the handlers make them (the
result of a `CompleteTask` call is decoded from JSON, so it is finite), for
every task and each side the dependency is none exactly when the operand is a
number and not the unresolved operand NaN, and a dependency that is set comes
with the unresolved operand.  `buildTasks` establishes this for each task it
creates, for a tree that `parseExpression` returns, and `CompleteTask` with a
finite result keeps it. -/
theorem dependency_none_iff_operand_number (calls : List Call)
    (hc : ∀ c ∈ calls, c.fromHandler) :
    ArgsOk (run calls Store.init) ∧ BlockedArgsNaN (run calls Store.init) ∧
    (∀ (raw : String) (node : Node) (e : Int) (s : Store) (ids : List Int) (k : Int) (t : Task),
      parseExpression raw = .ok node → 0 ≤ s.taskCounter → s.tasks k = none →
      (buildTasks node e (s, ids)).2.1.tasks k = some t →
      (t.LeftDependency = 0 ↔ t.Arg1 ≠ Float64.NaN) ∧
      (t.RightDependency = 0 ↔ t.Arg2 ≠ Float64.NaN)) ∧
    (∀ (k : Int) (r : Float64), r.isFinite = true →
      ArgsOk (CompleteTask k r (run calls Store.init)).2) := by
  have hn : ∀ c ∈ calls, c.reportsNumber := fun c hm => fromHandler_reportsNumber (hc c hm)
  refine ⟨ArgsOk_run calls hn, BlockedArgsNaN_run calls, ?_, ?_⟩
  · intro raw node e s ids k t hp hcnt hnone ht
    have htree : node.isTree = true := by
      rcases parseExpression_cases raw with ⟨nd, h1, h2, -⟩ | ⟨err, h1, -⟩
      · rw [hp] at h1; injection h1 with h1; rw [h1]; exact h2
      · rw [hp] at h1; exact absurd h1 (by simp)
    rw [buildTasks_eq node htree e s ids] at ht
    rcases register_cases (node.tasks e s.taskCounter) s.tasks k (tasks_nodup _ _ _) with
      ⟨t', h1, -, h3⟩ | ⟨-, h2⟩
    · simp only at ht
      rw [h3] at ht; injection ht with ht; subst ht
      obtain ⟨-, -, -, -, -, -, h7, h8⟩ := tasks_spec node htree e s.taskCounter hcnt t' h1
      exact ⟨h7, h8⟩
    · simp only at ht
      rw [h2, hnone] at ht; exact absurd ht (by simp)
  · intro k r hr
    have := ArgsOk_step (run calls Store.init) _ (Call.complete k r) (Inv_run calls)
      (fromHandler_reportsNumber (c := Call.complete k r) hr) (ArgsOk_run calls hn)
    exact this

/-- Witness for C10: "(1+2)*3" with task 1 reported as 3. -/
theorem dependency_none_iff_operand_number_witness :
    ArgsOk (run [Call.add "(1+2)*3", Call.complete 1 (Float64.num 3)] Store.init) ∧
    BlockedArgsNaN (run [Call.add "(1+2)*3", Call.complete 1 (Float64.num 3)] Store.init) :=
  ⟨(dependency_none_iff_operand_number
      [Call.add "(1+2)*3", Call.complete 1 (Float64.num 3)]
      (by
        intro c hc
        simp only [List.mem_cons, List.mem_singleton, List.not_mem_nil, or_false] at hc
        rcases hc with rfl | rfl
        · trivial
        · exact rfl)).1,
    (dependency_none_iff_operand_number
      [Call.add "(1+2)*3", Call.complete 1 (Float64.num 3)]
      (by
        intro c hc
        simp only [List.mem_cons, List.mem_singleton, List.not_mem_nil, or_false] at hc
        rcases hc with rfl | rfl
        · trivial
        · exact rfl)).2.1⟩

/-! ### The parser gives more budget the same answer -/

theorem parse_mono (n : Nat) : ∀ p : parser,
    (parseFactor n p ≠ .fuel → parseFactor (n + 1) p = parseFactor n p) ∧
    (parseTerm n p ≠ .fuel → parseTerm (n + 1) p = parseTerm n p) ∧
    (parseExpr n p ≠ .fuel → parseExpr (n + 1) p = parseExpr n p) ∧
    (∀ acc, parseTermLoop n acc p ≠ .fuel → parseTermLoop (n + 1) acc p = parseTermLoop n acc p) ∧
    (∀ acc, parseExprLoop n acc p ≠ .fuel → parseExprLoop (n + 1) acc p = parseExprLoop n acc p) := by
  induction n with
  | zero =>
    intro p
    simp [parseFactor, parseTerm, parseExpr, parseTermLoop, parseExprLoop]
  | succ n ih =>
    intro p
    refine ⟨?_, ?_, ?_, ?_, ?_⟩
    · intro h
      rw [parseFactor] at h ⊢
      rw [parseFactor.eq_def (n + 1)]
      simp only [] at h ⊢
      generalize skipWhitespace p = q at h ⊢
      by_cases hd : isDigit (peek q) = true
      · simp only [hd, if_true]
      · by_cases hp : peek q = '('
        · simp only [hd, hp, if_true, Bool.false_eq_true, if_false] at h ⊢
          have hpar : isDigit '(' = false := by decide
          simp only [hpar, Bool.false_eq_true, if_false] at h ⊢
          cases hE : parseExpr n (next q).2 with
          | ok a => rw [(ih _).2.2.1 (by rw [hE]; simp), hE]
          | err e => rw [(ih _).2.2.1 (by rw [hE]; simp), hE]
          | fuel => rw [hE] at h; exact absurd rfl h
        · simp only [hd, hp, if_false]
    · intro h
      rw [parseTerm] at h ⊢
      rw [parseTerm.eq_def (n + 1)]
      simp only [] at h ⊢
      cases hF : parseFactor n p with
      | ok a =>
        obtain ⟨l, p1⟩ := a
        rw [hF] at h
        rw [(ih _).1 (by rw [hF]; simp), hF]
        exact (ih p1).2.2.2.1 l h
      | err e => rw [(ih _).1 (by rw [hF]; simp), hF]
      | fuel => rw [hF] at h; exact absurd rfl h
    · intro h
      rw [parseExpr] at h ⊢
      rw [parseExpr.eq_def (n + 1)]
      simp only [] at h ⊢
      cases hF : parseTerm n p with
      | ok a =>
        obtain ⟨l, p1⟩ := a
        rw [hF] at h
        rw [(ih _).2.1 (by rw [hF]; simp), hF]
        exact (ih p1).2.2.2.2 l h
      | err e => rw [(ih _).2.1 (by rw [hF]; simp), hF]
      | fuel => rw [hF] at h; exact absurd rfl h
    · intro acc h
      rw [parseTermLoop] at h ⊢
      rw [parseTermLoop.eq_def (n + 1)]
      simp only [] at h ⊢
      generalize skipWhitespace p = q at h ⊢
      by_cases hc : peek q = '*' ∨ peek q = '/'
      · simp only [hc, if_true] at h ⊢
        cases hF : parseFactor n (next q).2 with
        | ok a =>
          obtain ⟨r, p1⟩ := a
          rw [hF] at h
          rw [(ih _).1 (by rw [hF]; simp), hF]
          exact (ih p1).2.2.2.1 _ h
        | err e => rw [(ih _).1 (by rw [hF]; simp), hF]
        | fuel => rw [hF] at h; exact absurd rfl h
      · simp only [hc, if_false]
    · intro acc h
      rw [parseExprLoop] at h ⊢
      rw [parseExprLoop.eq_def (n + 1)]
      simp only [] at h ⊢
      generalize skipWhitespace p = q at h ⊢
      by_cases hc : peek q = '+' ∨ peek q = '-'
      · simp only [hc, if_true] at h ⊢
        cases hF : parseTerm n (next q).2 with
        | ok a =>
          obtain ⟨r, p1⟩ := a
          rw [hF] at h
          rw [(ih _).2.1 (by rw [hF]; simp), hF]
          exact (ih p1).2.2.2.2 _ h
        | err e => rw [(ih _).2.1 (by rw [hF]; simp), hF]
        | fuel => rw [hF] at h; exact absurd rfl h
      · simp only [hc, if_false]

theorem parse_mono_le (n m : Nat) (h : n ≤ m) (p : parser) :
    (parseFactor n p ≠ .fuel → parseFactor m p = parseFactor n p) ∧
    (parseTerm n p ≠ .fuel → parseTerm m p = parseTerm n p) ∧
    (parseExpr n p ≠ .fuel → parseExpr m p = parseExpr n p) ∧
    (∀ acc, parseTermLoop n acc p ≠ .fuel → parseTermLoop m acc p = parseTermLoop n acc p) ∧
    (∀ acc, parseExprLoop n acc p ≠ .fuel → parseExprLoop m acc p = parseExprLoop n acc p) := by
  induction m with
  | zero =>
    have : n = 0 := by omega
    subst this
    exact ⟨fun _ => rfl, fun _ => rfl, fun _ => rfl, fun _ _ => rfl, fun _ _ => rfl⟩
  | succ m ih =>
    by_cases hn : n = m + 1
    · subst hn
      exact ⟨fun _ => rfl, fun _ => rfl, fun _ => rfl, fun _ _ => rfl, fun _ _ => rfl⟩
    · obtain ⟨i1, i2, i3, i4, i5⟩ := ih (by omega)
      obtain ⟨m1, m2, m3, m4, m5⟩ := parse_mono m p
      refine ⟨?_, ?_, ?_, ?_, ?_⟩
      · intro h'; rw [m1 (by rw [i1 h']; exact h'), i1 h']
      · intro h'; rw [m2 (by rw [i2 h']; exact h'), i2 h']
      · intro h'; rw [m3 (by rw [i3 h']; exact h'), i3 h']
      · intro acc h'; rw [m4 acc (by rw [i4 acc h']; exact h'), i4 acc h']
      · intro acc h'; rw [m5 acc (by rw [i5 acc h']; exact h'), i5 acc h']

/-! ### The parser reads every sentence of the grammar -/

theorem skipWhitespace_cons (c : Char) (r : List Char) (h1 : c ≠ ' ') (h2 : c ≠ '\t') :
    skipWhitespace (c :: r) = c :: r := by
  simp [skipWhitespace, h1, h2]

theorem skipWhitespace_idem (p : parser) : skipWhitespace (skipWhitespace p) = skipWhitespace p := by
  induction p with
  | nil => rfl
  | cons c r ih =>
    by_cases h : c = ' ' ∨ c = '\t'
    · simp only [skipWhitespace, h, if_true]; exact ih
    · simp only [skipWhitespace, h, if_false]

theorem parseExprLoop_skip (n : Nat) (acc : Node) (p : parser) :
    parseExprLoop n acc (skipWhitespace p) = parseExprLoop n acc p := by
  cases n with
  | zero => simp [parseExprLoop]
  | succ n => rw [parseExprLoop, parseExprLoop, skipWhitespace_idem]

theorem parseTermLoop_exit (n : Nat) (acc : Node) (p : parser)
    (h : peek (skipWhitespace p) ≠ '*' ∧ peek (skipWhitespace p) ≠ '/') :
    parseTermLoop (n + 1) acc p = .ok (acc, skipWhitespace p) := by
  rw [parseTermLoop]; simp [h.1, h.2]

theorem parseExprLoop_exit (n : Nat) (acc : Node) (p : parser)
    (h : peek (skipWhitespace p) ≠ '+' ∧ peek (skipWhitespace p) ≠ '-') :
    parseExprLoop (n + 1) acc p = .ok (acc, skipWhitespace p) := by
  rw [parseExprLoop]; simp [h.1, h.2]

theorem parseTermLoop_op (n : Nat) (acc : Node) (op : Char) (p : parser)
    (h : op = '*' ∨ op = '/') :
    parseTermLoop (n + 1) acc (op :: p) =
      match parseFactor n p with
      | .ok (right, p) => parseTermLoop n (opNode op acc right) p
      | .err e => .err e
      | .fuel => .fuel := by
  have hs : skipWhitespace (op :: p) = op :: p := by
    rcases h with rfl | rfl <;> exact skipWhitespace_cons _ _ (by decide) (by decide)
  rw [parseTermLoop]
  simp only [hs, peek, next, h, if_true, opNode]

theorem parseExprLoop_op (n : Nat) (acc : Node) (op : Char) (p : parser)
    (h : op = '+' ∨ op = '-') :
    parseExprLoop (n + 1) acc (op :: p) =
      match parseTerm n p with
      | .ok (right, p) => parseExprLoop n (opNode op acc right) p
      | .err e => .err e
      | .fuel => .fuel := by
  have hs : skipWhitespace (op :: p) = op :: p := by
    rcases h with rfl | rfl <;> exact skipWhitespace_cons _ _ (by decide) (by decide)
  rw [parseExprLoop]
  simp only [hs, peek, next, h, if_true, opNode]

theorem parseFactor_digit (n : Nat) (d : Char) (rest : List Char) (hd : isDigit d = true)
    (hr : NoDigitNext rest) : parseFactor (n + 1) (d :: rest) = .ok (leafNode d, rest) := by
  have hs : skipWhitespace (d :: rest) = d :: rest :=
    skipWhitespace_cons _ _ (by rintro rfl; exact absurd hd (by decide))
      (by rintro rfl; exact absurd hd (by decide))
  have hp : peek (d :: rest) = d := rfl
  have hn : (next (d :: rest)).2 = rest := rfl
  rw [parseFactor]
  simp only [hs, hp, hn, hd, if_true, leafNode]
  rw [if_neg hr]

theorem parseFactor_paren (n : Nat) (p : parser) :
    parseFactor (n + 1) ('(' :: p) =
      match parseExpr n p with
      | .ok (node, p) =>
        if peek (skipWhitespace p) ≠ ')' then .err "Parenthesis error"
        else .ok (node, (next (skipWhitespace p)).2)
      | .err e => .err e
      | .fuel => .fuel := by
  have hs : skipWhitespace ('(' :: p) = '(' :: p :=
    skipWhitespace_cons _ _ (by decide) (by decide)
  have hpar : isDigit '(' = false := by decide
  rw [parseFactor]
  simp only [hs, peek, next, hpar, Bool.false_eq_true, if_false, if_true]

theorem NoDigitNext_cons (c : Char) (r : List Char) (h : isDigit c = false) :
    NoDigitNext (c :: r) := by
  intro h'
  have : isDigit c = true := h'.2
  rw [h] at this; exact absurd this (by simp)

theorem parse_complete {lvl : Level} {t : List Char} {e : Exp} (h : Sentence lvl t e) :
    Complete lvl t e := by
  induction h with
  | digit d hd =>
    intro rest hrest
    refine ⟨1, fun n hn => ?_⟩
    obtain ⟨k, rfl⟩ : ∃ k, n = k + 1 := ⟨n - 1, by omega⟩
    exact parseFactor_digit k d rest hd hrest
  | @paren t e _ ih =>
    intro rest hrest
    have hr' : NoDigitNext (')' :: rest) := NoDigitNext_cons _ _ (by decide)
    have hpl : peek (')' :: rest) ≠ '+' ∧ peek (')' :: rest) ≠ '-' :=
      ⟨(by decide : ')' ≠ '+'), (by decide : ')' ≠ '-')⟩
    have hst : peek (')' :: rest) ≠ '*' ∧ peek (')' :: rest) ≠ '/' :=
      ⟨(by decide : ')' ≠ '*'), (by decide : ')' ≠ '/')⟩
    have hs : skipWhitespace (')' :: rest) = ')' :: rest :=
      skipWhitespace_cons _ _ (by decide) (by decide)
    obtain ⟨n0, hn0⟩ := ih (')' :: rest) hr' (by rw [hs]; exact hst) 1
      (.ok (e.toNode, ')' :: rest))
      (by rw [parseExprLoop_exit 0 _ _ (by rw [hs]; exact hpl), hs])
      (by simp)
    refine ⟨n0 + 1, fun n hn => ?_⟩
    obtain ⟨k, rfl⟩ : ∃ k, n = k + 1 := ⟨n - 1, by omega⟩
    have := hn0 k (by omega)
    have htxt : '(' :: t ++ [')'] ++ rest = '(' :: (t ++ ')' :: rest) := by simp
    rw [htxt, parseFactor_paren, this]
    simp [hs, peek, next]
  | @factor t e _ ih =>
    intro rest hrest m res hres hne
    obtain ⟨n0, hn0⟩ := ih rest hrest
    refine ⟨max n0 m + 1, fun n hn => ?_⟩
    obtain ⟨k, rfl⟩ : ∃ k, n = k + 1 := ⟨n - 1, by omega⟩
    rw [parseTerm, hn0 k (by omega)]
    simp only []
    rw [(parse_mono_le m k (by omega) rest).2.2.2.1 _ (by rw [hres]; exact hne), hres]
  | @mul t1 t2 e1 e2 op hop _ _ ih1 ih2 =>
    intro rest hrest m res hres hne
    obtain ⟨n2, hn2⟩ := ih2 rest hrest
    have hr' : NoDigitNext (op :: (t2 ++ rest)) :=
      NoDigitNext_cons _ _ (by rcases hop with rfl | rfl <;> decide)
    obtain ⟨n0, hn0⟩ := ih1 (op :: (t2 ++ rest)) hr' (max n2 m + 1) res (by
      rw [parseTermLoop_op _ _ _ _ hop, hn2 _ (le_max_left _ _)]
      simp only []
      have := (parse_mono_le m (max n2 m) (le_max_right _ _) rest).2.2.2.1
        (opNode op e1.toNode e2.toNode) (by
          have h' : parseTermLoop m (Exp.bin op e1 e2).toNode rest = res := hres
          simp only [Exp.toNode] at h'; rw [h']; exact hne)
      rw [this]; exact hres) hne
    refine ⟨n0, fun n hn => ?_⟩
    have := hn0 n hn
    simpa [List.append_assoc] using this
  | @term t e _ ih =>
    intro rest hrest hstar m res hres hne
    obtain ⟨n0, hn0⟩ := ih rest hrest 1 (.ok (e.toNode, skipWhitespace rest))
      (parseTermLoop_exit 0 _ _ hstar) (by simp)
    refine ⟨max n0 m + 1, fun n hn => ?_⟩
    obtain ⟨k, rfl⟩ : ∃ k, n = k + 1 := ⟨n - 1, by omega⟩
    rw [parseExpr, hn0 k (by omega)]
    simp only []
    rw [parseExprLoop_skip,
      (parse_mono_le m k (by omega) rest).2.2.2.2 _ (by rw [hres]; exact hne), hres]
  | @add t1 t2 e1 e2 op hop _ _ ih1 ih2 =>
    intro rest hrest hstar m res hres hne
    obtain ⟨n2, hn2⟩ := ih2 rest hrest 1 (.ok (e2.toNode, skipWhitespace rest))
      (parseTermLoop_exit 0 _ _ hstar) (by simp)
    have hr' : NoDigitNext (op :: (t2 ++ rest)) :=
      NoDigitNext_cons _ _ (by rcases hop with rfl | rfl <;> decide)
    have hs : skipWhitespace (op :: (t2 ++ rest)) = op :: (t2 ++ rest) := by
      rcases hop with rfl | rfl <;> exact skipWhitespace_cons _ _ (by decide) (by decide)
    have hst' : peek (skipWhitespace (op :: (t2 ++ rest))) ≠ '*' ∧
        peek (skipWhitespace (op :: (t2 ++ rest))) ≠ '/' := by
      rw [hs]
      rcases hop with rfl | rfl
      · exact ⟨(by decide : '+' ≠ '*'), (by decide : '+' ≠ '/')⟩
      · exact ⟨(by decide : '-' ≠ '*'), (by decide : '-' ≠ '/')⟩
    obtain ⟨n0, hn0⟩ := ih1 (op :: (t2 ++ rest)) hr' hst' (max n2 m + 1) res (by
      rw [parseExprLoop_op _ _ _ _ hop, hn2 _ (le_max_left _ _)]
      simp only []
      rw [parseExprLoop_skip]
      have := (parse_mono_le m (max n2 m) (le_max_right _ _) rest).2.2.2.2
        (opNode op e1.toNode e2.toNode) (by
          have h' : parseExprLoop m (Exp.bin op e1 e2).toNode rest = res := hres
          simp only [Exp.toNode] at h'; rw [h']; exact hne)
      rw [this]; exact hres) hne
    refine ⟨n0, fun n hn => ?_⟩
    have := hn0 n hn
    simpa [List.append_assoc] using this

theorem sentence_edges {lvl : Level} {t : List Char} {e : Exp} (h : Sentence lvl t e) :
    (∃ a r, t = a :: r ∧ isSpace a = false) ∧ (∃ q b, t = q ++ [b] ∧ isSpace b = false) := by
  induction h with
  | digit d hd =>
    exact ⟨⟨d, [], rfl, isSpace_of_isDigit hd⟩, ⟨[], d, rfl, isSpace_of_isDigit hd⟩⟩
  | @paren t e _ _ =>
    exact ⟨⟨'(', t ++ [')'], rfl, by decide⟩, ⟨'(' :: t, ')', rfl, by decide⟩⟩
  | factor _ ih => exact ih
  | term _ ih => exact ih
  | @mul t1 t2 e1 e2 op _ _ _ ih1 ih2 =>
    obtain ⟨⟨a, r, h1, h2⟩, -⟩ := ih1
    obtain ⟨-, ⟨q, b, h3, h4⟩⟩ := ih2
    exact ⟨⟨a, r ++ op :: t2, by rw [h1]; rfl, h2⟩,
      ⟨t1 ++ op :: q, b, by rw [h3]; simp, h4⟩⟩
  | @add t1 t2 e1 e2 op _ _ _ ih1 ih2 =>
    obtain ⟨⟨a, r, h1, h2⟩, -⟩ := ih1
    obtain ⟨-, ⟨q, b, h3, h4⟩⟩ := ih2
    exact ⟨⟨a, r ++ op :: t2, by rw [h1]; rfl, h2⟩,
      ⟨t1 ++ op :: q, b, by rw [h3]; simp, h4⟩⟩

theorem sentence_trim {lvl : Level} {t : List Char} {e : Exp} (h : Sentence lvl t e) :
    TrimSpace t = t ∧ skipWhitespace t = t := by
  obtain ⟨⟨a, r, h1, h2⟩, ⟨q, b, h3, h4⟩⟩ := sentence_edges h
  constructor
  · unfold TrimSpace
    have e1 : t.dropWhile isSpace = t := by rw [h1]; simp [List.dropWhile, h2]
    rw [e1]
    have e2 : t.reverse = b :: q.reverse := by rw [h3]; simp
    rw [e2]
    simp only [List.dropWhile, h4]
    rw [← e2, List.reverse_reverse]
  · rw [h1]
    exact skipWhitespace_cons _ _ (by rintro rfl; exact absurd h2 (by decide))
      (by rintro rfl; exact absurd h2 (by decide))

/-- The function `parseExpression` on a sentence of the grammar returns the tree of the
expression the sentence denotes. -/
theorem parseExpression_sentence (text : String) (e : Exp)
    (h : Sentence .expr text.data e) : parseExpression text = .ok e.toNode := by
  obtain ⟨ht, hs⟩ := sentence_trim h
  have hz : peek (skipWhitespace ([] : List Char)) ≠ '*' ∧
      peek (skipWhitespace ([] : List Char)) ≠ '/' := ⟨by decide, by decide⟩
  have hz' : peek (skipWhitespace ([] : List Char)) ≠ '+' ∧
      peek (skipWhitespace ([] : List Char)) ≠ '-' := ⟨by decide, by decide⟩
  obtain ⟨n0, hn0⟩ := parse_complete h [] (by intro h'; exact h'.1 rfl) hz 1
    (.ok (e.toNode, [])) (parseExprLoop_exit 0 _ _ hz') (by simp)
  have h1 := hn0 (max n0 (parseFuel text.data)) (le_max_left _ _)
  rw [List.append_nil] at h1
  have h2 := (parse_mono_le (parseFuel text.data) (max n0 (parseFuel text.data))
    (le_max_right _ _) text.data).2.2.1 (parseExpr_parseFuel _)
  rw [h1] at h2
  unfold parseExpression
  simp only [ht, hs, ← h2]
  simp [skipWhitespace]

theorem byteString_ne_empty (c : Char) : byteString c ≠ "" := by
  intro h
  have := congrArg String.length h
  simp [byteString] at this

theorem toNode_size (e : Exp) : e.toNode.size = e.ops := by
  induction e with
  | lit d => simp [Exp.toNode, leafNode, Node.size, Exp.ops]
  | bin op l r ihl ihr =>
    simp [Exp.toNode, opNode, Node.size, Exp.ops, byteString_ne_empty, ihl, ihr]

/-! ### Exact results -/

theorem Float64.isNaN_of_finite {a : Float64} (h : a.isFinite = true) : a.isNaN = false := by
  cases a <;> simp_all [Float64.isFinite, Float64.isNaN]

theorem Float64.ofRat_fits (q : ℚ) (h : Float64.fits q = true) (s : Bool) :
    (Float64.ofRat s q).isFinite = true ∧ (Float64.ofRat s q).toRat = q := by
  by_cases hq : q = 0
  · subst hq
    cases s <;> simp [Float64.ofRat, Float64.isFinite, Float64.toRat]
  · have h1 : Float64.ofRat s q = Float64.ofRat false q := by
      simp only [Float64.ofRat, hq, if_false]
    have h2 : Float64.ofRat false q = Float64.num q := by
      simpa [Float64.fits] using h
    rw [h1, h2]
    exact ⟨rfl, rfl⟩

theorem Float64.neg_finite {b : Float64} (h : b.isFinite = true) :
    b.neg.isFinite = true ∧ b.neg.toRat = -b.toRat := by
  cases b with
  | num q =>
    by_cases hq : q = 0
    · simp [Float64.neg, hq, Float64.isFinite, Float64.toRat]
    · simp [Float64.neg, hq, Float64.isFinite, Float64.toRat]
  | negZero => simp [Float64.neg, Float64.isFinite, Float64.toRat]
  | inf n => simp [Float64.isFinite] at h
  | NaN => simp [Float64.isFinite] at h

theorem Float64.isZero_iff {b : Float64} (h : b.isFinite = true) :
    b.isZero = true ↔ b.toRat = 0 := by
  cases b with
  | num q => simp [Float64.isZero, Float64.toRat]
  | negZero => simp [Float64.isZero, Float64.toRat]
  | inf n => simp [Float64.isFinite] at h
  | NaN => simp [Float64.isFinite] at h

theorem Float64.eq_of_toRat {x : Float64} {v : ℚ} (h : x.isFinite = true) (hv : x.toRat = v) :
    x = Float64.num v ∨ (v = 0 ∧ x = Float64.negZero) := by
  cases x with
  | num q => left; simp only [Float64.toRat] at hv; rw [hv]
  | negZero => right; simp only [Float64.toRat] at hv; exact ⟨hv.symm, rfl⟩
  | inf n => simp [Float64.isFinite] at h
  | NaN => simp [Float64.isFinite] at h

/-- The operation of a node on two finite operands whose exact result is a
float64 number returns this number. -/
theorem compute_exact (op : Char) (a b : Float64) (va vb q : ℚ) (ha : a.isFinite = true)
    (hb : b.isFinite = true) (hva : a.toRat = va) (hvb : b.toRat = vb)
    (hq : (if op = '+' then some (va + vb)
       else if op = '-' then some (va - vb)
       else if op = '*' then some (va * vb)
       else if op = '/' then (if vb = 0 then none else some (va / vb))
       else none) = some q)
    (hfit : Float64.fits q = true) :
    ∃ x, computeOperation (byteString op) a b = .ok x ∧ x.isFinite = true ∧ x.toRat = q := by
  have na := Float64.isNaN_of_finite ha
  have nb := Float64.isNaN_of_finite hb
  by_cases h1 : op = '+'
  · subst h1
    have hbs : byteString '+' = "+" := by decide
    have h' : va + vb = q := by simpa using hq
    refine ⟨a.add b, by simp [hbs, computeOperation], ?_⟩
    have : a.add b = Float64.ofRat (a.sign && b.sign) q := by
      simp [Float64.add, ha, hb, hva, hvb, h']
    rw [this]; exact Float64.ofRat_fits q hfit _
  by_cases h2 : op = '-'
  · subst h2
    have hbs : byteString '-' = "-" := by decide
    have h' : va - vb = q := by simpa using hq
    obtain ⟨nf, nv⟩ := Float64.neg_finite hb
    refine ⟨a.sub b, by simp [hbs, computeOperation], ?_⟩
    have : a.sub b = Float64.ofRat (a.sign && b.neg.sign) q := by
      simp [Float64.sub, Float64.add, ha, nf, hva, nv, hvb, ← h', sub_eq_add_neg]
    rw [this]; exact Float64.ofRat_fits q hfit _
  by_cases h3 : op = '*'
  · subst h3
    have hbs : byteString '*' = "*" := by decide
    have h' : va * vb = q := by simpa using hq
    refine ⟨a.mul b, by simp [hbs, computeOperation], ?_⟩
    have : a.mul b = Float64.ofRat (a.sign != b.sign) q := by
      simp [Float64.mul, ha, hb, hva, hvb, h']
    rw [this]; exact Float64.ofRat_fits q hfit _
  by_cases h4 : op = '/'
  · subst h4
    have hbs : byteString '/' = "/" := by decide
    by_cases hz : vb = 0
    · simp [hz] at hq
    · have h' : va / vb = q := by simpa [hz] using hq
      have hnz : b.isZero = false := by
        rw [← Bool.not_eq_true, Float64.isZero_iff hb, hvb]; exact hz
      refine ⟨a.div b, by simp [hbs, computeOperation, hnz], ?_⟩
      have : a.div b = Float64.ofRat (a.sign != b.sign) q := by
        simp [Float64.div, ha, hb, na, nb, hnz, hva, hvb, h']
      rw [this]; exact Float64.ofRat_fits q hfit _
  · simp [h1, h2, h3, h4] at hq

/-- When every operation of an expression has an exact value that is a float64
number, the workers' evaluation of its tree gives the exact value. -/
theorem exact_eval (e : Exp) : ∀ v : ℚ, e.exact = true → e.value = some v →
    ∃ x, e.toNode.eval = some x ∧ x.isFinite = true ∧ x.toRat = v := by
  induction e with
  | lit d =>
    intro v _ h
    simp only [Exp.value, Option.some.injEq] at h
    exact ⟨digitValue d, by simp [Exp.toNode, leafNode, Node.eval, digitValue, Float64.isFinite],
      rfl, by simp [digitValue, Float64.toRat, h]⟩
  | bin op l r ihl ihr =>
    intro v hex h
    simp only [Exp.exact, Bool.and_eq_true, h] at hex
    obtain ⟨⟨hel, her⟩, hfit⟩ := hex
    simp only [Exp.value] at h
    cases hl : l.value with
    | none => rw [hl] at h; simp at h
    | some a =>
      cases hr : r.value with
      | none => rw [hl, hr] at h; simp at h
      | some b =>
        rw [hl, hr] at h
        simp only [] at h
        obtain ⟨xa, ea, fa, ta⟩ := ihl a hel hl
        obtain ⟨xb, eb, fb, tb⟩ := ihr b her hr
        obtain ⟨x, hc, hf, ht⟩ := compute_exact op xa xb a b v fa fb ta tb h hfit
        refine ⟨x, ?_, hf, ht⟩
        simp only [Exp.toNode, opNode, Node.eval, byteString_ne_empty, if_false, ea, eb, hc, hf,
          if_true]

/-! ### The plan of a tree -/

theorem tasks_result (node : Node) (e : Int) : ∀ (c : Int), ∀ t ∈ node.tasks e c,
    t.Result.isFinite = true := by
  induction node with
  | nil => intro c t ht; simp [Node.tasks] at ht
  | mk op v l r ihl ihr =>
    intro c t ht
    by_cases hop : op = ""
    · simp [Node.tasks, hop] at ht
    · simp only [Node.tasks, hop, if_false, List.mem_append, List.mem_singleton] at ht
      rcases ht with (ht | ht) | rfl
      · exact ihl c t ht
      · exact ihr _ t ht
      · rfl

theorem plan_tasks (node : Node) (e c : Int) :
    (node.plan e c).map (·.task) = node.tasks e c := by
  induction node generalizing c with
  | nil => rfl
  | mk op v l r ihl ihr =>
    by_cases hop : op = ""
    · simp [Node.plan, Node.tasks, hop]
    · simp [Node.plan, Node.tasks, hop, ihl, ihr]

theorem eval_children {op : String} {v : Float64} {l r : Node} {x : Float64} (hop : op ≠ "")
    (h : (Node.mk op v l r).eval = some x) :
    ∃ a b, l.eval = some a ∧ r.eval = some b ∧ computeOperation op a b = .ok x ∧
      x.isFinite = true := by
  simp only [Node.eval, hop, if_false] at h
  cases hl : l.eval with
  | none => rw [hl] at h; simp at h
  | some a =>
    cases hr : r.eval with
    | none => rw [hl, hr] at h; simp at h
    | some b =>
      rw [hl, hr] at h
      simp only [] at h
      cases hc : computeOperation op a b with
      | ok y =>
        rw [hc] at h
        by_cases hy : y.isFinite = true
        · simp only [hy, if_true, Option.some.injEq] at h
          exact ⟨a, b, rfl, rfl, by rw [hc, h], h ▸ hy⟩
        · simp [hy] at h
      | error m => rw [hc] at h; simp at h
      | panic m => rw [hc] at h; simp at h

theorem retVal_of_leaf (node : Node) (h : node.isTree = true) (hs : node.size = 0) (x : Float64)
    (hx : node.eval = some x) : node.retVal = x := by
  cases node with
  | nil => simp [Node.isTree] at h
  | mk op v l r =>
    by_cases hop : op = ""
    · simp only [Node.eval, hop, if_true] at hx
      by_cases hv : v.isFinite = true
      · simp only [hv, if_true, Option.some.injEq] at hx
        simp [Node.retVal, hop, hx]
      · simp [hv] at hx
    · simp [Node.size, hop] at hs

theorem eval_finite (node : Node) (x : Float64) (hx : node.eval = some x) :
    x.isFinite = true := by
  cases node with
  | nil => simp [Node.eval] at hx
  | mk op v l r =>
    by_cases hop : op = ""
    · simp only [Node.eval, hop, if_true] at hx
      by_cases hv : v.isFinite = true
      · simp only [hv, if_true, Option.some.injEq] at hx
        rw [← hx]; exact hv
      · simp [hv] at hx
    · exact (eval_children hop hx).choose_spec.choose_spec.2.2.2

/-- Each entry of the plan of a tree that evaluates: its operation on the
values of its operands gives its value; an operand without dependency is the
literal stored in the task, an operand with a dependency is the value of the
entry of that task; the last entry carries the value of the tree. -/
theorem plan_spec (node : Node) (h : node.isTree = true) (e c : Int) (hc : 0 ≤ c)
    (x : Float64) (hx : node.eval = some x) :
    (∀ p ∈ node.plan e c,
      computeOperation p.task.Operator p.a p.b = .ok p.val ∧
      (p.task.LeftDependency = 0 → p.task.Arg1 = p.a) ∧
      (p.task.LeftDependency ≠ 0 →
        ∃ q ∈ node.plan e c, q.task.ID = p.task.LeftDependency ∧ q.val = p.a) ∧
      (p.task.RightDependency = 0 → p.task.Arg2 = p.b) ∧
      (p.task.RightDependency ≠ 0 →
        ∃ q ∈ node.plan e c, q.task.ID = p.task.RightDependency ∧ q.val = p.b)) ∧
    (node.rootID c ≠ 0 → ∃ q ∈ node.plan e c, q.task.ID = node.rootID c ∧ q.val = x) := by
  induction node generalizing c x with
  | nil => simp [Node.isTree] at h
  | mk op v l r ihl ihr =>
    by_cases hop : op = ""
    · simp [Node.plan, Node.rootID, hop]
    · obtain ⟨hl, hr⟩ := isTree_children hop h
      obtain ⟨a, b, ha, hb, hcomp, -⟩ := eval_children hop hx
      obtain ⟨il, rl⟩ := ihl hl c hc a ha
      obtain ⟨ir, rr⟩ := ihr hr (c + (l.size : Nat)) (by omega) b hb
      have hsub1 : ∀ d, d ∈ l.plan e c → d ∈ (Node.mk op v l r).plan e c := by
        intro d hd
        simp only [Node.plan, hop, if_false, List.mem_append]
        exact Or.inl (Or.inl hd)
      have hsub2 : ∀ d, d ∈ r.plan e (c + (l.size : Nat)) →
          d ∈ (Node.mk op v l r).plan e c := by
        intro d hd
        simp only [Node.plan, hop, if_false, List.mem_append]
        exact Or.inl (Or.inr hd)
      have hlast : (⟨newTask (c + (l.size : Nat) + (r.size : Nat) + 1) e op l.retVal r.retVal
            (l.rootID c) (r.rootID (c + (l.size : Nat))), l.evalD, r.evalD,
            (Node.mk op v l r).evalD⟩ : PlanEntry) ∈ (Node.mk op v l r).plan e c := by
        simp only [Node.plan, hop, if_false]
        exact List.mem_append_right _ (List.mem_singleton_self _)
      have eva : l.evalD = a := by simp [Node.evalD, ha]
      have evb : r.evalD = b := by simp [Node.evalD, hb]
      have evx : (Node.mk op v l r).evalD = x := by simp [Node.evalD, hx]
      constructor
      · intro p hp
        simp only [Node.plan, hop, if_false, List.mem_append, List.mem_singleton] at hp
        rcases hp with (hp | hp) | rfl
        · obtain ⟨h1, h2, h3, h4, h5⟩ := il p hp
          refine ⟨h1, h2, ?_, h4, ?_⟩
          · intro hd; obtain ⟨q, hq, hq'⟩ := h3 hd; exact ⟨q, hsub1 q hq, hq'⟩
          · intro hd; obtain ⟨q, hq, hq'⟩ := h5 hd; exact ⟨q, hsub1 q hq, hq'⟩
        · obtain ⟨h1, h2, h3, h4, h5⟩ := ir p hp
          refine ⟨h1, h2, ?_, h4, ?_⟩
          · intro hd; obtain ⟨q, hq, hq'⟩ := h3 hd; exact ⟨q, hsub2 q hq, hq'⟩
          · intro hd; obtain ⟨q, hq, hq'⟩ := h5 hd; exact ⟨q, hsub2 q hq, hq'⟩
        · simp only [eva, evb, evx]
          refine ⟨by simpa [newTask] using hcomp, ?_, ?_, ?_, ?_⟩
          · intro hd
            simp only [newTask] at hd ⊢
            rcases rootID_cases l hl e c hc with ⟨-, h2, -⟩ | ⟨-, -, h3, -⟩
            · rw [if_neg (by simpa using hd)]
              exact retVal_of_leaf l hl h2 a ha
            · exact absurd hd h3
          · intro hd
            simp only [newTask] at hd ⊢
            obtain ⟨q, hq, hq1, hq2⟩ := rl hd
            exact ⟨q, hsub1 q hq, hq1, hq2⟩
          · intro hd
            simp only [newTask] at hd ⊢
            rcases rootID_cases r hr e (c + (l.size : Nat)) (by omega) with
              ⟨-, h2, -⟩ | ⟨-, -, h3, -⟩
            · rw [if_neg (by simpa using hd)]
              exact retVal_of_leaf r hr h2 b hb
            · exact absurd hd h3
          · intro hd
            simp only [newTask] at hd ⊢
            obtain ⟨q, hq, hq1, hq2⟩ := rr hd
            exact ⟨q, hsub2 q hq, hq1, hq2⟩
      · intro _
        refine ⟨_, hlast, ?_, evx⟩
        simp only [newTask, Node.rootID, hop, if_false]
        push_cast; ring

theorem plan_mem_tasks (node : Node) (e c : Int) (p : PlanEntry) (hp : p ∈ node.plan e c) :
    p.task ∈ node.tasks e c := by
  rw [← plan_tasks]; exact List.mem_map.2 ⟨p, hp, rfl⟩

theorem plan_ids (node : Node) (e c : Int) :
    (node.plan e c).map (fun p => p.task.ID) = (node.tasks e c).map (·.ID) := by
  rw [← plan_tasks, List.map_map]; rfl

/-- The values of the plan of a tree that evaluates are finite. -/
theorem plan_finite (node : Node) (e : Int) : ∀ (c : Int) (x : Float64), node.eval = some x →
    ∀ p ∈ node.plan e c,
      p.a.isFinite = true ∧ p.b.isFinite = true ∧ p.val.isFinite = true := by
  induction node with
  | nil => intro c x hx; simp [Node.eval] at hx
  | mk op v l r ihl ihr =>
    intro c x hx
    by_cases hop : op = ""
    · simp [Node.plan, hop]
    · obtain ⟨a, b, ha, hb, -, hfin⟩ := eval_children hop hx
      intro p hp
      simp only [Node.plan, hop, if_false, List.mem_append, List.mem_singleton] at hp
      rcases hp with (hp | hp) | rfl
      · exact ihl c a ha p hp
      · exact ihr _ b hb p hp
      · refine ⟨?_, ?_, ?_⟩
        · simp only [Node.evalD, ha, Option.getD_some]; exact eval_finite l a ha
        · simp only [Node.evalD, hb, Option.getD_some]; exact eval_finite r b hb
        · simp only [Node.evalD, hx, Option.getD_some]; exact hfin

theorem plan_ok (node : Node) (h : node.isTree = true) (e c : Int) (hc : 0 ≤ c)
    (x : Float64) (hx : node.eval = some x) : PlanOk (node.plan e c) := by
  have spec := tasks_spec node h e c hc
  obtain ⟨ps, -⟩ := plan_spec node h e c hc x hx
  have hfin := plan_finite node e c x hx
  refine { pos := ?_, unique := ?_, compute := ?_, finite := hfin, left := ?_, right := ?_ }
  · intro p hp
    have := (spec p.task (plan_mem_tasks node e c p hp)).2.2.1
    omega
  · have hnd : ((node.plan e c).map (fun p => p.task.ID)).Nodup := by
      rw [plan_ids]; exact tasks_nodup node e c
    intro p hp q hq hpq
    exact List.inj_on_of_nodup_map hnd hp hq hpq
  · intro p hp; exact (ps p hp).1
  · intro p hp hd
    exact ⟨((spec p.task (plan_mem_tasks node e c p hp)).2.2.2.2.1 hd).1, (ps p hp).2.2.1 hd⟩
  · intro p hp hd
    exact ⟨((spec p.task (plan_mem_tasks node e c p hp)).2.2.2.2.2.1 hd).1,
      (ps p hp).2.2.2.2 hd⟩

/-- Right after `AddExpression` the tasks of the new expression are as the
plan has them. -/
theorem PlanInv_add (raw : String) (node : Node) (s : Store) (log : List Int)
    (hI : Inv s log) (h : node.isTree = true) (x : Float64) (hx : node.eval = some x) :
    PlanInv (node.plan (s.exprCounter + 1) s.taskCounter) (s.exprCounter + 1)
      (node.rootID s.taskCounter) 0 (addResult raw node s) := by
  have hc := hI.counters.2
  have spec := tasks_spec node h (s.exprCounter + 1) s.taskCounter hc
  obtain ⟨ps, -⟩ := plan_spec node h (s.exprCounter + 1) s.taskCounter hc x hx
  constructor
  · refine ⟨⟨s.exprCounter + 1, raw,
        if node.rootID s.taskCounter = 0 then "completed" else "pending", Float64.NaN,
        (node.tasks (s.exprCounter + 1) s.taskCounter).map (·.ID), node.rootID s.taskCounter⟩,
      by simp only [addResult, Function.update_same], ?_, rfl⟩
    simp only [plan_ids]
  · intro p hp
    have hm := plan_mem_tasks node _ _ p hp
    obtain ⟨h1, h2, h3, h4, h5, h6, -, -⟩ := spec p.task hm
    refine ⟨p.task, add_tasks_new raw node s p.task hm, ?_⟩
    refine
      { op := rfl, expr := h1, status := Or.inl h2, left := ?_, right := ?_, queued := ?_,
        pending := fun _ => h2,
        result := tasks_result node _ _ p.task hm }
    · by_cases hd : p.task.LeftDependency = 0
      · exact Or.inl ⟨hd, (ps p hp).2.1 hd⟩
      · obtain ⟨-, d, hd1, hd2⟩ := h5 hd
        refine Or.inr ⟨hd, rfl, d, ?_, (spec d hd1).2.1⟩
        rw [← hd2]; exact add_tasks_new raw node s d hd1
    · by_cases hd : p.task.RightDependency = 0
      · exact Or.inl ⟨hd, (ps p hp).2.2.2.1 hd⟩
      · obtain ⟨-, d, hd1, hd2⟩ := h6 hd
        refine Or.inr ⟨hd, rfl, d, ?_, (spec d hd1).2.1⟩
        rw [← hd2]; exact add_tasks_new raw node s d hd1
    · intro _ _ hl hr
      simp only [addResult]
      apply List.mem_append_right
      refine List.mem_map.2 ⟨p.task, List.mem_filter.2 ⟨hm, ?_⟩, rfl⟩
      simp [Task.unblocked, hl, hr]

/-! ### The plan is kept by the worker rounds -/

theorem PlanInv_get (plan : List PlanEntry) (hP : PlanOk plan) (e root : Int) (s : Store)
    (k : Int) (rest : List Int) (hJ : PlanInv plan e root 0 s) (hr : s.readyTasks = k :: rest) :
    PlanInv plan e root k { s with readyTasks := rest } := by
  obtain ⟨hx, hp⟩ := hJ
  refine ⟨hx, ?_⟩
  intro p hpm
  obtain ⟨t, ht, ok⟩ := hp p hpm
  refine ⟨t, ht, ?_⟩
  refine
    { op := ok.op, expr := ok.expr, status := ok.status, left := ok.left, right := ok.right,
      queued := ?_, pending := ?_, result := ok.result }
  · intro hne h1 h2 h3
    have hm := ok.queued (ne_of_gt (hP.pos p hpm)) h1 h2 h3
    rw [hr] at hm
    rcases List.mem_cons.1 hm with h | h
    · exact absurd h hne
    · exact h
  · intro hm
    exact ok.pending (by rw [hr]; exact List.mem_cons_of_mem _ hm)

theorem PlanInv_fill (plan : List PlanEntry) (e root hole : Int) (s : Store)
    (hJ : PlanInv plan e root hole s)
    (h : ∀ p ∈ plan, p.task.ID = hole → ∀ t, s.tasks hole = some t → t.Status ≠ "pending") :
    PlanInv plan e root 0 s := by
  obtain ⟨hx, hp⟩ := hJ
  refine ⟨hx, ?_⟩
  intro p hpm
  obtain ⟨t, ht, ok⟩ := hp p hpm
  refine ⟨t, ht, ?_⟩
  refine
    { op := ok.op, expr := ok.expr, status := ok.status, left := ok.left, right := ok.right,
      queued := ?_, pending := ok.pending, result := ok.result }
  intro _ h1 h2 h3
  by_cases hh : p.task.ID = hole
  · rw [hh] at ht
    exact absurd h1 (h p hpm hh t ht)
  · exact ok.queued hh h1 h2 h3

theorem PlanInv_complete (plan : List PlanEntry) (hP : PlanOk plan) (e root hole : Int)
    (s : Store) (log : List Int) (hI : Inv s log) (hJ : PlanInv plan e root hole s)
    (k : Int) (t : Task) (x : Expression) (r : Float64) (ht : s.tasks k = some t)
    (hx : s.expressions t.ExpressionID = some x)
    (hown : ∀ p ∈ plan, p.task.ID = k → r = p.val ∧ k ∉ s.readyTasks) :
    PlanInv plan e root hole (completeResult k t x r s) := by
  obtain ⟨hid, hpos, -⟩ := hI.task_key k t ht
  have hI' := Inv_complete k r s log t x hI ht hx
  have hnew : ∀ j u0, s.tasks j = some u0 →
      (completeResult k t x r s).tasks j = some (stepTask k r x.TaskIDs j u0) := by
    intro j u0 h; rw [complete_tasks k t x r s ht hid, h]; rfl
  have hwait : ∀ j u0, s.tasks j = some u0 →
      (u0.LeftDependency = k ∨ u0.RightDependency = k) → j ∈ x.TaskIDs := by
    intro j u0 h hd
    have hsame : u0.ExpressionID = t.ExpressionID := by
      obtain ⟨dl, dr⟩ := hI.deps j u0 h
      rcases hd with hd | hd
      · obtain ⟨td, h1, -, h3, -⟩ := dl (by rw [hd]; omega)
        rw [hd, ht] at h1; injection h1 with h1; subst h1; exact h3.symm
      · obtain ⟨td, h1, -, h3, -⟩ := dr (by rw [hd]; omega)
        rw [hd, ht] at h1; injection h1 with h1; subst h1; exact h3.symm
    obtain ⟨x0, h1, h2⟩ := hI.task_expr j u0 h
    rw [hsame, hx] at h1; injection h1 with h1; subst h1; exact h2
  -- a slot is kept or resolved with the value the plan expects
  have hslot : ∀ (j : Int) (u0 : Task) (d0 : Int) (a : Float64) (d : Int) (arg : Float64),
      s.tasks j = some u0 → (d = u0.LeftDependency ∨ d = u0.RightDependency) →
      (d0 ≠ 0 → ∃ q ∈ plan, q.task.ID = d0 ∧ q.val = a) →
      SlotOk s d0 a d arg →
      SlotOk (completeResult k t x r s) d0 a
        (if j ∈ x.TaskIDs ∧ d = k then 0 else d) (if j ∈ x.TaskIDs ∧ d = k then r else arg) := by
    intro j u0 d0 a d arg hj hd hq hs
    rcases hs with ⟨h1, h2⟩ | ⟨h1, h2, td, h3, h4⟩
    · have : ¬ (j ∈ x.TaskIDs ∧ d = k) := by rintro ⟨-, h⟩; omega
      rw [if_neg this, if_neg this]; exact Or.inl ⟨h1, h2⟩
    · by_cases hdk : d = k
      · have hm : j ∈ x.TaskIDs := hwait j u0 hj (by
          rcases hd with hd | hd
          · left; rw [← hd, hdk]
          · right; rw [← hd, hdk])
        rw [if_pos ⟨hm, hdk⟩, if_pos ⟨hm, hdk⟩]
        obtain ⟨q, hq1, hq2, hq3⟩ := hq h1
        exact Or.inl ⟨rfl, by rw [(hown q hq1 (by rw [hq2, ← h2, hdk])).1, hq3]⟩
      · have : ¬ (j ∈ x.TaskIDs ∧ d = k) := fun h => hdk h.2
        rw [if_neg this, if_neg this]
        refine Or.inr ⟨h1, h2, _, hnew d0 td h3, ?_⟩
        rw [(stepTask_spec k r x.TaskIDs d0 td).2.2.2.1, if_neg (by rw [← h2]; exact hdk)]
        exact h4
  obtain ⟨⟨xe, hxe, hxt, hxr⟩, hp⟩ := hJ
  constructor
  · rw [complete_expressions]
    by_cases hc : t.ID = x.RootTaskID ∧ e = t.ExpressionID
    · rw [if_pos hc]
      have : xe = x := by rw [hc.2, hx] at hxe; injection hxe with h; exact h.symm
      subst this
      exact ⟨_, rfl, hxt, hxr⟩
    · rw [if_neg hc]; exact ⟨xe, hxe, hxt, hxr⟩
  · intro p hpm
    obtain ⟨u0, hu0, ok⟩ := hp p hpm
    obtain ⟨-, s2, s3, s4, s5, s6, s7, s8, s9⟩ := stepTask_spec k r x.TaskIDs p.task.ID u0
    refine ⟨_, hnew _ u0 hu0, ?_⟩
    refine
      { op := by rw [s3]; exact ok.op, expr := by rw [s2]; exact ok.expr, status := ?_,
        left := ?_, right := ?_, queued := ?_, pending := ?_, result := ?_ }
    rotate_left 5
    · rw [s5]
      by_cases hk : p.task.ID = k
      · rw [if_pos hk, (hown p hpm hk).1]; exact (hP.finite p hpm).2.2
      · rw [if_neg hk]; exact ok.result
    · rw [s4, s5]
      by_cases hk : p.task.ID = k
      · rw [if_pos hk, if_pos hk]
        exact Or.inr ⟨rfl, (hown p hpm hk).1⟩
      · rw [if_neg hk, if_neg hk]; exact ok.status
    · rw [s6, s7]
      exact hslot _ u0 _ _ _ _ hu0 (Or.inl rfl)
        (fun hd => (hP.left p hpm hd).2) ok.left
    · rw [s8, s9]
      exact hslot _ u0 _ _ _ _ hu0 (Or.inr rfl)
        (fun hd => (hP.right p hpm hd).2) ok.right
    · intro hne h1 h2 h3
      rw [s4] at h1
      have hk : p.task.ID ≠ k := by
        intro hk; rw [if_pos hk] at h1; exact absurd h1 (by decide)
      rw [if_neg hk] at h1
      rw [complete_ready]
      by_cases hb : u0.LeftDependency = 0 ∧ u0.RightDependency = 0
      · exact List.mem_append_left _ (ok.queued hne h1 hb.1 hb.2)
      · have hu : (stepTask k r x.TaskIDs p.task.ID u0).Status = "pending" := by
          rw [s4, if_neg hk]; exact h1
        have hm := hI'.pending_logged _ _ (hnew _ u0 hu0) h2 h3 hu
        rcases List.mem_append.1 hm with hm | hm
        · obtain ⟨u1, g1, g2, g3⟩ := hI.log_unblocked _ hm
          rw [hu0] at g1; injection g1 with g1; subst g1
          exact absurd ⟨g2, g3⟩ hb
        · exact List.mem_append_right _ hm
    · intro hm
      rw [complete_ready] at hm
      rw [s4]
      rcases List.mem_append.1 hm with hm | hm
      · have hk : p.task.ID ≠ k := by
          intro hk; rw [hk] at hm; exact (hown p hpm hk).2 hm
        rw [if_neg hk]; exact ok.pending hm
      · rw [hid] at hm
        obtain ⟨hk, u, g1, -, -, -, g5⟩ :=
          (newlyReady_iff k t r s _ ht).1 (List.mem_filter.1 hm).2
        rw [hu0] at g1; injection g1 with g1; subst g1
        rw [if_neg hk]; exact g5

theorem workerStep_eq (s : Store) (k : Int) (rest : List Int) (hr : s.readyTasks = k :: rest) :
    workerStep s =
      match s.tasks k with
      | none => { s with readyTasks := rest }
      | some t =>
        if t.Arg1.isFinite && t.Arg2.isFinite && t.Result.isFinite then
          match computeOperation t.Operator t.Arg1 t.Arg2 with
          | .ok r =>
            if r.isFinite then (CompleteTask t.ID r { s with readyTasks := rest }).2
            else { s with readyTasks := rest }
          | _ => { s with readyTasks := rest }
        else { s with readyTasks := rest } := by
  unfold workerStep GetReadyTask
  rw [hr]

theorem workerStep_empty (s : Store) (hr : s.readyTasks = []) : workerStep s = s := by
  unfold workerStep GetReadyTask
  rw [hr]

/-- One worker round on a non-empty ready queue keeps the store well-formed and
the plan on course, and dequeues one id more than it appends. -/
theorem worker_round (plan : List PlanEntry) (hP : PlanOk plan) (e root : Int) (s : Store)
    (log : List Int) (hI : Inv s log) (hJ : PlanInv plan e root 0 s) (k : Int)
    (rest : List Int) (hr : s.readyTasks = k :: rest) :
    ∃ log', Inv (workerStep s) log' ∧ PlanInv plan e root 0 (workerStep s) ∧
      (workerStep s).taskCounter = s.taskCounter ∧
      log'.length + s.readyTasks.length = log.length + (workerStep s).readyTasks.length + 1 := by
  have hIg : Inv { s with readyTasks := rest } log := by
    have := Inv_get s log hI
    unfold GetReadyTask at this
    rw [hr] at this
    exact this
  have hJg := PlanInv_get plan hP e root s k rest hJ hr
  obtain ⟨pre, hpre⟩ := hI.ready_log
  have hklog : k ∈ log := by rw [hpre, hr]; simp
  have hkrest : k ∉ rest := by
    have := hI.log_nodup
    rw [hpre, hr] at this
    exact (List.nodup_cons.1 (List.nodup_append.1 this).2.1).1
  obtain ⟨t, ht, hl, hrr⟩ := hI.log_unblocked k hklog
  have hid := (hI.task_key k t ht).1
  have hown : ∀ p ∈ plan, p.task.ID = k →
      computeOperation t.Operator t.Arg1 t.Arg2 = .ok p.val ∧ t.Status = "pending" ∧
      (t.Arg1.isFinite && t.Arg2.isFinite && t.Result.isFinite) = true ∧
      p.val.isFinite = true := by
    intro p hp hk
    obtain ⟨t', ht', ok⟩ := hJ.2 p hp
    rw [hk, ht] at ht'; injection ht' with ht'; subst ht'
    have h1 : t.Arg1 = p.a := by
      rcases ok.left with ⟨-, h⟩ | ⟨h0, h, -⟩
      · exact h
      · exact absurd (h.symm.trans hl) h0
    have h2 : t.Arg2 = p.b := by
      rcases ok.right with ⟨-, h⟩ | ⟨h0, h, -⟩
      · exact h
      · exact absurd (h.symm.trans hrr) h0
    obtain ⟨f1, f2, f3⟩ := hP.finite p hp
    refine ⟨by rw [ok.op, h1, h2]; exact hP.compute p hp, ok.pending ?_, ?_, f3⟩
    · rw [hk, hr]; exact List.mem_cons_self _ _
    · rw [h1, h2, f1, f2, ok.result]; rfl
  have hlen : log.length + s.readyTasks.length = log.length + rest.length + 1 := by
    rw [hr]; simp; omega
  have hdrop : (∀ p ∈ plan, p.task.ID ≠ k) →
      ∃ log', Inv { s with readyTasks := rest } log' ∧
        PlanInv plan e root 0 { s with readyTasks := rest } ∧
        ({ s with readyTasks := rest } : Store).taskCounter = s.taskCounter ∧
        log'.length + s.readyTasks.length
          = log.length + ({ s with readyTasks := rest } : Store).readyTasks.length + 1 := by
    intro hno
    refine ⟨log, hIg, PlanInv_fill plan e root k _ hJg ?_, rfl, hlen⟩
    intro p hp hk
    exact absurd hk (hno p hp)
  rw [workerStep_eq s k rest hr]
  simp only [ht]
  by_cases hfin : (t.Arg1.isFinite && t.Arg2.isFinite && t.Result.isFinite) = true
  swap
  · rw [if_neg hfin]
    exact hdrop (fun p hp hk => hfin (hown p hp hk).2.2.1)
  rw [if_pos hfin]
  cases hc : computeOperation t.Operator t.Arg1 t.Arg2 with
  | ok r =>
    simp only []
    by_cases hrf : r.isFinite = true
    swap
    · rw [if_neg hrf]
      refine hdrop (fun p hp hk => hrf ?_)
      have := (hown p hp hk).1
      rw [hc] at this; injection this with this
      rw [this]; exact (hown p hp hk).2.2.2
    rw [if_pos hrf, hid]
    rcases CompleteTask_cases k r { s with readyTasks := rest } log hIg with
      ⟨h0, -⟩ | ⟨t', h0, h1, h'⟩ | ⟨t', x, h0, h1, h2, h'⟩
    · exact absurd (h0.symm.trans ht) (by simp)
    · rw [h']
      refine ⟨log, hIg, PlanInv_fill plan e root k _ hJg ?_, rfl, hlen⟩
      intro p hp hk u hu
      have : u = t' := by rw [h0] at hu; injection hu with hu; exact hu.symm
      rw [this, h1]; decide
    · have e0 : t' = t := by
        have : some t' = some t := h0.symm.trans ht
        injection this
      subst e0
      rw [h']
      refine ⟨_, Inv_complete k r _ log t' x hIg h0 h2, ?_, (complete_counters k t' x r _).1, ?_⟩
      · apply PlanInv_fill plan e root k
        · apply PlanInv_complete plan hP e root k _ log hIg hJg k t' x r h0 h2
          intro p hp hk
          have := (hown p hp hk).1
          rw [hc] at this
          injection this with this
          exact ⟨this, hkrest⟩
        · intro p hp hk u hu
          have hk' : (completeResult k t' x r { s with readyTasks := rest }).tasks k
              = some (stepTask k r x.TaskIDs k t') := by
            rw [complete_tasks k t' x r _ h0 hid, h0]; rfl
          rw [hk'] at hu; injection hu with hu
          rw [← hu, (stepTask_spec k r x.TaskIDs k t').2.2.2.1, if_pos rfl]; decide
      · rw [complete_ready, hr]
        simp only [List.length_append, List.length_cons]
        omega
  | error m =>
    refine ⟨log, hIg, PlanInv_fill plan e root k _ hJg ?_, rfl, hlen⟩
    intro p hp hk u _
    have := (hown p hp hk).1
    rw [hc] at this; exact absurd this (by simp)
  | panic m =>
    refine ⟨log, hIg, PlanInv_fill plan e root k _ hJg ?_, rfl, hlen⟩
    intro p hp hk u _
    have := (hown p hp hk).1
    rw [hc] at this; exact absurd this (by simp)

theorem log_bound (s : Store) (log : List Int) (hI : Inv s log) :
    log.length ≤ s.taskCounter.toNat := by
  have hsub : log.toFinset ⊆ Finset.Icc 1 s.taskCounter := by
    intro k hk
    rw [List.mem_toFinset] at hk
    obtain ⟨t, ht, -⟩ := hI.log_unblocked k hk
    have := hI.task_key k t ht
    rw [Finset.mem_Icc]; omega
  have h1 := Finset.card_le_card hsub
  rw [List.toFinset_card_of_nodup hI.log_nodup, Int.card_Icc] at h1
  simpa using h1

/-- When the ready queue is empty, every task of the plan is completed with the
value the plan gives it. -/
theorem plan_completed (plan : List PlanEntry) (hP : PlanOk plan) (e root : Int) (s : Store)
    (hJ : PlanInv plan e root 0 s) (hr : s.readyTasks = []) :
    ∀ p ∈ plan, ∃ t, s.tasks p.task.ID = some t ∧ t.Status = "completed" ∧ t.Result = p.val := by
  have key : ∀ n : Nat, ∀ p ∈ plan, p.task.ID.toNat < n →
      ∃ t, s.tasks p.task.ID = some t ∧ t.Status = "completed" ∧ t.Result = p.val := by
    intro n
    induction n with
    | zero => intro p _ h; exact absurd h (by omega)
    | succ n ih =>
      intro p hp hlt
      obtain ⟨t, ht, ok⟩ := hJ.2 p hp
      rcases ok.status with hs | ⟨hs, hres⟩
      · exfalso
        have hpos := hP.pos p hp
        have hl : t.LeftDependency = 0 := by
          rcases ok.left with ⟨h, -⟩ | ⟨h0, -, td, h1, h2⟩
          · exact h
          · obtain ⟨hlt', q, hq, hq1, -⟩ := hP.left p hp h0
            have hqpos := hP.pos q hq
            obtain ⟨tq, g1, g2, -⟩ := ih q hq (by omega)
            rw [hq1, h1] at g1; injection g1 with g1; subst g1
            rw [h2] at g2; exact absurd g2 (by decide)
        have hr' : t.RightDependency = 0 := by
          rcases ok.right with ⟨h, -⟩ | ⟨h0, -, td, h1, h2⟩
          · exact h
          · obtain ⟨hlt', q, hq, hq1, -⟩ := hP.right p hp h0
            have hqpos := hP.pos q hq
            obtain ⟨tq, g1, g2, -⟩ := ih q hq (by omega)
            rw [hq1, h1] at g1; injection g1 with g1; subst g1
            rw [h2] at g2; exact absurd g2 (by decide)
        have := ok.queued (ne_of_gt hpos) hs hl hr'
        rw [hr] at this; exact absurd this (by simp)
      · exact ⟨t, ht, hs, hres⟩
  intro p hp
  exact key (p.task.ID.toNat + 1) p hp (by omega)

/-- Worker rounds empty the ready queue within a number of rounds bounded by
the task counter, and keep the plan on course. -/
theorem drain_spec (plan : List PlanEntry) (hP : PlanOk plan) (e root : Int) (n : Nat) :
    ∀ (s : Store) (log : List Int), Inv s log → PlanInv plan e root 0 s →
      s.taskCounter.toNat + s.readyTasks.length ≤ n + log.length →
      ∀ m, n ≤ m → (drain m s).readyTasks = [] ∧
        ∃ log', Inv (drain m s) log' ∧ PlanInv plan e root 0 (drain m s) := by
  induction n with
  | zero =>
    intro s log hI hJ hb m _
    have hlb := log_bound s log hI
    have hr : s.readyTasks = [] := List.eq_nil_of_length_eq_zero (by omega)
    have hd : drain m s = s := by
      cases m with
      | zero => rfl
      | succ m => simp [drain, hr]
    rw [hd]; exact ⟨hr, log, hI, hJ⟩
  | succ n ih =>
    intro s log hI hJ hb m hm
    cases hr : s.readyTasks with
    | nil =>
      have hd : drain m s = s := by
        cases m with
        | zero => rfl
        | succ m => simp [drain, hr]
      rw [hd]; exact ⟨hr, log, hI, hJ⟩
    | cons k rest =>
      obtain ⟨m', rfl⟩ : ∃ m', m = m' + 1 := ⟨m - 1, by omega⟩
      obtain ⟨log', hI', hJ', htc, hlen⟩ := worker_round plan hP e root s log hI hJ k rest hr
      have hd : drain (m' + 1) s = drain m' (workerStep s) := by
        simp [drain, hr]
      rw [hd]
      exact ih (workerStep s) log' hI' hJ' (by rw [htc]; omega) m' (by omega)

/-! ### Claim on the evaluation of an expression -/

/-- Worker rounds evaluate an expression: for a sentence of the grammar with at
least one operator whose tree the workers evaluate to `x`, `AddExpression`
accepts the text in every reachable store, and worker rounds repeated until
the ready queue is empty do empty it and leave the expression "completed" with
Result `x`. -/
theorem evaluated_core (text : String) (e : Exp) (x : Float64) (s : Store) (hs : Reachable s)
    (hsen : Sentence .expr text.data e) (hops : 0 < e.ops) (heval : e.toNode.eval = some x) :
    (AddExpression text s).1 = .ok (s.exprCounter + 1) ∧
    ∃ n, ∀ m, n ≤ m →
      (drain m (AddExpression text s).2).readyTasks = [] ∧
      ∃ xp, (drain m (AddExpression text s).2).expressions (s.exprCounter + 1) = some xp ∧
        xp.Status = "completed" ∧ xp.Result = x := by
  obtain ⟨log, hI⟩ := Reachable_Inv s hs
  have hparse := parseExpression_sentence text e hsen
  rcases AddExpression_cases text s with ⟨node, h1, h2, h3⟩ | ⟨er, h1, -⟩
  swap
  · rw [hparse] at h1; exact absurd h1 (by simp)
  have hnode : node = e.toNode := by
    rw [hparse] at h1; injection h1 with h1; exact h1.symm
  subst hnode
  rw [h3]
  refine ⟨rfl, ?_⟩
  have hc := hI.counters.2
  have hP := plan_ok e.toNode h2 (s.exprCounter + 1) s.taskCounter hc _ heval
  have hI1 := Inv_add text e.toNode s log hI h2
  have hJ1 := PlanInv_add text e.toNode s log hI h2 _ heval
  have hroot : e.toNode.rootID s.taskCounter ≠ 0 := by
    rcases rootID_cases e.toNode h2 (s.exprCounter + 1) s.taskCounter hc with
      ⟨-, h0, -⟩ | ⟨-, -, h0, -⟩
    · rw [toNode_size] at h0; omega
    · exact h0
  obtain ⟨q, hq, hq1, hq2⟩ :=
    (plan_spec e.toNode h2 (s.exprCounter + 1) s.taskCounter hc _ heval).2 hroot
  refine ⟨(addResult text e.toNode s).taskCounter.toNat
    + (addResult text e.toNode s).readyTasks.length, fun m hm => ?_⟩
  obtain ⟨hempty, log', hI', hJ'⟩ := drain_spec _ hP _ _ _ _ _ hI1 hJ1 (by omega) m hm
  refine ⟨hempty, ?_⟩
  obtain ⟨tq, g1, g2, g3⟩ := plan_completed _ hP _ _ _ hJ' hempty q hq
  obtain ⟨⟨xp, hx1, -, hx3⟩, -⟩ := hJ'
  obtain ⟨tr, r1, -, r3, r4⟩ := hI'.root _ xp hx1 (by rw [hx3]; exact hroot)
  rw [hx3, ← hq1, g1] at r1
  injection r1 with r1
  subst r1
  have hxs : xp.Status = "completed" := r3.2 g2
  exact ⟨xp, hx1, hxs, by rw [r4 hxs, g3, hq2]⟩

theorem drain_stable (m : Nat) (s : Store) (h : s.readyTasks = []) : drain m s = s := by
  cases m with
  | zero => rfl
  | succ m => simp [drain, h]

theorem drain_add (n m : Nat) : ∀ s : Store, drain (n + m) s = drain m (drain n s) := by
  induction n with
  | zero => intro s; simp [drain]
  | succ n ih =>
    intro s
    by_cases h : s.readyTasks = []
    · rw [drain_stable _ s h, drain_stable _ s h, drain_stable _ s h]
    · have e1 : drain (n + 1 + m) s = drain (n + m) (workerStep s) := by
        rw [Nat.add_right_comm]; simp [drain, h]
      have e2 : drain (n + 1) s = drain n (workerStep s) := by simp [drain, h]
      rw [e1, e2, ih]

theorem eights_sentence (n : Nat) : Sentence .term (eightsText n) (eights n) := by
  induction n with
  | zero => exact Sentence.factor (Sentence.digit '8' (by decide))
  | succ n ih => exact Sentence.mul '*' (Or.inl rfl) ih (Sentence.digit '8' (by decide))

/-- C1 (as stated, fails): float64 arithmetic rounds.  The text "1/3" is
completed with a Result that is not the exact value 1/3.  The text
"1/(P+1-P)", with P the product of eighteen factors 8, has the exact value 1,
but in float64 `P + 1` is `P`, the divisor is 0, the worker drops the division
and the expression stays pending with an empty ready queue. -/
theorem float_evaluation_differs_from_exact :
    Sentence .expr "1/3".data (.bin '/' (.lit '1') (.lit '3')) ∧
    (Exp.bin '/' (.lit '1') (.lit '3')).value = some (1 / 3) ∧
    ((drain 3 (AddExpression "1/3" Store.init).2).expressions 1).map
        (fun x => (x.Status, x.Result))
      = some ("completed", Float64.num (6004799503160661 / 18014398509481984)) ∧
    Float64.num (6004799503160661 / 18014398509481984) ≠ Float64.num (1 / 3) ∧
    Sentence .expr
      "1/(8*8*8*8*8*8*8*8*8*8*8*8*8*8*8*8*8*8+1-8*8*8*8*8*8*8*8*8*8*8*8*8*8*8*8*8*8)".data
      cancelExp ∧
    cancelExp.value = some 1 ∧
    (∀ m, 60 ≤ m →
      (drain m (AddExpression
        "1/(8*8*8*8*8*8*8*8*8*8*8*8*8*8*8*8*8*8+1-8*8*8*8*8*8*8*8*8*8*8*8*8*8*8*8*8*8)"
        Store.init).2).readyTasks = [] ∧
      ((drain m (AddExpression
        "1/(8*8*8*8*8*8*8*8*8*8*8*8*8*8*8*8*8*8+1-8*8*8*8*8*8*8*8*8*8*8*8*8*8*8*8*8*8)"
        Store.init).2).expressions 1).map (fun x => x.Status) = some "pending") := by
  refine ⟨?_, by decide!, by decide!, by decide!, ?_, by decide!, ?_⟩
  · exact Sentence.term (Sentence.mul '/' (Or.inr rfl)
      (Sentence.factor (Sentence.digit '1' (by decide))) (Sentence.digit '3' (by decide)))
  · have ht : "1/(8*8*8*8*8*8*8*8*8*8*8*8*8*8*8*8*8*8+1-8*8*8*8*8*8*8*8*8*8*8*8*8*8*8*8*8*8)".data
        = ['1'] ++ '/' :: ('(' :: ((eightsText 17 ++ '+' :: ['1']) ++ '-' :: eightsText 17)
          ++ [')']) := by decide
    rw [ht]
    exact Sentence.term (Sentence.mul '/' (Or.inr rfl)
      (Sentence.factor (Sentence.digit '1' (by decide)))
      (Sentence.paren (Sentence.add '-' (Or.inr rfl)
        (Sentence.add '+' (Or.inl rfl) (Sentence.term (eights_sentence 17))
          (Sentence.factor (Sentence.digit '1' (by decide))))
        (eights_sentence 17))))
  · intro m hm
    obtain ⟨j, rfl⟩ : ∃ j, m = 60 + j := ⟨m - 60, by omega⟩
    have h60 : (drain 60 (AddExpression
        "1/(8*8*8*8*8*8*8*8*8*8*8*8*8*8*8*8*8*8+1-8*8*8*8*8*8*8*8*8*8*8*8*8*8*8*8*8*8)"
        Store.init).2).readyTasks = [] ∧
      ((drain 60 (AddExpression
        "1/(8*8*8*8*8*8*8*8*8*8*8*8*8*8*8*8*8*8+1-8*8*8*8*8*8*8*8*8*8*8*8*8*8*8*8*8*8)"
        Store.init).2).expressions 1).map (fun x => x.Status) = some "pending" := by
      decide!
    rw [drain_add, drain_stable _ _ h60.1]
    exact h60

/-- C1 (amended): for every sentence of the grammar of expressions with at
least one operator whose evaluation in float64 arithmetic (each operator
applied by `computeOperation` to the float64 values of its operands) divides by
no zero and yields only finite values, with value `x`, in every reachable
store: `AddExpression` accepts the text, and worker rounds (take the head task
with `GetReadyTask`, compute it with `computeOperation`, report the value with
`CompleteTask`, task and value passed as JSON) repeated until the ready queue
is empty do empty it and leave the expression "completed" with Result `x`.
When every operation of the expression has an exact value that is a float64
number, this Result equals the exact value `v` of the expression (it is `v`,
or the negative zero when `v` is 0). -/
theorem expression_evaluated (text : String) (e : Exp) (x : Float64) (s : Store)
    (hs : Reachable s) (hsen : Sentence .expr text.data e) (hops : 0 < e.ops)
    (heval : e.toNode.eval = some x) :
    (AddExpression text s).1 = .ok (s.exprCounter + 1) ∧
    (∃ n, ∀ m, n ≤ m →
      (drain m (AddExpression text s).2).readyTasks = [] ∧
      ∃ xp, (drain m (AddExpression text s).2).expressions (s.exprCounter + 1) = some xp ∧
        xp.Status = "completed" ∧ xp.Result = x) ∧
    (∀ v : ℚ, e.exact = true → e.value = some v →
      x = Float64.num v ∨ (v = 0 ∧ x = Float64.negZero)) ∧
    (∀ (e' : Exp) (v : ℚ), e'.exact = true → e'.value = some v →
      ∃ x', e'.toNode.eval = some x' ∧ (x' = Float64.num v ∨ (v = 0 ∧ x' = Float64.negZero))) := by
  obtain ⟨h1, h2⟩ := evaluated_core text e x s hs hsen hops heval
  refine ⟨h1, h2, ?_, ?_⟩
  · intro v hex hv
    obtain ⟨x', g1, g2, g3⟩ := exact_eval e v hex hv
    rw [heval] at g1; injection g1 with g1; subst g1
    exact Float64.eq_of_toRat g2 g3
  · intro e' v hex hv
    obtain ⟨x', g1, g2, g3⟩ := exact_eval e' v hex hv
    exact ⟨x', g1, Float64.eq_of_toRat g2 g3⟩

/-- Witness for C1: "3+2*5-1" gives 12 and "(7-2)*(8/4)" gives 10, submitted to
the initial store. -/
theorem expression_evaluated_witness :
    (∃ n, ∀ m, n ≤ m →
      (drain m (AddExpression "3+2*5-1" Store.init).2).readyTasks = [] ∧
      ∃ xp, (drain m (AddExpression "3+2*5-1" Store.init).2).expressions
          (Store.init.exprCounter + 1) = some xp ∧
        xp.Status = "completed" ∧ xp.Result = Float64.num 12) ∧
    (∃ n, ∀ m, n ≤ m →
      (drain m (AddExpression "(7-2)*(8/4)" Store.init).2).readyTasks = [] ∧
      ∃ xp, (drain m (AddExpression "(7-2)*(8/4)" Store.init).2).expressions
          (Store.init.exprCounter + 1) = some xp ∧
        xp.Status = "completed" ∧ xp.Result = Float64.num 10) :=
  ⟨(expression_evaluated "3+2*5-1"
      (.bin '-' (.bin '+' (.lit '3') (.bin '*' (.lit '2') (.lit '5'))) (.lit '1'))
      (Float64.num 12) Store.init ⟨[], rfl⟩
      (Sentence.add '-' (Or.inr rfl)
        (Sentence.add '+' (Or.inl rfl)
          (Sentence.term (Sentence.factor (Sentence.digit '3' (by decide))))
          (Sentence.mul '*' (Or.inl rfl) (Sentence.factor (Sentence.digit '2' (by decide)))
            (Sentence.digit '5' (by decide))))
        (Sentence.factor (Sentence.digit '1' (by decide))))
      (by decide) (by decide!)).2.1,
    (expression_evaluated "(7-2)*(8/4)"
      (.bin '*' (.bin '-' (.lit '7') (.lit '2')) (.bin '/' (.lit '8') (.lit '4')))
      (Float64.num 10) Store.init ⟨[], rfl⟩
      (Sentence.term
        (Sentence.mul '*' (Or.inl rfl)
          (Sentence.factor (Sentence.paren
            (Sentence.add '-' (Or.inr rfl)
              (Sentence.term (Sentence.factor (Sentence.digit '7' (by decide))))
              (Sentence.factor (Sentence.digit '2' (by decide))))))
          (Sentence.paren
            (Sentence.term (Sentence.mul '/' (Or.inr rfl)
              (Sentence.factor (Sentence.digit '8' (by decide)))
              (Sentence.digit '4' (by decide)))))))
      (by decide) (by decide!)).2.1⟩

/-! ### Parser: inserted whitespace -/

theorem padded_refl (p : List Char) : Padded p p := by
  induction p with
  | nil => exact Padded.nil
  | cons c p ih => exact Padded.keep c ih

theorem padded_append {a b c d : List Char} (h1 : Padded a b) (h2 : Padded c d) :
    Padded (a ++ c) (b ++ d) := by
  induction h1 with
  | nil => simpa using h2
  | keep x _ ih => exact Padded.keep x ih
  | pad x hx _ ih => exact Padded.pad x hx ih

theorem padded_length {p q : List Char} (h : Padded p q) : p.length ≤ q.length := by
  induction h with
  | nil => simp
  | keep x _ ih => simp; omega
  | pad x hx _ ih => simp; omega

theorem padded_skip {p q : List Char} (h : Padded p q) :
    Padded (skipWhitespace p) (skipWhitespace q) := by
  induction h with
  | nil => exact Padded.nil
  | @keep c a b h ih =>
    by_cases hc : c = ' ' ∨ c = '\t'
    · simpa [skipWhitespace, hc] using ih
    · simpa [skipWhitespace, hc] using Padded.keep c h
  | @pad c a b hc h ih => simpa [skipWhitespace, hc] using ih

theorem skipWhitespace_head {q r : List Char} {c : Char} (h : skipWhitespace q = c :: r) :
    ¬ (c = ' ' ∨ c = '\t') := by
  induction q with
  | nil => simp [skipWhitespace] at h
  | cons x q ih =>
    by_cases hx : x = ' ' ∨ x = '\t'
    · simp only [skipWhitespace, hx, if_true] at h; exact ih h
    · simp only [skipWhitespace, hx, if_false] at h
      injection h with h1 h2; subst h1; exact hx

theorem padded_skip_nil {p q : List Char} (h : Padded p q) (hp : skipWhitespace p = []) :
    skipWhitespace q = [] := by
  have h1 := padded_skip h
  rw [hp] at h1
  cases hq : skipWhitespace q with
  | nil => rfl
  | cons c r =>
    rw [hq] at h1
    cases h1 with
    | pad _ hc _ => exact absurd hc (skipWhitespace_head hq)

theorem padded_skip_cons {p q r : List Char} {c : Char} (h : Padded p q)
    (hp : skipWhitespace p = c :: r) : ∃ r', skipWhitespace q = c :: r' ∧ Padded r r' := by
  have h1 := padded_skip h
  rw [hp] at h1
  cases hq : skipWhitespace q with
  | nil => rw [hq] at h1; cases h1
  | cons x r' =>
    rw [hq] at h1
    cases h1 with
    | keep _ h2 => exact ⟨r', rfl, h2⟩
    | pad _ hc _ => exact absurd hc (skipWhitespace_head hq)

theorem padded_peek {p q : List Char} (h : Padded p q) :
    peek (skipWhitespace q) = peek (skipWhitespace p) := by
  cases hp : skipWhitespace p with
  | nil => rw [padded_skip_nil h hp]
  | cons c r =>
    obtain ⟨r', h1, -⟩ := padded_skip_cons h hp
    rw [h1]; rfl

theorem padded_next {p q : List Char} (h : Padded p q) :
    (next (skipWhitespace q)).1 = (next (skipWhitespace p)).1 ∧
    Padded (next (skipWhitespace p)).2 (next (skipWhitespace q)).2 := by
  cases hp : skipWhitespace p with
  | nil => rw [padded_skip_nil h hp]; exact ⟨rfl, Padded.nil⟩
  | cons c r =>
    obtain ⟨r', h1, h2⟩ := padded_skip_cons h hp
    rw [h1]; exact ⟨rfl, h2⟩

theorem padded_digit_next {r r' : List Char} (h : Padded r r')
    (hd : r' ≠ [] ∧ isDigit (peek r') = true) : r ≠ [] ∧ isDigit (peek r) = true := by
  cases h with
  | nil => exact absurd rfl hd.1
  | keep c _ => exact ⟨by simp, hd.2⟩
  | pad c hc _ =>
    rcases hc with rfl | rfl
    · exact absurd hd.2 (by show ¬ isDigit ' ' = true; decide)
    · exact absurd hd.2 (by show ¬ isDigit '\t' = true; decide)

/-- Spaces and tabs inserted into the unread text change neither the success of
a parsing step nor the tree it returns, and the texts left unread differ by
inserted spaces and tabs only. -/
theorem padded_parse (n : Nat) : ∀ (p q : parser) (node : Node) (p' : parser), Padded p q →
    (parseFactor n p = .ok (node, p') → ∃ q', parseFactor n q = .ok (node, q') ∧ Padded p' q') ∧
    (parseTerm n p = .ok (node, p') → ∃ q', parseTerm n q = .ok (node, q') ∧ Padded p' q') ∧
    (parseExpr n p = .ok (node, p') → ∃ q', parseExpr n q = .ok (node, q') ∧ Padded p' q') ∧
    (∀ acc, parseTermLoop n acc p = .ok (node, p') →
      ∃ q', parseTermLoop n acc q = .ok (node, q') ∧ Padded p' q') ∧
    (∀ acc, parseExprLoop n acc p = .ok (node, p') →
      ∃ q', parseExprLoop n acc q = .ok (node, q') ∧ Padded p' q') := by
  induction n with
  | zero =>
    intro p q node p' _
    simp [parseFactor, parseTerm, parseExpr, parseTermLoop, parseExprLoop]
  | succ n ih =>
    intro p q node p' hpq
    have hpk := padded_peek hpq
    obtain ⟨hn1, hn2⟩ := padded_next hpq
    refine ⟨?_, ?_, ?_, ?_, ?_⟩
    · intro h
      rcases (parseFactor_ok_iff n p node p').1 h with ⟨hd, h2, rfl, rfl⟩ | ⟨hp, p1, hE, hc, rfl⟩
      · refine ⟨_, (parseFactor_ok_iff n q _ _).2 (Or.inl ⟨by rw [hpk]; exact hd,
          fun hq => h2 (padded_digit_next hn2 hq), by rw [hpk], rfl⟩), hn2⟩
      · obtain ⟨q1, hE', h1⟩ := (ih _ _ node p1 hn2).2.2.1 hE
        refine ⟨_, (parseFactor_ok_iff n q node _).2 (Or.inr ⟨by rw [hpk]; exact hp, q1, hE',
          by rw [padded_peek h1]; exact hc, rfl⟩), (padded_next h1).2⟩
    · intro h
      obtain ⟨l, p1, h1, h2⟩ := (parseTerm_ok_iff n p node p').1 h
      obtain ⟨q1, h1', hp1⟩ := (ih p q l p1 hpq).1 h1
      obtain ⟨q', h2', hp2⟩ := (ih p1 q1 node p' hp1).2.2.2.1 l h2
      exact ⟨q', (parseTerm_ok_iff n q node q').2 ⟨l, q1, h1', h2'⟩, hp2⟩
    · intro h
      obtain ⟨l, p1, h1, h2⟩ := (parseExpr_ok_iff n p node p').1 h
      obtain ⟨q1, h1', hp1⟩ := (ih p q l p1 hpq).2.1 h1
      obtain ⟨q', h2', hp2⟩ := (ih p1 q1 node p' hp1).2.2.2.2 l h2
      exact ⟨q', (parseExpr_ok_iff n q node q').2 ⟨l, q1, h1', h2'⟩, hp2⟩
    · intro acc h
      rcases (parseTermLoop_ok_iff n acc p node p').1 h with ⟨hc, r, p1, h1, h2⟩ | ⟨hc, rfl, rfl⟩
      · obtain ⟨q1, h1', hp1⟩ := (ih _ _ r p1 hn2).1 h1
        obtain ⟨q', h2', hp2⟩ := (ih p1 q1 node p' hp1).2.2.2.1 _ h2
        refine ⟨q', (parseTermLoop_ok_iff n acc q node q').2 (Or.inl ⟨by rw [hpk]; exact hc,
          r, q1, h1', by rw [hn1]; exact h2'⟩), hp2⟩
      · exact ⟨_, (parseTermLoop_ok_iff n node q node _).2 (Or.inr ⟨by rw [hpk]; exact hc,
          rfl, rfl⟩), padded_skip hpq⟩
    · intro acc h
      rcases (parseExprLoop_ok_iff n acc p node p').1 h with ⟨hc, r, p1, h1, h2⟩ | ⟨hc, rfl, rfl⟩
      · obtain ⟨q1, h1', hp1⟩ := (ih _ _ r p1 hn2).2.1 h1
        obtain ⟨q', h2', hp2⟩ := (ih p1 q1 node p' hp1).2.2.2.2 _ h2
        refine ⟨q', (parseExprLoop_ok_iff n acc q node q').2 (Or.inl ⟨by rw [hpk]; exact hc,
          r, q1, h1', by rw [hn1]; exact h2'⟩), hp2⟩
      · exact ⟨_, (parseExprLoop_ok_iff n node q node _).2 (Or.inr ⟨by rw [hpk]; exact hc,
          rfl, rfl⟩), padded_skip hpq⟩

theorem padded_dropWhile {a b : List Char} (h : Padded a b) :
    Padded (a.dropWhile isSpace) (b.dropWhile isSpace) := by
  induction h with
  | nil => exact Padded.nil
  | @keep c a b h ih =>
    by_cases hc : isSpace c = true
    · simpa [List.dropWhile, hc] using ih
    · simpa [List.dropWhile, hc] using Padded.keep c h
  | @pad c a b hc h ih =>
    have hs : isSpace c = true := by rcases hc with rfl | rfl <;> decide
    simpa [List.dropWhile, hs] using ih

theorem padded_reverse {a b : List Char} (h : Padded a b) : Padded a.reverse b.reverse := by
  induction h with
  | nil => exact Padded.nil
  | @keep c a b h ih =>
    simp only [List.reverse_cons]
    exact padded_append ih (padded_refl [c])
  | @pad c a b hc h ih =>
    simp only [List.reverse_cons]
    have := padded_append ih (Padded.pad c hc Padded.nil)
    simpa using this

theorem padded_TrimSpace {a b : List Char} (h : Padded a b) :
    Padded (TrimSpace a) (TrimSpace b) :=
  padded_reverse (padded_dropWhile (padded_reverse (padded_dropWhile h)))

theorem parseExpression_ok_iff (input : String) (node : Node) :
    parseExpression input = .ok node ↔
      ∃ p', parseExpr (parseFuel (skipWhitespace (TrimSpace input.data)))
          (skipWhitespace (TrimSpace input.data)) = .ok (node, p') ∧ skipWhitespace p' = [] := by
  unfold parseExpression
  simp only []
  generalize skipWhitespace (TrimSpace input.data) = p
  cases hE : parseExpr (parseFuel p) p with
  | ok a =>
    obtain ⟨nd, p'⟩ := a
    by_cases hnil : skipWhitespace p' = []
    · simp only [hnil, ne_eq, not_true_eq_false, if_false]
      constructor
      · intro h; injection h with h; subst h; exact ⟨p', rfl, hnil⟩
      · rintro ⟨p2, h1, -⟩; injection h1 with h1; injection h1 with h2 h3; rw [h2]
    · simp only [ne_eq, hnil, not_false_eq_true, if_true]
      constructor
      · intro h; simp at h
      · rintro ⟨p2, h1, h2⟩; injection h1 with h1; injection h1 with h3 h4
        subst h4; exact absurd h2 hnil
  | err e => simp
  | fuel => simp

/-- Spaces and tabs inserted into a text that `parseExpression` accepts give a
text that it accepts with the same tree. -/
theorem parseExpression_padded (s1 s2 : String) (node : Node)
    (h : parseExpression s1 = .ok node) (hp : Padded s1.data s2.data) :
    parseExpression s2 = .ok node := by
  have hp1 := padded_skip (padded_TrimSpace hp)
  obtain ⟨p', hE, hnil⟩ := (parseExpression_ok_iff s1 node).1 h
  rw [parseExpression_ok_iff]
  generalize skipWhitespace (TrimSpace s1.data) = p at hE hp1
  generalize skipWhitespace (TrimSpace s2.data) = q at hp1 ⊢
  obtain ⟨q', hq, hp2⟩ := (padded_parse _ p q node p' hp1).2.2.1 hE
  refine ⟨q', ?_, padded_skip_nil hp2 hnil⟩
  rcases le_total (parseFuel p) (parseFuel q) with hle | hle
  · rw [(parse_mono_le _ _ hle q).2.2.1 (by rw [hq]; simp), hq]
  · rw [← (parse_mono_le _ _ hle q).2.2.1 (parseExpr_parseFuel q), hq]

/-! ### Precedence and associativity -/

theorem sentence_binary (a b o1 : Char) (ha : isDigit a = true) (hb : isDigit b = true)
    (h1 : o1 = '+' ∨ o1 = '-' ∨ o1 = '*' ∨ o1 = '/') :
    Sentence .expr [a, o1, b] (.bin o1 (.lit a) (.lit b)) := by
  have A := Sentence.digit a ha
  have B := Sentence.digit b hb
  by_cases hadd : o1 = '+' ∨ o1 = '-'
  · exact Sentence.add o1 hadd (Sentence.term (Sentence.factor A)) (Sentence.factor B)
  · exact Sentence.term (Sentence.mul o1 (by tauto) (Sentence.factor A) B)

/-- C11: `parseExpression` builds the tree of standard precedence and left
associativity.  For digits `a`, `b`, `c` and the text `a o1 b o2 c`, written
with any spaces and tabs: when `o1` and `o2` are both additive or both
multiplicative the tree is `o2` over (`o1` over `a`, `b`) and `c`; when `o1` is
additive and `o2` multiplicative it is `o1` over `a` and (`o2` over `b`, `c`);
and the text `(a o1 b) o2 c` gives `o2` over (`o1` over `a`, `b`) and `c` for
all operators. -/
theorem precedence_and_left_associativity (a b c o1 o2 : Char)
    (ha : isDigit a = true) (hb : isDigit b = true) (hc : isDigit c = true) :
    ((((o1 = '+' ∨ o1 = '-') ∧ (o2 = '+' ∨ o2 = '-')) ∨
        ((o1 = '*' ∨ o1 = '/') ∧ (o2 = '*' ∨ o2 = '/'))) →
      ∀ s : String, Padded [a, o1, b, o2, c] s.data →
        parseExpression s =
          .ok (opNode o2 (opNode o1 (leafNode a) (leafNode b)) (leafNode c))) ∧
    ((o1 = '+' ∨ o1 = '-') → (o2 = '*' ∨ o2 = '/') →
      ∀ s : String, Padded [a, o1, b, o2, c] s.data →
        parseExpression s =
          .ok (opNode o1 (leafNode a) (opNode o2 (leafNode b) (leafNode c)))) ∧
    ((o1 = '+' ∨ o1 = '-' ∨ o1 = '*' ∨ o1 = '/') → (o2 = '+' ∨ o2 = '-' ∨ o2 = '*' ∨ o2 = '/') →
      ∀ s : String, Padded ['(', a, o1, b, ')', o2, c] s.data →
        parseExpression s =
          .ok (opNode o2 (opNode o1 (leafNode a) (leafNode b)) (leafNode c))) := by
  have A := Sentence.digit a ha
  have B := Sentence.digit b hb
  have C := Sentence.digit c hc
  refine ⟨?_, ?_, ?_⟩
  · intro h s hs
    refine parseExpression_padded (String.mk [a, o1, b, o2, c]) s _ ?_ hs
    refine parseExpression_sentence (String.mk [a, o1, b, o2, c])
      (.bin o2 (.bin o1 (.lit a) (.lit b)) (.lit c)) ?_
    rcases h with ⟨h1, h2⟩ | ⟨h1, h2⟩
    · exact Sentence.add o2 h2
        (Sentence.add o1 h1 (Sentence.term (Sentence.factor A)) (Sentence.factor B))
        (Sentence.factor C)
    · exact Sentence.term (Sentence.mul o2 h2 (Sentence.mul o1 h1 (Sentence.factor A) B) C)
  · intro h1 h2 s hs
    refine parseExpression_padded (String.mk [a, o1, b, o2, c]) s _ ?_ hs
    refine parseExpression_sentence (String.mk [a, o1, b, o2, c])
      (.bin o1 (.lit a) (.bin o2 (.lit b) (.lit c))) ?_
    exact Sentence.add o1 h1 (Sentence.term (Sentence.factor A))
      (Sentence.mul o2 h2 (Sentence.factor B) C)
  · intro h1 h2 s hs
    refine parseExpression_padded (String.mk ['(', a, o1, b, ')', o2, c]) s _ ?_ hs
    refine parseExpression_sentence (String.mk ['(', a, o1, b, ')', o2, c])
      (.bin o2 (.bin o1 (.lit a) (.lit b)) (.lit c)) ?_
    have P := Sentence.paren (sentence_binary a b o1 ha hb h1)
    by_cases hadd : o2 = '+' ∨ o2 = '-'
    · exact Sentence.add o2 hadd (Sentence.term (Sentence.factor P)) (Sentence.factor C)
    · exact Sentence.term (Sentence.mul o2 (by tauto) (Sentence.factor P) C)

theorem precedence_and_left_associativity_witness :
    parseExpression "1-2+3" =
      .ok (Node.mk "+" (Float64.num 0)
        (Node.mk "-" (Float64.num 0) (leafNode '1') (leafNode '2')) (leafNode '3')) ∧
    parseExpression "1 +\t2* 3" =
      .ok (Node.mk "+" (Float64.num 0) (leafNode '1')
        (Node.mk "*" (Float64.num 0) (leafNode '2') (leafNode '3'))) ∧
    parseExpression "(1+2)*3" =
      .ok (Node.mk "*" (Float64.num 0)
        (Node.mk "+" (Float64.num 0) (leafNode '1') (leafNode '2')) (leafNode '3')) :=
  ⟨(precedence_and_left_associativity '1' '2' '3' '-' '+' (by decide) (by decide)
      (by decide)).1 (Or.inl ⟨Or.inr rfl, Or.inl rfl⟩) "1-2+3" (padded_refl _),
    (precedence_and_left_associativity '1' '2' '3' '+' '*' (by decide) (by decide)
      (by decide)).2.1 (Or.inl rfl) (Or.inl rfl) "1 +\t2* 3"
      (Padded.keep '1' (Padded.pad ' ' (Or.inl rfl) (Padded.keep '+' (Padded.pad '\t' (Or.inr rfl)
        (Padded.keep '2' (Padded.keep '*' (Padded.pad ' ' (Or.inl rfl) (padded_refl ['3'])))))))),
    (precedence_and_left_associativity '1' '2' '3' '+' '*' (by decide) (by decide)
      (by decide)).2.2 (Or.inl rfl) (Or.inr (Or.inr (Or.inl rfl))) "(1+2)*3" (padded_refl _)⟩

/-! ### Parser: an accepted text is a sentence of the grammar -/

theorem tokens_append (a b : List Char) : tokens (a ++ b) = tokens a ++ tokens b := by
  simp [tokens]

theorem tokens_ws {ws : List Char} (h : ∀ c ∈ ws, c = ' ' ∨ c = '\t') : tokens ws = [] := by
  simp only [tokens, List.filter_eq_nil_iff]
  intro c hc
  have := h c hc
  simp [this]

theorem tokens_cons (c : Char) (r : List Char) (h : ¬ (c = ' ' ∨ c = '\t')) :
    tokens (c :: r) = c :: tokens r := by
  unfold tokens
  rw [List.filter_cons, if_pos]
  simpa using h

theorem skip_form (p : parser) (h : peek (skipWhitespace p) ≠ Char.ofNat 0) :
    ∃ ws, p = ws ++ peek (skipWhitespace p) :: (next (skipWhitespace p)).2 ∧ tokens ws = [] ∧
      ¬ (peek (skipWhitespace p) = ' ' ∨ peek (skipWhitespace p) = '\t') ∧
      (next (skipWhitespace p)).1 = peek (skipWhitespace p) := by
  obtain ⟨ws, h1, h2⟩ := skipWhitespace_split p
  obtain ⟨h3, h4⟩ := next_of_peek _ h
  refine ⟨ws, ?_, tokens_ws h2, skipWhitespace_head h3, h4⟩
  rw [← h3]; exact h1

theorem skip_end_form (p : parser) : ∃ ws, p = ws ++ skipWhitespace p ∧ tokens ws = [] := by
  obtain ⟨ws, h1, h2⟩ := skipWhitespace_split p
  exact ⟨ws, h1, tokens_ws h2⟩

theorem parse_grammar (n : Nat) : ∀ (p : parser) (node : Node) (p' : parser),
    (parseFactor n p = .ok (node, p') → Reads .factor [] p node p') ∧
    (parseTerm n p = .ok (node, p') → Reads .term [] p node p') ∧
    (parseExpr n p = .ok (node, p') → Reads .expr [] p node p') ∧
    (∀ acc t0 e0, Sentence .term t0 e0 → acc = e0.toNode →
      parseTermLoop n acc p = .ok (node, p') → Reads .term t0 p node p') ∧
    (∀ acc t0 e0, Sentence .expr t0 e0 → acc = e0.toNode →
      parseExprLoop n acc p = .ok (node, p') → Reads .expr t0 p node p') := by
  induction n with
  | zero =>
    intro p node p'
    simp [parseFactor, parseTerm, parseExpr, parseTermLoop, parseExprLoop]
  | succ n ih =>
    intro p node p'
    refine ⟨?_, ?_, ?_, ?_, ?_⟩
    · intro h
      rcases (parseFactor_ok_iff n p node p').1 h with ⟨hd, h2, rfl, rfl⟩ | ⟨hp, p1, hE, hc, rfl⟩
      · obtain ⟨ws, h1, hws, hnw, -⟩ := skip_form p (peek_ne_zero_of_digit hd)
        refine ⟨ws ++ [peek (skipWhitespace p)], .lit (peek (skipWhitespace p)), ?_, ?_, rfl⟩
        · simpa using h1
        · rw [tokens_append, hws, tokens_cons _ _ hnw]
          exact Sentence.digit _ hd
      · obtain ⟨ws, h1, hws, hnw, -⟩ := skip_form p (by rw [hp]; decide)
        obtain ⟨ws1, h3, hws1, hnw1, -⟩ := skip_form p1 (by rw [hc]; decide)
        obtain ⟨pre1, e, h4, h5, h6⟩ := (ih _ node p1).2.2.1 hE
        rw [hp] at h1 hnw
        rw [hc] at h3 hnw1
        refine ⟨ws ++ '(' :: (pre1 ++ ws1 ++ [')']), e, ?_, ?_, h6⟩
        · conv_lhs => rw [h1, h4, h3]
          simp
        · rw [tokens_append, hws, tokens_cons _ _ hnw, tokens_append, tokens_append, hws1,
            tokens_cons _ _ hnw1]
          simp only [List.nil_append, List.append_nil] at h5 ⊢
          exact Sentence.paren h5
    · intro h
      obtain ⟨l, p1, h1, h2⟩ := (parseTerm_ok_iff n p node p').1 h
      obtain ⟨pre1, e1, h3, h4, h5⟩ := (ih p l p1).1 h1
      obtain ⟨pre2, e, h6, h7, h8⟩ :=
        (ih p1 node p').2.2.2.1 l _ e1 (Sentence.factor h4) h5 h2
      refine ⟨pre1 ++ pre2, e, by rw [h3, h6]; simp, ?_, h8⟩
      rw [tokens_append]; simpa using h7
    · intro h
      obtain ⟨l, p1, h1, h2⟩ := (parseExpr_ok_iff n p node p').1 h
      obtain ⟨pre1, e1, h3, h4, h5⟩ := (ih p l p1).2.1 h1
      obtain ⟨pre2, e, h6, h7, h8⟩ :=
        (ih p1 node p').2.2.2.2 l _ e1 (Sentence.term h4) h5 h2
      refine ⟨pre1 ++ pre2, e, by rw [h3, h6]; simp, ?_, h8⟩
      rw [tokens_append]; simpa using h7
    · intro acc t0 e0 h0 hacc h
      rcases (parseTermLoop_ok_iff n acc p node p').1 h with ⟨hc, r, p1, h1, h2⟩ | ⟨-, rfl, rfl⟩
      · obtain ⟨ws, h3, hws, hnw, hnx⟩ := skip_form p (by rcases hc with hc | hc <;> (rw [hc]; decide))
        rw [hnx] at h2
        obtain ⟨pre1, e1, h4, h5, h6⟩ := (ih _ r p1).1 h1
        simp only [List.nil_append] at h5
        obtain ⟨pre2, e, h7, h8, h9⟩ := (ih p1 node p').2.2.2.1 _ _ _
          (Sentence.mul _ hc h0 h5) (by rw [hacc, h6]; rfl) h2
        refine ⟨ws ++ peek (skipWhitespace p) :: (pre1 ++ pre2), e, ?_, ?_, h9⟩
        · rw [h7] at h4; rw [h4] at h3; simpa using h3
        · rw [tokens_append, hws, tokens_cons _ _ hnw, tokens_append]
          simpa using h8
      · obtain ⟨ws, h1, hws⟩ := skip_end_form p
        exact ⟨ws, e0, h1, by rw [hws]; simpa using h0, hacc⟩
    · intro acc t0 e0 h0 hacc h
      rcases (parseExprLoop_ok_iff n acc p node p').1 h with ⟨hc, r, p1, h1, h2⟩ | ⟨-, rfl, rfl⟩
      · obtain ⟨ws, h3, hws, hnw, hnx⟩ := skip_form p (by rcases hc with hc | hc <;> (rw [hc]; decide))
        rw [hnx] at h2
        obtain ⟨pre1, e1, h4, h5, h6⟩ := (ih _ r p1).2.1 h1
        simp only [List.nil_append] at h5
        obtain ⟨pre2, e, h7, h8, h9⟩ := (ih p1 node p').2.2.2.2 _ _ _
          (Sentence.add _ hc h0 h5) (by rw [hacc, h6]; rfl) h2
        refine ⟨ws ++ peek (skipWhitespace p) :: (pre1 ++ pre2), e, ?_, ?_, h9⟩
        · rw [h7] at h4; rw [h4] at h3; simpa using h3
        · rw [tokens_append, hws, tokens_cons _ _ hnw, tokens_append]
          simpa using h8
      · obtain ⟨ws, h1, hws⟩ := skip_end_form p
        exact ⟨ws, e0, h1, by rw [hws]; simpa using h0, hacc⟩

theorem sentence_chars {lvl : Level} {t : List Char} {e : Exp} (h : Sentence lvl t e) :
    ∀ c ∈ t, isTokenChar c := by
  induction h with
  | digit d hd => intro c hc; simp at hc; subst hc; exact Or.inl hd
  | paren _ ih =>
    intro c hc
    simp only [List.cons_append, List.mem_cons, List.mem_append, List.mem_singleton,
      List.not_mem_nil, or_false] at hc
    rcases hc with rfl | hc | rfl
    · unfold isTokenChar; tauto
    · exact ih c hc
    · unfold isTokenChar; tauto
  | factor _ ih => exact ih
  | term _ ih => exact ih
  | mul op hop _ _ ih1 ih2 =>
    intro c hc
    simp only [List.mem_append, List.mem_cons] at hc
    rcases hc with hc | rfl | hc
    · exact ih1 c hc
    · unfold isTokenChar; tauto
    · exact ih2 c hc
  | add op hop _ _ ih1 ih2 =>
    intro c hc
    simp only [List.mem_append, List.mem_cons] at hc
    rcases hc with hc | rfl | hc
    · exact ih1 c hc
    · unfold isTokenChar; tauto
    · exact ih2 c hc

theorem sentence_balanced {lvl : Level} {t : List Char} {e : Exp} (h : Sentence lvl t e) :
    t.count '(' = t.count ')' := by
  induction h with
  | digit d hd =>
    have h1 : d ≠ '(' := by rintro rfl; exact absurd hd (by decide)
    have h2 : d ≠ ')' := by rintro rfl; exact absurd hd (by decide)
    simp [List.count_cons, h1, h2]
  | paren _ ih => simp [List.count_cons, List.count_append, ih]
  | factor _ ih => exact ih
  | term _ ih => exact ih
  | mul op hop _ _ ih1 ih2 =>
    have h1 : op ≠ '(' := by rintro rfl; revert hop; decide
    have h2 : op ≠ ')' := by rintro rfl; revert hop; decide
    simp [List.count_cons, List.count_append, ih1, ih2, h1, h2]
  | add op hop _ _ ih1 ih2 =>
    have h1 : op ≠ '(' := by rintro rfl; revert hop; decide
    have h2 : op ≠ ')' := by rintro rfl; revert hop; decide
    simp [List.count_cons, List.count_append, ih1, ih2, h1, h2]

theorem mem_tokens (p : List Char) (c : Char) (h : c ∈ p) :
    c ∈ tokens p ∨ c = ' ' ∨ c = '\t' := by
  by_cases hc : c = ' ' ∨ c = '\t'
  · exact Or.inr hc
  · left
    unfold tokens
    rw [List.mem_filter]
    exact ⟨h, by simpa using hc⟩

theorem count_tokens (p : List Char) (c : Char) (hc : ¬ (c = ' ' ∨ c = '\t')) :
    (tokens p).count c = p.count c := by
  induction p with
  | nil => rfl
  | cons x p ih =>
    by_cases hx : x = ' ' ∨ x = '\t'
    · have hne : x ≠ c := by rintro rfl; exact hc hx
      have : tokens (x :: p) = tokens p := by
        unfold tokens; rw [List.filter_cons, if_neg]; simp [hx]
      rw [this, ih, List.count_cons_of_ne hne.symm]
    · rw [tokens_cons x p hx, List.count_cons, List.count_cons, ih]

/-- A text that `parseExpression` accepts: its tokens form a sentence of the
grammar and the tree returned is the tree of the expression it denotes. -/
theorem parseExpression_grammar (input : String) (node : Node)
    (h : parseExpression input = .ok node) :
    ∃ e, Sentence .expr (tokens (TrimSpace input.data)) e ∧ node = e.toNode := by
  obtain ⟨p', hE, hnil⟩ := (parseExpression_ok_iff input node).1 h
  obtain ⟨pre, e, h1, h2, h3⟩ := (parse_grammar _ _ node p').2.2.1 hE
  obtain ⟨ws, h4, hws⟩ := skip_end_form (TrimSpace input.data)
  obtain ⟨ws', h5, hws'⟩ := skip_end_form p'
  refine ⟨e, ?_, h3⟩
  rw [h4, h1, tokens_append, tokens_append, hws]
  rw [hnil, List.append_nil] at h5
  rw [h5, hws']
  simpa using h2

/-- Text left over after a complete expression makes `parseExpression` fail. -/
theorem parseExpression_leftover (t rest : List Char) (e : Exp) (h : Sentence .expr t e)
    (htrim : TrimSpace (t ++ rest) = t ++ rest) (hd : NoDigitNext rest)
    (hrest : skipWhitespace rest ≠ [])
    (hop : peek (skipWhitespace rest) ≠ '+' ∧ peek (skipWhitespace rest) ≠ '-' ∧
      peek (skipWhitespace rest) ≠ '*' ∧ peek (skipWhitespace rest) ≠ '/') :
    parseExpression (String.mk (t ++ rest)) = .error "CharactersError" := by
  obtain ⟨⟨a, r, h1, h2⟩, -⟩ := sentence_edges h
  have hs : skipWhitespace (t ++ rest) = t ++ rest := by
    rw [h1]
    exact skipWhitespace_cons _ _ (by rintro rfl; exact absurd h2 (by decide))
      (by rintro rfl; exact absurd h2 (by decide))
  obtain ⟨n0, hn0⟩ := parse_complete h rest hd ⟨hop.2.2.1, hop.2.2.2⟩ 1
    (.ok (e.toNode, skipWhitespace rest)) (parseExprLoop_exit 0 _ _ ⟨hop.1, hop.2.1⟩) (by simp)
  have h3 := hn0 (max n0 (parseFuel (t ++ rest))) (le_max_left _ _)
  have h4 := (parse_mono_le (parseFuel (t ++ rest)) (max n0 (parseFuel (t ++ rest)))
    (le_max_right _ _) (t ++ rest)).2.2.1 (parseExpr_parseFuel _)
  rw [h3] at h4
  unfold parseExpression
  simp only [htrim, hs, ← h4, skipWhitespace_idem]
  simp [hrest]

/-- C12: a text that `parseExpression` accepts consists, once trimmed, of
digits, the four operators, parentheses, spaces and tabs only, and its token
sequence is a sentence of the grammar whose tree is the tree returned (with as
many opening as closing parentheses).  Consequently a text with another
character, a text whose parentheses do not match, a text whose tokens are not
a sentence and a text with input left over after a complete expression are all
rejected; so are the empty text, "invalid", "3**3" and "5//2" by
`AddExpression`, on every store and without changing it. -/
theorem accepted_text_is_sentence :
    (∀ (input : String) (node : Node), parseExpression input = .ok node →
      (∀ c ∈ TrimSpace input.data, isTokenChar c ∨ c = ' ' ∨ c = '\t') ∧
      (∃ e, Sentence .expr (tokens (TrimSpace input.data)) e ∧ node = e.toNode) ∧
      (TrimSpace input.data).count '(' = (TrimSpace input.data).count ')') ∧
    (∀ input : String,
      ((∃ c ∈ TrimSpace input.data, ¬ (isTokenChar c ∨ c = ' ' ∨ c = '\t')) ∨
        (TrimSpace input.data).count '(' ≠ (TrimSpace input.data).count ')' ∨
        ¬ ∃ e, Sentence .expr (tokens (TrimSpace input.data)) e) →
      ∃ err, parseExpression input = .error err ∧ isParseError err) ∧
    (∀ (t rest : List Char) (e : Exp), Sentence .expr t e →
      TrimSpace (t ++ rest) = t ++ rest → NoDigitNext rest → skipWhitespace rest ≠ [] →
      peek (skipWhitespace rest) ≠ '+' ∧ peek (skipWhitespace rest) ≠ '-' ∧
        peek (skipWhitespace rest) ≠ '*' ∧ peek (skipWhitespace rest) ≠ '/' →
      parseExpression (String.mk (t ++ rest)) = .error "CharactersError") ∧
    parseExpression "1+a" = .error "Unexpected character: a" ∧
    parseExpression "(1+2" = .error "Parenthesis error" ∧
    parseExpression "1+2)" = .error "CharactersError" ∧
    (∀ s : Store,
      AddExpression "" s = (.error ("Unexpected character: " ++ byteString (Char.ofNat 0)), s) ∧
      AddExpression "invalid" s = (.error "Unexpected character: i", s) ∧
      AddExpression "3**3" s = (.error "Unexpected character: *", s) ∧
      AddExpression "5//2" s = (.error "Unexpected character: /", s)) := by
  have main : ∀ (input : String) (node : Node), parseExpression input = .ok node →
      (∀ c ∈ TrimSpace input.data, isTokenChar c ∨ c = ' ' ∨ c = '\t') ∧
      (∃ e, Sentence .expr (tokens (TrimSpace input.data)) e ∧ node = e.toNode) ∧
      (TrimSpace input.data).count '(' = (TrimSpace input.data).count ')' := by
    intro input node h
    obtain ⟨e, h1, h2⟩ := parseExpression_grammar input node h
    refine ⟨?_, ⟨e, h1, h2⟩, ?_⟩
    · intro c hc
      rcases mem_tokens _ c hc with h3 | h3
      · exact Or.inl (sentence_chars h1 c h3)
      · exact Or.inr h3
    · rw [← count_tokens _ '(' (by decide), ← count_tokens _ ')' (by decide)]
      exact sentence_balanced h1
  refine ⟨main, ?_, ?_, by decide, by decide, by decide, ?_⟩
  · intro input hbad
    rcases parseExpression_cases input with ⟨node, h, -, -⟩ | h'
    · obtain ⟨h1, ⟨e, h2, -⟩, h3⟩ := main input node h
      rcases hbad with ⟨c, hc, hn⟩ | hn | hn
      · exact absurd (h1 c hc) hn
      · exact absurd h3 hn
      · exact absurd ⟨e, h2⟩ hn
    · exact h'
  · intro t rest e h htrim hd hrest hop
    exact parseExpression_leftover t rest e h htrim hd hrest hop
  · intro s
    exact ⟨AddExpression_error _ s _ (by decide), AddExpression_error _ s _ (by decide),
      AddExpression_error _ s _ (by decide), AddExpression_error _ s _ (by decide)⟩

theorem accepted_text_is_sentence_witness :
    parseExpression "(1 + 2) * 3" = .ok (opNode '*' (opNode '+' (leafNode '1') (leafNode '2'))
      (leafNode '3')) ∧
    ((∀ c ∈ TrimSpace "(1 + 2) * 3".data, isTokenChar c ∨ c = ' ' ∨ c = '\t') ∧
      (∃ e, Sentence .expr (tokens (TrimSpace "(1 + 2) * 3".data)) e ∧
        opNode '*' (opNode '+' (leafNode '1') (leafNode '2')) (leafNode '3') = e.toNode) ∧
      (TrimSpace "(1 + 2) * 3".data).count '(' = (TrimSpace "(1 + 2) * 3".data).count ')') :=
  ⟨by decide, accepted_text_is_sentence.1 "(1 + 2) * 3" _ (by decide)⟩

theorem padded_insert (a b ws : List Char) (h : ∀ c ∈ ws, c = ' ' ∨ c = '\t') :
    Padded (a ++ b) (a ++ ws ++ b) := by
  have hws : Padded [] ws := by
    induction ws with
    | nil => exact Padded.nil
    | cons c ws ih =>
      exact Padded.pad c (h c (by simp)) (ih (fun x hx => h x (by simp [hx])))
  have := padded_append (padded_append (padded_refl a) hws) (padded_refl b)
  simpa using this

/-- C13: spaces and tabs inserted anywhere into a text that `parseExpression`
accepts (before the first token, after the last, between two tokens; every
token is one character) give a text that it accepts with the same operator
tree; in particular a block of spaces and tabs inserted at one place does. -/
theorem whitespace_insertion_invariant (s1 s2 : String) (node : Node)
    (h : parseExpression s1 = .ok node) (hp : Padded s1.data s2.data) :
    parseExpression s2 = .ok node ∧
    (∀ a b ws : List Char, s1.data = a ++ b → (∀ c ∈ ws, c = ' ' ∨ c = '\t') →
      parseExpression (String.mk (a ++ ws ++ b)) = .ok node) := by
  refine ⟨parseExpression_padded s1 s2 node h hp, ?_⟩
  intro a b ws hab hws
  refine parseExpression_padded s1 (String.mk (a ++ ws ++ b)) node h ?_
  rw [hab]
  exact padded_insert a b ws hws

theorem whitespace_insertion_invariant_witness :
    parseExpression " 1 +\t2 " = .ok (opNode '+' (leafNode '1') (leafNode '2')) ∧
    (∀ a b ws : List Char, "1+2".data = a ++ b → (∀ c ∈ ws, c = ' ' ∨ c = '\t') →
      parseExpression (String.mk (a ++ ws ++ b)) =
        .ok (opNode '+' (leafNode '1') (leafNode '2'))) :=
  whitespace_insertion_invariant "1+2" " 1 +\t2 " _ (by decide)
    (Padded.pad ' ' (Or.inl rfl) (Padded.keep '1' (Padded.pad ' ' (Or.inl rfl)
      (Padded.keep '+' (Padded.pad '\t' (Or.inr rfl) (Padded.keep '2'
        (Padded.pad ' ' (Or.inl rfl) Padded.nil)))))))

/-! ### The ready queue is first in, first out -/

theorem GetReadyTask_cons (s : Store) (k : Int) (rest : List Int) (h : s.readyTasks = k :: rest) :
    GetReadyTask s = (.ok k, { s with readyTasks := rest }) := by
  unfold GetReadyTask
  rw [h]

theorem GetReadyTask_nil (s : Store) (h : s.readyTasks = []) :
    GetReadyTask s = (.error "No task available", s) := by
  unfold GetReadyTask
  rw [h]

/-- What a call does to the ready queue: the ids it appends go to the back, the
id it hands out comes from the front. -/
theorem step_queue (s : Store) (log : List Int) (c : Call) (hI : Inv s log) :
    s.readyTasks ++ appended s c = handedOut s c ++ (step s c).readyTasks := by
  cases c with
  | add raw =>
    simp only [step, appended, handedOut, List.nil_append]
    rcases AddExpression_cases raw s with ⟨node, -, -, h3⟩ | ⟨e, -, -, h3⟩
    · rw [h3]; simp [addResult]
    · rw [h3]; simp
  | get =>
    simp only [step, appended, handedOut, List.append_nil]
    cases hr : s.readyTasks with
    | nil => rw [GetReadyTask_nil s hr]; simp [hr]
    | cons k rest => rw [GetReadyTask_cons s k rest hr]; rfl
  | complete taskID r =>
    simp only [step, appended, handedOut, List.nil_append]
    rcases CompleteTask_cases taskID r s log hI with ⟨-, h⟩ | ⟨t, -, -, h⟩ | ⟨t, x, -, -, -, h⟩
    · rw [h]; simp
    · rw [h]; simp
    · rw [h, complete_ready]; simp

theorem fifo_from (calls : List Call) : ∀ (s : Store) (log : List Int), Inv s log →
    s.readyTasks ++ enqueued calls s = returned calls s ++ (run calls s).readyTasks := by
  induction calls with
  | nil => intro s log _; simp [enqueued, returned, run]
  | cons c cs ih =>
    intro s log hI
    have h1 := step_queue s log c hI
    have h2 := ih (step s c) _ (Inv_step s log c hI)
    simp only [enqueued, returned, run, List.foldl_cons] at h2 ⊢
    rw [← List.append_assoc, h1, List.append_assoc, h2, List.append_assoc]

/-- C14: on a non-empty ready queue `GetReadyTask` returns the first element,
leaves the others in their order and changes nothing else: tasks (the status
of the returned task included), expressions and counters stay as they are.
Hence over every sequence of calls the ids appended to the ready queue are, in
this order, the ids the `GetReadyTask` calls have returned followed by the ids
still in the queue. -/
theorem ready_queue_is_fifo :
    (∀ (s : Store) (k : Int) (rest : List Int), s.readyTasks = k :: rest →
      GetReadyTask s = (.ok k, { s with readyTasks := rest }) ∧
      (GetReadyTask s).2.readyTasks = rest ∧
      (GetReadyTask s).2.tasks = s.tasks ∧
      (GetReadyTask s).2.expressions = s.expressions ∧
      (GetReadyTask s).2.exprCounter = s.exprCounter ∧
      (GetReadyTask s).2.taskCounter = s.taskCounter ∧
      ∀ t, s.tasks k = some t → t.Status = "pending" →
        ((GetReadyTask s).2.tasks k).map (·.Status) = some "pending") ∧
    (∀ calls : List Call,
      enqueued calls Store.init
        = returned calls Store.init ++ (run calls Store.init).readyTasks) := by
  constructor
  · intro s k rest h
    rw [GetReadyTask_cons s k rest h]
    refine ⟨rfl, rfl, rfl, rfl, rfl, rfl, ?_⟩
    intro t ht hp
    simp [ht, hp]
  · intro calls
    have := fifo_from calls Store.init [] Inv_init
    simpa [Store.init] using this

theorem ready_queue_is_fifo_witness :
    enqueued [Call.add "(1+2)*(3+4)", Call.get, Call.complete 1 (Float64.num 3), Call.get]
        Store.init = [1, 2] ++ [] ∧
    returned [Call.add "(1+2)*(3+4)", Call.get, Call.complete 1 (Float64.num 3), Call.get]
        Store.init = [1, 2] :=
  ⟨(ready_queue_is_fifo.2 [Call.add "(1+2)*(3+4)", Call.get, Call.complete 1 (Float64.num 3),
      Call.get]).trans (by decide), by decide⟩

/-! ### The errors of `CompleteTask` -/

/-- C15: in a reachable store `CompleteTask` returns the error "Task not found"
exactly when no task is registered under the id, the different error "Task
already completed" exactly when the registered task is not pending, and
succeeds exactly in the remaining case, that of a registered pending task. -/
theorem complete_task_outcomes (s : Store) (hs : Reachable s) (taskID : Int) (r : Float64) :
    ((CompleteTask taskID r s).1 = .error "Task not found" ↔ s.tasks taskID = none) ∧
    ((CompleteTask taskID r s).1 = .error "Task already completed" ↔
      ∃ t, s.tasks taskID = some t ∧ t.Status ≠ "pending") ∧
    ((CompleteTask taskID r s).1 = .ok () ↔
      ∃ t, s.tasks taskID = some t ∧ t.Status = "pending") ∧
    "Task not found" ≠ "Task already completed" := by
  obtain ⟨log, hI⟩ := Reachable_Inv s hs
  have hne : "Task not found" ≠ "Task already completed" := by decide
  refine ⟨?_, ?_, ?_, hne⟩
  · rcases CompleteTask_cases taskID r s log hI with ⟨h0, h⟩ | ⟨t, h0, h1, h⟩ | ⟨t, x, h0, h1, -, h⟩
    · simp [h, h0]
    · rw [h, h0]; simp
    · rw [h, h0]; simp
  · rcases CompleteTask_cases taskID r s log hI with ⟨h0, h⟩ | ⟨t, h0, h1, h⟩ | ⟨t, x, h0, h1, -, h⟩
    · rw [h, h0]; simp
    · rw [h, h0]; simp [h1]
    · rw [h, h0]; simp [h1]
  · rcases CompleteTask_cases taskID r s log hI with ⟨h0, h⟩ | ⟨t, h0, h1, h⟩ | ⟨t, x, h0, h1, -, h⟩
    · rw [h, h0]; simp
    · rw [h, h0]; simp [h1]
    · rw [h, h0]; simp [h1]

theorem complete_task_outcomes_witness :
    ((CompleteTask 1 (Float64.num 3) (run [Call.add "1+2"] Store.init)).1
        = .error "Task not found" ↔ (run [Call.add "1+2"] Store.init).tasks 1 = none) ∧
    ((CompleteTask 1 (Float64.num 3) (run [Call.add "1+2"] Store.init)).1
        = .error "Task already completed" ↔
      ∃ t, (run [Call.add "1+2"] Store.init).tasks 1 = some t ∧ t.Status ≠ "pending") ∧
    ((CompleteTask 1 (Float64.num 3) (run [Call.add "1+2"] Store.init)).1 = .ok () ↔
      ∃ t, (run [Call.add "1+2"] Store.init).tasks 1 = some t ∧ t.Status = "pending") ∧
    "Task not found" ≠ "Task already completed" :=
  complete_task_outcomes (run [Call.add "1+2"] Store.init) ⟨[Call.add "1+2"], rfl⟩ 1
    (Float64.num 3)

/-! ### A task that is never reported -/

theorem tasks_parent (node : Node) (h : node.isTree = true) (e c : Int) (hc : 0 ≤ c) :
    ∀ t ∈ node.tasks e c, t.ID ≠ node.rootID c →
      ∃ u ∈ node.tasks e c, u.LeftDependency = t.ID ∨ u.RightDependency = t.ID := by
  induction node generalizing c with
  | nil => simp [Node.tasks]
  | mk op v l r ihl ihr =>
    by_cases hop : op = ""
    · simp [Node.tasks, hop]
    · obtain ⟨hl, hr⟩ := isTree_children hop h
      intro t ht hne
      simp only [Node.tasks, hop, if_false, List.mem_append, List.mem_singleton] at ht
      have hsub1 : ∀ d, d ∈ l.tasks e c → d ∈ (Node.mk op v l r).tasks e c := by
        intro d hd
        simp only [Node.tasks, hop, if_false, List.mem_append]
        exact Or.inl (Or.inl hd)
      have hsub2 : ∀ d, d ∈ r.tasks e (c + (l.size : Nat)) →
          d ∈ (Node.mk op v l r).tasks e c := by
        intro d hd
        simp only [Node.tasks, hop, if_false, List.mem_append]
        exact Or.inl (Or.inr hd)
      have hnew : newTask (c + (l.size : Nat) + (r.size : Nat) + 1) e op l.retVal r.retVal
          (l.rootID c) (r.rootID (c + (l.size : Nat))) ∈ (Node.mk op v l r).tasks e c := by
        simp only [Node.tasks, hop, if_false]
        exact List.mem_append_right _ (List.mem_singleton_self _)
      rcases ht with (ht | ht) | rfl
      · by_cases hroot : t.ID = l.rootID c
        · exact ⟨_, hnew, Or.inl (by simp only [newTask]; exact hroot.symm)⟩
        · obtain ⟨u, hu, h1⟩ := ihl hl c hc t ht hroot
          exact ⟨u, hsub1 u hu, h1⟩
      · by_cases hroot : t.ID = r.rootID (c + (l.size : Nat))
        · exact ⟨_, hnew, Or.inr (by simp only [newTask]; exact hroot.symm)⟩
        · obtain ⟨u, hu, h1⟩ := ihr hr _ (by omega) t ht hroot
          exact ⟨u, hsub2 u hu, h1⟩
      · exfalso; apply hne
        simp only [newTask, Node.rootID, hop, if_false]
        push_cast; ring

theorem add_expressions (raw : String) (node : Node) (s : Store) (i : Int) :
    (addResult raw node s).expressions i =
      if i = s.exprCounter + 1 then
        some
          { ID := s.exprCounter + 1
            Raw := raw
            Status := if node.rootID s.taskCounter = 0 then "completed" else "pending"
            Result := Float64.NaN
            TaskIDs := (node.tasks (s.exprCounter + 1) s.taskCounter).map (·.ID)
            RootTaskID := node.rootID s.taskCounter }
      else s.expressions i := by
  simp only [addResult, Function.update_apply]

theorem add_expressions_old (raw : String) (node : Node) (s : Store) (log : List Int)
    (hI : Inv s log) (i : Int) (x : Expression) (hx : s.expressions i = some x) :
    (addResult raw node s).expressions i = some x := by
  rw [add_expressions, if_neg]
  · exact hx
  · have := (hI.expr_key i x hx).2.2; omega

theorem Inv2_init : Inv2 Store.init :=
  { parent := by intro k t x h; simp [Store.init] at h
    expr_status := by intro i x h; simp [Store.init] at h }

theorem Inv2_add (raw : String) (node : Node) (s : Store) (log : List Int)
    (hI : Inv s log) (h2 : Inv2 s) (ht : node.isTree = true) : Inv2 (addResult raw node s) := by
  have hc := hI.counters
  have spec := tasks_spec node ht (s.exprCounter + 1) s.taskCounter hc.2
  constructor
  · intro k t x hk hp hx hroot
    rcases add_tasks_cases raw node s k t hk with ⟨h1, h3⟩ | ⟨h1, -⟩
    · rw [(spec t h1).1, add_expressions, if_pos rfl] at hx
      injection hx with hx; subst hx
      simp only at hroot
      obtain ⟨u, hu, hslot⟩ := tasks_parent node ht (s.exprCounter + 1) s.taskCounter hc.2 t h1
        (by rw [h3]; exact hroot)
      refine ⟨u.ID, u, add_tasks_new raw node s u hu, ?_, ?_⟩
      · rw [(spec u hu).1, (spec t h1).1]
      · rw [← h3]; exact hslot
    · obtain ⟨x0, hx0, -⟩ := hI.task_expr k t h1
      rw [add_expressions_old raw node s log hI _ x0 hx0] at hx
      injection hx with hx; subst hx
      obtain ⟨u, tu, g1, g2, g3⟩ := h2.parent k t x0 h1 hp hx0 hroot
      exact ⟨u, tu, add_tasks_old raw node s log hI u tu g1, g2, g3⟩
  · intro i x hx
    rw [add_expressions] at hx
    by_cases hi : i = s.exprCounter + 1
    · rw [if_pos hi] at hx
      injection hx with hx; subst hx
      simp only
      by_cases h0 : node.rootID s.taskCounter = 0
      · right; rw [if_pos h0]
      · left; rw [if_neg h0]
    · rw [if_neg hi] at hx
      exact h2.expr_status i x hx

theorem Inv2_complete (taskID : Int) (r : Float64) (s : Store) (log : List Int) (t : Task)
    (x : Expression) (hI : Inv s log) (h2 : Inv2 s) (ht : s.tasks taskID = some t)
    (hx : s.expressions t.ExpressionID = some x) : Inv2 (completeResult taskID t x r s) := by
  have hid := (hI.task_key taskID t ht).1
  constructor
  · intro k t' x' hk hp hx' hroot
    obtain ⟨u0, hu0, rfl⟩ := complete_tasks_some taskID t x r s ht hid k t' hk
    obtain ⟨-, h2e, -, h4, -, -⟩ := stepTask_spec taskID r x.TaskIDs k u0
    have hka : k ≠ taskID := by
      intro hka; rw [h4, if_pos hka] at hp; exact absurd hp (by decide)
    rw [h4, if_neg hka] at hp
    rw [h2e] at hx' ⊢
    have hx0 : ∃ x0, s.expressions u0.ExpressionID = some x0 ∧ x0.RootTaskID = x'.RootTaskID := by
      rw [complete_expressions] at hx'
      by_cases hc : t.ID = x.RootTaskID ∧ u0.ExpressionID = t.ExpressionID
      · rw [if_pos hc] at hx'
        injection hx' with hx'; subst hx'
        exact ⟨x, by rw [hc.2]; exact hx, rfl⟩
      · rw [if_neg hc] at hx'
        exact ⟨x', hx', rfl⟩
    obtain ⟨x0, g0, g0'⟩ := hx0
    obtain ⟨u, tu, g1, g2, g3⟩ := h2.parent k u0 x0 hu0 hp g0 (by rw [g0']; exact hroot)
    refine ⟨u, stepTask taskID r x.TaskIDs u tu, ?_, ?_, ?_⟩
    · rw [complete_tasks taskID t x r s ht hid, g1]; rfl
    · rw [(stepTask_spec taskID r x.TaskIDs u tu).2.1, g2]
    · obtain ⟨-, -, -, -, -, h6, -, h8, -⟩ := stepTask_spec taskID r x.TaskIDs u tu
      rcases g3 with g3 | g3
      · left; rw [h6, if_neg (fun h => hka (by rw [← g3]; exact h.2)), g3]
      · right; rw [h8, if_neg (fun h => hka (by rw [← g3]; exact h.2)), g3]
  · intro i x' hx'
    rw [complete_expressions] at hx'
    by_cases hc : t.ID = x.RootTaskID ∧ i = t.ExpressionID
    · rw [if_pos hc] at hx'
      injection hx' with hx'; subst hx'
      exact Or.inr rfl
    · rw [if_neg hc] at hx'
      exact h2.expr_status i x' hx'

theorem CompletedUnblocked_add (raw : String) (node : Node) (s : Store)
    (hcu : CompletedUnblocked s) (hc : 0 ≤ s.taskCounter) (ht : node.isTree = true) :
    CompletedUnblocked (addResult raw node s) := by
  intro k t hk hs
  rcases add_tasks_cases raw node s k t hk with ⟨h1, -⟩ | ⟨h1, -⟩
  · have := (tasks_spec node ht (s.exprCounter + 1) s.taskCounter hc t h1).2.1
    rw [this] at hs; exact absurd hs (by decide)
  · exact hcu k t h1 hs

theorem CompletedUnblocked_complete (taskID : Int) (r : Float64) (s : Store) (log : List Int)
    (t : Task) (x : Expression) (hI : Inv s log) (hcu : CompletedUnblocked s)
    (ht : s.tasks taskID = some t) (hl : t.LeftDependency = 0) (hr : t.RightDependency = 0) :
    CompletedUnblocked (completeResult taskID t x r s) := by
  have hid := (hI.task_key taskID t ht).1
  intro k t' hk hs
  obtain ⟨u0, hu0, rfl⟩ := complete_tasks_some taskID t x r s ht hid k t' hk
  obtain ⟨-, -, -, h4, -, h6, -, h8, -⟩ := stepTask_spec taskID r x.TaskIDs k u0
  have h0 : u0.LeftDependency = 0 ∧ u0.RightDependency = 0 := by
    by_cases hka : k = taskID
    · rw [hka, ht] at hu0; injection hu0 with hu0; subst hu0; exact ⟨hl, hr⟩
    · rw [h4, if_neg hka] at hs; exact hcu k u0 hu0 hs
  rw [h6, h8, h0.1, h0.2]
  constructor <;> split_ifs <;> rfl

/-- What a call does to a registered task: it stays registered with its
expression; a dependency slot changes only when a `CompleteTask` call for the
task it holds clears it; the status changes only by a `CompleteTask` call for
the task itself. -/
theorem step_task (s : Store) (log : List Int) (c : Call) (hI : Inv s log) (k : Int) (t : Task)
    (ht : s.tasks k = some t) :
    ∃ t', (step s c).tasks k = some t' ∧ t'.ExpressionID = t.ExpressionID ∧
      (t'.LeftDependency = t.LeftDependency ∨ ∃ r, c = .complete t.LeftDependency r) ∧
      (t'.RightDependency = t.RightDependency ∨ ∃ r, c = .complete t.RightDependency r) ∧
      (t'.Status = t.Status ∨ ∃ r, c = .complete k r) := by
  cases c with
  | add raw =>
    simp only [step]
    rcases AddExpression_cases raw s with ⟨node, -, -, h3⟩ | ⟨e, -, -, h3⟩
    · rw [h3]
      exact ⟨t, add_tasks_old raw node s log hI k t ht, rfl, Or.inl rfl, Or.inl rfl, Or.inl rfl⟩
    · rw [h3]; exact ⟨t, ht, rfl, Or.inl rfl, Or.inl rfl, Or.inl rfl⟩
  | get =>
    have : (step s .get).tasks = s.tasks := by
      simp only [step, GetReadyTask]
      cases s.readyTasks <;> rfl
    rw [this]
    exact ⟨t, ht, rfl, Or.inl rfl, Or.inl rfl, Or.inl rfl⟩
  | complete a r =>
    simp only [step]
    rcases CompleteTask_cases a r s log hI with ⟨-, h'⟩ | ⟨ta, -, -, h'⟩ | ⟨ta, x, h1, -, -, h'⟩
    · rw [h']; exact ⟨t, ht, rfl, Or.inl rfl, Or.inl rfl, Or.inl rfl⟩
    · rw [h']; exact ⟨t, ht, rfl, Or.inl rfl, Or.inl rfl, Or.inl rfl⟩
    · rw [h']
      have hid := (hI.task_key a ta h1).1
      obtain ⟨-, h2e, -, h4, -, h6, -, h8, -⟩ := stepTask_spec a r x.TaskIDs k t
      refine ⟨stepTask a r x.TaskIDs k t, by rw [complete_tasks a ta x r s h1 hid, ht]; rfl,
        h2e, ?_, ?_, ?_⟩
      · rw [h6]
        by_cases hc : k ∈ x.TaskIDs ∧ t.LeftDependency = a
        · right; exact ⟨r, by rw [hc.2]⟩
        · left; rw [if_neg hc]
      · rw [h8]
        by_cases hc : k ∈ x.TaskIDs ∧ t.RightDependency = a
        · right; exact ⟨r, by rw [hc.2]⟩
        · left; rw [if_neg hc]
      · rw [h4]
        by_cases hc : k = a
        · right; exact ⟨r, by rw [hc]⟩
        · left; rw [if_neg hc]

theorem Protocol_init : Protocol Store.init [] :=
  { inv := Inv_init
    inv2 := Inv2_init
    unblocked := by intro k t h; simp [Store.init] at h }

theorem Protocol_step (s : Store) (log : List Int) (c : Call) (hP : Protocol s log)
    (hc : c.completesBlocked s = false) :
    Protocol (step s c) (log ++ appended s c) := by
  have hI := hP.inv
  refine { inv := Inv_step s log c hI, inv2 := ?_, unblocked := ?_ }
  · cases c with
    | add raw =>
      simp only [step]
      rcases AddExpression_cases raw s with ⟨node, -, h2, h3⟩ | ⟨e, -, -, h3⟩
      · rw [h3]; exact Inv2_add raw node s log hI hP.inv2 h2
      · rw [h3]; exact hP.inv2
    | get =>
      simp only [step]
      cases hr : s.readyTasks with
      | nil => rw [GetReadyTask_nil s hr]; exact hP.inv2
      | cons k rest =>
        rw [GetReadyTask_cons s k rest hr]
        exact ⟨hP.inv2.parent, hP.inv2.expr_status⟩
    | complete a r =>
      simp only [step]
      rcases CompleteTask_cases a r s log hI with ⟨-, h'⟩ | ⟨ta, -, -, h'⟩ | ⟨ta, x, h1, -, h3, h'⟩
      · rw [h']; exact hP.inv2
      · rw [h']; exact hP.inv2
      · rw [h']; exact Inv2_complete a r s log ta x hI hP.inv2 h1 h3
  · cases c with
    | add raw =>
      simp only [step]
      rcases AddExpression_cases raw s with ⟨node, -, h2, h3⟩ | ⟨e, -, -, h3⟩
      · rw [h3]; exact CompletedUnblocked_add raw node s hP.unblocked hI.counters.2 h2
      · rw [h3]; exact hP.unblocked
    | get =>
      simp only [step]
      cases hr : s.readyTasks with
      | nil => rw [GetReadyTask_nil s hr]; exact hP.unblocked
      | cons k rest =>
        rw [GetReadyTask_cons s k rest hr]
        exact hP.unblocked
    | complete a r =>
      simp only [step]
      rcases CompleteTask_cases a r s log hI with ⟨-, h'⟩ | ⟨ta, -, -, h'⟩ | ⟨ta, x, h1, -, h3, h'⟩
      · rw [h']; exact hP.unblocked
      · rw [h']; exact hP.unblocked
      · rw [h']
        have hb : ta.LeftDependency = 0 ∧ ta.RightDependency = 0 := by
          simpa [Call.completesBlocked, h1] using hc
        exact CompletedUnblocked_complete a r s log ta x hI hP.unblocked h1 hb.1 hb.2

theorem Protocol_run (cs : List Call) : ∀ (s : Store) (log : List Int),
    Protocol s log → orderly cs s = true → Protocol (run cs s) (log ++ enqueued cs s) := by
  induction cs with
  | nil => intro s log hP _; simpa [run, enqueued] using hP
  | cons c cs ih =>
    intro s log hP hf
    simp only [orderly, Bool.and_eq_true, Bool.not_eq_true'] at hf
    have := ih _ _ (Protocol_step s log c hP hf.1) hf.2
    simpa [run, enqueued, List.append_assoc] using this

theorem orderly_append (a b : List Call) : ∀ (s : Store),
    orderly (a ++ b) s = (orderly a s && orderly b (run a s)) := by
  induction a with
  | nil => intro s; simp [orderly, run]
  | cons c cs ih =>
    intro s
    have e : (c :: cs) ++ b = c :: (cs ++ b) := rfl
    rw [e]
    simp only [orderly, ih, run, List.foldl_cons, Bool.and_assoc]

theorem returned_append (a b : List Call) (s : Store) :
    returned (a ++ b) s = returned a s ++ returned b (run a s) := by
  induction a generalizing s with
  | nil => simp [returned, run]
  | cons c cs ih => simp [returned, run, ih, List.append_assoc]

theorem dependsOn_blocked {s : Store} {u v : Int} (h : DependsOn s u v) :
    ∃ t, s.tasks u = some t ∧ (t.LeftDependency ≠ 0 ∨ t.RightDependency ≠ 0) := by
  cases h with
  | direct ht hv hslot =>
    exact ⟨_, ht, by rcases hslot with h | h <;> [left; right] <;> (rw [h]; exact hv)⟩
  | via ht hw hslot _ =>
    exact ⟨_, ht, by rcases hslot with h | h <;> [left; right] <;> (rw [h]; exact hw)⟩

/-- A task that waits for `k` goes on waiting for it over a call that completes
no waiting task and is no `CompleteTask` call for `k`. -/
theorem dependsOn_step (s : Store) (log : List Int) (c : Call) (hP : Protocol s log)
    (hc : c.completesBlocked s = false) (k : Int) (hk : ∀ r, c ≠ .complete k r) (u : Int)
    (h : DependsOn s u k) : DependsOn (step s c) u k := by
  induction h with
  | @direct u v t ht hv hslot =>
    obtain ⟨t', h1, -, h3, h4, -⟩ := step_task s log c hP.inv u t ht
    refine DependsOn.direct h1 hv ?_
    rcases hslot with hs | hs
    · left
      rcases h3 with h3 | ⟨r, h3⟩
      · rw [h3, hs]
      · rw [hs] at h3; exact absurd h3 (hk r)
    · right
      rcases h4 with h4 | ⟨r, h4⟩
      · rw [h4, hs]
      · rw [hs] at h4; exact absurd h4 (hk r)
  | @via u w v t ht hw hslot hdep ih =>
    obtain ⟨t', h1, -, h3, h4, -⟩ := step_task s log c hP.inv u t ht
    have hno : ∀ r, c ≠ .complete w r := by
      intro r hcw
      subst hcw
      obtain ⟨tw, g4, g5⟩ := dependsOn_blocked hdep
      have hb : tw.LeftDependency = 0 ∧ tw.RightDependency = 0 := by
        simpa [Call.completesBlocked, g4] using hc
      rcases g5 with g5 | g5
      · exact g5 hb.1
      · exact g5 hb.2
    refine DependsOn.via h1 hw ?_ (ih hk)
    rcases hslot with hs | hs
    · left
      rcases h3 with h3 | ⟨r, h3⟩
      · rw [h3, hs]
      · rw [hs] at h3; exact absurd h3 (hno r)
    · right
      rcases h4 with h4 | ⟨r, h4⟩
      · rw [h4, hs]
      · rw [hs] at h4; exact absurd h4 (hno r)

/-- A pending task stays pending, and the tasks waiting for it go on waiting,
over calls that complete no waiting task and never report the task. -/
theorem stalled_from (k : Int) (more : List Call) : ∀ (s : Store) (log : List Int),
    Protocol s log → orderly more s = true → (∀ c ∈ more, c.reports k = false) →
    (∃ t, s.tasks k = some t ∧ t.Status = "pending") →
    (∃ t', (run more s).tasks k = some t' ∧ t'.Status = "pending") ∧
    ∀ u, DependsOn s u k → DependsOn (run more s) u k := by
  induction more with
  | nil => intro s log _ _ _ hp; exact ⟨hp, fun u h => h⟩
  | cons c cs ih =>
    intro s log hP hf hn hp
    obtain ⟨t, ht, hpt⟩ := hp
    simp only [orderly, Bool.and_eq_true, Bool.not_eq_true'] at hf
    have hck : ∀ r, c ≠ .complete k r := by
      intro r hc
      have := hn c (by simp)
      rw [hc] at this
      simp [Call.reports] at this
    obtain ⟨t', h1, -, -, -, h5⟩ := step_task s log c hP.inv k t ht
    have hp' : t'.Status = "pending" := by
      rcases h5 with h5 | ⟨r, h5⟩
      · rw [h5]; exact hpt
      · exact absurd h5 (hck r)
    obtain ⟨g1, g2⟩ := ih (step s c) _ (Protocol_step s log c hP hf.1) hf.2
      (fun c' hc' => hn c' (by simp [hc'])) ⟨t', h1, hp'⟩
    refine ⟨by simpa [run] using g1, ?_⟩
    intro u hu
    have := g2 u (dependsOn_step s log c hP hf.1 k hck u hu)
    simpa [run] using this

/-- While one of its tasks is pending an expression is pending, provided only
tasks with cleared slots have been completed. -/
theorem expression_pending (s : Store) (log : List Int) (hI : Inv s log) (h2 : Inv2 s)
    (hcu : CompletedUnblocked s) (n : Nat) : ∀ (k : Int) (t : Task), s.tasks k = some t →
    t.Status = "pending" → (s.taskCounter - k).toNat ≤ n →
    ∃ x, s.expressions t.ExpressionID = some x ∧ x.Status = "pending" := by
  induction n with
  | zero =>
    intro k t ht hp hn
    obtain ⟨x, hx, -⟩ := hI.task_expr k t ht
    obtain ⟨-, hpos, hle⟩ := hI.task_key k t ht
    by_cases hroot : k = x.RootTaskID
    · obtain ⟨tr, g1, -, g3, -⟩ := hI.root _ x hx (by rw [← hroot]; omega)
      rw [← hroot, ht] at g1; injection g1 with g1; subst g1
      refine ⟨x, hx, ?_⟩
      rcases h2.expr_status _ x hx with h | h
      · exact h
      · rw [g3.1 h] at hp; exact absurd hp (by decide)
    · obtain ⟨u, tu, g1, -, g3⟩ := h2.parent k t x ht hp hx hroot
      obtain ⟨d1, d2⟩ := hI.deps u tu g1
      have hu := (hI.task_key u tu g1).2.2
      exfalso
      rcases g3 with g3 | g3
      · obtain ⟨-, -, -, -, hlt⟩ := d1 (by rw [g3]; omega)
        rw [g3] at hlt; omega
      · obtain ⟨-, -, -, -, hlt⟩ := d2 (by rw [g3]; omega)
        rw [g3] at hlt; omega
  | succ n ih =>
    intro k t ht hp hn
    obtain ⟨x, hx, -⟩ := hI.task_expr k t ht
    obtain ⟨-, hpos, hle⟩ := hI.task_key k t ht
    by_cases hroot : k = x.RootTaskID
    · obtain ⟨tr, g1, -, g3, -⟩ := hI.root _ x hx (by rw [← hroot]; omega)
      rw [← hroot, ht] at g1; injection g1 with g1; subst g1
      refine ⟨x, hx, ?_⟩
      rcases h2.expr_status _ x hx with h | h
      · exact h
      · rw [g3.1 h] at hp; exact absurd hp (by decide)
    · obtain ⟨u, tu, g1, g2, g3⟩ := h2.parent k t x ht hp hx hroot
      obtain ⟨d1, d2⟩ := hI.deps u tu g1
      have hu := (hI.task_key u tu g1).2.2
      have hlt : k < u := by
        rcases g3 with g3 | g3
        · obtain ⟨-, -, -, -, hlt⟩ := d1 (by rw [g3]; omega)
          rw [g3] at hlt; exact hlt
        · obtain ⟨-, -, -, -, hlt⟩ := d2 (by rw [g3]; omega)
          rw [g3] at hlt; exact hlt
      have hpu : tu.Status = "pending" := by
        rcases hI.status u tu g1 with h | h
        · exact h
        · obtain ⟨c1, c2⟩ := hcu u tu g1 h
          rcases g3 with g3 | g3
          · rw [g3] at c1; omega
          · rw [g3] at c2; omega
      obtain ⟨x', hx', hs'⟩ := ih u tu g1 hpu (by omega)
      rw [g2] at hx'
      exact ⟨x', hx', hs'⟩

/-- C16 (as stated, fails): after `AddExpression("(1+2)*3+4")` task 1 is handed
out and never reported.  Task 2 waits for task 1 and task 3 (the root) waits
for task 2, yet `CompleteTask(2, 9)` is accepted: task 2 is completed and task
3 enters the ready queue; after `CompleteTask(3, 13)` the expression is
completed, while task 1 is still pending.  The same call made before task 1 is
handed out leaves a state in which task 1 is handed out and pending while task
2, whose left slot still names task 1, is completed. -/
theorem dependent_completed_while_task_stalled :
    returned [.add "(1+2)*3+4", .get] Store.init = [1] ∧
    ((run [.add "(1+2)*3+4", .get] Store.init).tasks 2).map
      (fun t => (t.LeftDependency, t.Status)) = some (1, "pending") ∧
    ((run [.add "(1+2)*3+4", .get] Store.init).tasks 3).map
      (fun t => (t.LeftDependency, t.Status)) = some (2, "pending") ∧
    ((run [.add "(1+2)*3+4", .get, .complete 2 (Float64.num 9)] Store.init).tasks 2).map
      (fun t => t.Status) = some "completed" ∧
    (enqueued [.add "(1+2)*3+4", .get, .complete 2 (Float64.num 9)] Store.init).count 3 = 1 ∧
    ((run [.add "(1+2)*3+4", .get, .complete 2 (Float64.num 9), .get,
        .complete 3 (Float64.num 13)] Store.init).expressions 1).map
      (fun x => x.Status) = some "completed" ∧
    ((run [.add "(1+2)*3+4", .get, .complete 2 (Float64.num 9), .get,
        .complete 3 (Float64.num 13)] Store.init).tasks 1).map
      (fun t => t.Status) = some "pending" ∧
    returned [.add "(1+2)*3+4", .complete 2 (Float64.num 9), .get] Store.init = [1] ∧
    ((run [.add "(1+2)*3+4", .complete 2 (Float64.num 9), .get] Store.init).tasks 1).map
      (fun t => t.Status) = some "pending" ∧
    ((run [.add "(1+2)*3+4", .complete 2 (Float64.num 9), .get] Store.init).tasks 2).map
      (fun t => (t.LeftDependency, t.Status)) = some (1, "completed") := by
  refine ⟨by decide, by decide, by decide, by decide, by decide, by decide, by decide,
    by decide, by decide, by decide⟩

/-- C16 (amended): let no `CompleteTask` call, before or after, name a task
that still waits (a registered task with a dependency slot that is not
cleared).  If the task `k` has been handed out and is pending, then after
every further sequence of calls without a `CompleteTask` call for `k`: the
task is still pending, it has been appended to the ready queue once and is not
in it, its expression is pending, and every task that waited for `k`, directly
or through other tasks, still waits for it, is pending and has never been
appended to the ready queue. -/
theorem unreported_task_stalls (calls more : List Call) (k : Int)
    (hf : orderly (calls ++ more) Store.init = true)
    (hk : k ∈ returned calls Store.init)
    (hp : ((run calls Store.init).tasks k).map (fun t => t.Status) = some "pending")
    (hn : ∀ c ∈ more, c.reports k = false) :
    (∃ t' x, (run (calls ++ more) Store.init).tasks k = some t' ∧ t'.Status = "pending" ∧
      (run (calls ++ more) Store.init).expressions t'.ExpressionID = some x ∧
      x.Status = "pending") ∧
    (enqueued (calls ++ more) Store.init).count k = 1 ∧
    k ∉ (run (calls ++ more) Store.init).readyTasks ∧
    ∀ u, DependsOn (run calls Store.init) u k →
      DependsOn (run (calls ++ more) Store.init) u k ∧
      (∃ tu, (run (calls ++ more) Store.init).tasks u = some tu ∧ tu.Status = "pending") ∧
      u ∉ enqueued (calls ++ more) Store.init := by
  rw [orderly_append, Bool.and_eq_true] at hf
  have P0 := Protocol_run calls Store.init [] Protocol_init hf.1
  have P1 := Protocol_run more _ _ P0 hf.2
  have hp0 : ∃ t, (run calls Store.init).tasks k = some t ∧ t.Status = "pending" := by
    cases ht : (run calls Store.init).tasks k with
    | none => rw [ht] at hp; simp at hp
    | some t => rw [ht] at hp; exact ⟨t, rfl, by simpa using hp⟩
  obtain ⟨⟨t', ht', hp'⟩, hdep⟩ := stalled_from k more _ _ P0 hf.2 hn hp0
  rw [← run_append] at P1 ht' hdep
  simp only [List.nil_append] at P1
  rw [← enqueued_append] at P1
  have hI := P1.inv
  have hkr : k ∈ returned (calls ++ more) Store.init := by
    rw [returned_append]; exact List.mem_append_left _ hk
  have hfifo : enqueued (calls ++ more) Store.init
      = returned (calls ++ more) Store.init ++ (run (calls ++ more) Store.init).readyTasks := by
    have := fifo_from (calls ++ more) Store.init [] Inv_init
    simpa [Store.init] using this
  have hklog : k ∈ enqueued (calls ++ more) Store.init := by
    rw [hfifo]; exact List.mem_append_left _ hkr
  refine ⟨?_, List.count_eq_one_of_mem hI.log_nodup hklog, ?_, ?_⟩
  · obtain ⟨x, hx, hxs⟩ := expression_pending _ _ hI P1.inv2 P1.unblocked _ k t' ht' hp'
      (le_refl _)
    exact ⟨t', x, ht', hp', hx, hxs⟩
  · have hnd := hI.log_nodup
    rw [hfifo, List.nodup_append] at hnd
    exact fun hmem => hnd.2.2 hkr hmem
  · intro u hu
    have hu' := hdep u hu
    obtain ⟨tu, g1, g2⟩ := dependsOn_blocked hu'
    refine ⟨hu', ⟨tu, g1, ?_⟩, ?_⟩
    · rcases hI.status u tu g1 with h | h
      · exact h
      · obtain ⟨c1, c2⟩ := P1.unblocked u tu g1 h
        rcases g2 with g2 | g2
        · exact absurd c1 g2
        · exact absurd c2 g2
    · intro hmem
      obtain ⟨tu', g3, g4, g5⟩ := hI.log_unblocked u hmem
      rw [g1] at g3; injection g3 with g3; subst g3
      rcases g2 with g2 | g2
      · exact g2 g4
      · exact g2 g5

/-- Witness for C16: task 1 of "(1+2)*3" is handed out and never reported; the
calls that follow complete a queued task that was not handed out (task 3 of
"4+5") and name an unknown id. -/
theorem unreported_task_stalls_witness :
    (∃ t' x, (run ([Call.add "(1+2)*3", Call.get] ++
          [Call.add "4+5", Call.complete 3 (Float64.num 9), Call.complete 7 (Float64.num 0)])
        Store.init).tasks 1 = some t' ∧ t'.Status = "pending" ∧
      (run ([Call.add "(1+2)*3", Call.get] ++
          [Call.add "4+5", Call.complete 3 (Float64.num 9), Call.complete 7 (Float64.num 0)])
        Store.init).expressions t'.ExpressionID = some x ∧
      x.Status = "pending") ∧
    (enqueued ([Call.add "(1+2)*3", Call.get] ++
      [Call.add "4+5", Call.complete 3 (Float64.num 9), Call.complete 7 (Float64.num 0)])
      Store.init).count 1 = 1 ∧
    1 ∉ (run ([Call.add "(1+2)*3", Call.get] ++
      [Call.add "4+5", Call.complete 3 (Float64.num 9), Call.complete 7 (Float64.num 0)])
      Store.init).readyTasks ∧
    ∀ u, DependsOn (run [Call.add "(1+2)*3", Call.get] Store.init) u 1 →
      DependsOn (run ([Call.add "(1+2)*3", Call.get] ++
        [Call.add "4+5", Call.complete 3 (Float64.num 9), Call.complete 7 (Float64.num 0)])
        Store.init) u 1 ∧
      (∃ tu, (run ([Call.add "(1+2)*3", Call.get] ++
          [Call.add "4+5", Call.complete 3 (Float64.num 9), Call.complete 7 (Float64.num 0)])
        Store.init).tasks u = some tu ∧ tu.Status = "pending") ∧
      u ∉ enqueued ([Call.add "(1+2)*3", Call.get] ++
        [Call.add "4+5", Call.complete 3 (Float64.num 9), Call.complete 7 (Float64.num 0)])
        Store.init :=
  unreported_task_stalls [Call.add "(1+2)*3", Call.get]
    [Call.add "4+5", Call.complete 3 (Float64.num 9), Call.complete 7 (Float64.num 0)] 1
    (by decide) (by decide) (by decide) (by decide)

/-! ### The same text on two stores -/

theorem rootID_shift (node : Node) (c1 c2 : Int) (h1 : 0 ≤ c1) (h2 : 0 ≤ c2) :
    (node.rootID c1 = 0 ∧ node.rootID c2 = 0) ∨
    (node.rootID c1 ≠ 0 ∧ node.rootID c2 ≠ 0 ∧ node.rootID c2 = node.rootID c1 - c1 + c2) := by
  cases node with
  | nil => simp [Node.rootID]
  | mk op v l r =>
    by_cases hop : op = ""
    · simp [Node.rootID, hop]
    · right
      simp only [Node.rootID, hop, if_false]
      refine ⟨by omega, by omega, by omega⟩

theorem reindex_shift (c1 c2 e2 n : Int) :
    reindex (c1 + n) (c2 + n) e2 = reindex c1 c2 e2 := by
  funext t
  simp only [reindex]
  congr 1
  · omega
  · split_ifs <;> omega
  · split_ifs <;> omega

theorem tasks_reindex (node : Node) (e1 e2 : Int) : ∀ c1 c2 : Int, 0 ≤ c1 → 0 ≤ c2 →
    node.tasks e2 c2 = (node.tasks e1 c1).map (reindex c1 c2 e2) := by
  induction node with
  | nil => intro c1 c2 _ _; simp [Node.tasks]
  | mk op v l r ihl ihr =>
    intro c1 c2 h1 h2
    by_cases hop : op = ""
    · simp [Node.tasks, hop]
    · simp only [Node.tasks, hop, if_false, List.map_append, List.map_cons, List.map_nil]
      rw [← ihl c1 c2 h1 h2, ← reindex_shift c1 c2 e2 (l.size : Nat),
        ← ihr (c1 + (l.size : Nat)) (c2 + (l.size : Nat)) (by omega) (by omega)]
      congr 2
      rcases rootID_shift l c1 c2 h1 h2 with ⟨a1, a2⟩ | ⟨a1, a2, a3⟩ <;>
        rcases rootID_shift r (c1 + (l.size : Nat)) (c2 + (l.size : Nat)) (by omega) (by omega)
          with ⟨b1, b2⟩ | ⟨b1, b2, b3⟩ <;>
        simp only [reindex, newTask, a1, a2, b1, b2, if_true, if_false, ne_eq, not_true_eq_false,
          not_false_eq_true] <;>
        congr 1 <;> omega

theorem samePos_reindex (T : List Task) (c1 c2 e2 : Int) (d : Task) (hd : d ∈ T) :
    SamePos (T.map (·.ID)) ((T.map (reindex c1 c2 e2)).map (·.ID)) d.ID (d.ID - c1 + c2) := by
  obtain ⟨j, hj⟩ := List.getElem?_of_mem hd
  exact Or.inr ⟨j, by simp [List.getElem?_map, hj], by simp [List.getElem?_map, hj, reindex]⟩

/-- C17: the same text submitted to two stores (with task counters that are not
negative, as in every reachable store) has the same outcome up to task ids:
both submissions fail with the same error, or both register an expression with
task lists of the same length in which the tasks at equal positions have the
same operator, operation time and operands and dependencies at equal positions
of the lists (or both none), and the root tasks are at equal positions (or
both none). -/
theorem same_text_same_structure (raw : String) (s1 s2 : Store)
    (h1 : 0 ≤ s1.taskCounter) (h2 : 0 ≤ s2.taskCounter) :
    (∃ e, AddExpression raw s1 = (.error e, s1) ∧ AddExpression raw s2 = (.error e, s2)) ∨
    (∃ x1 x2,
      (AddExpression raw s1).1 = .ok (s1.exprCounter + 1) ∧
      (AddExpression raw s2).1 = .ok (s2.exprCounter + 1) ∧
      (AddExpression raw s1).2.expressions (s1.exprCounter + 1) = some x1 ∧
      (AddExpression raw s2).2.expressions (s2.exprCounter + 1) = some x2 ∧
      x1.TaskIDs.length = x2.TaskIDs.length ∧ x1.Status = x2.Status ∧
      SamePos x1.TaskIDs x2.TaskIDs x1.RootTaskID x2.RootTaskID ∧
      ∀ (i : Nat) (k1 k2 : Int), x1.TaskIDs[i]? = some k1 → x2.TaskIDs[i]? = some k2 →
        ∃ t1 t2, (AddExpression raw s1).2.tasks k1 = some t1 ∧
          (AddExpression raw s2).2.tasks k2 = some t2 ∧
          t1.Operator = t2.Operator ∧ t1.OperationTime = t2.OperationTime ∧
          t1.Arg1 = t2.Arg1 ∧ t1.Arg2 = t2.Arg2 ∧
          SamePos x1.TaskIDs x2.TaskIDs t1.LeftDependency t2.LeftDependency ∧
          SamePos x1.TaskIDs x2.TaskIDs t1.RightDependency t2.RightDependency) := by
  rcases AddExpression_cases raw s1 with ⟨node, hp, ht, ha1⟩ | ⟨e, hp, -, ha1⟩
  · right
    have ha2 := AddExpression_ok raw s2 node hp ht
    have hx1 := add_expressions raw node s1 (s1.exprCounter + 1)
    have hx2 := add_expressions raw node s2 (s2.exprCounter + 1)
    rw [if_pos rfl] at hx1 hx2
    have hT := tasks_reindex node (s1.exprCounter + 1) (s2.exprCounter + 1) s1.taskCounter
      s2.taskCounter h1 h2
    have spec := tasks_spec node ht (s1.exprCounter + 1) s1.taskCounter h1
    have hroot := rootID_shift node s1.taskCounter s2.taskCounter h1 h2
    rw [ha1, ha2]
    refine ⟨_, _, rfl, rfl, hx1, hx2, ?_, ?_, ?_, ?_⟩
    · simp only [hT, List.length_map]
    · show (if node.rootID s1.taskCounter = 0 then "completed" else "pending")
        = (if node.rootID s2.taskCounter = 0 then "completed" else "pending")
      rcases hroot with ⟨a1, a2⟩ | ⟨a1, a2, -⟩
      · rw [if_pos a1, if_pos a2]
      · rw [if_neg a1, if_neg a2]
    · show SamePos _ _ (node.rootID s1.taskCounter) (node.rootID s2.taskCounter)
      rcases hroot with ⟨a1, a2⟩ | ⟨a1, a2, a3⟩
      · exact Or.inl ⟨a1, a2⟩
      · rcases rootID_cases node ht (s1.exprCounter + 1) s1.taskCounter h1 with
          ⟨h0, -⟩ | ⟨-, -, -, -, t, ht1, ht2⟩
        · exact absurd h0 a1
        · simp only [hT]
          rw [a3, ← ht2]
          exact samePos_reindex _ _ _ _ t ht1
    · intro i k1 k2 hk1 hk2
      simp only [hT, List.getElem?_map, Option.map_eq_some'] at hk1 hk2
      obtain ⟨t1, g1, rfl⟩ := hk1
      obtain ⟨t2, ⟨t1', g2, rfl⟩, rfl⟩ := hk2
      rw [g1] at g2; injection g2 with g2; subst g2
      have hm1 : t1 ∈ node.tasks (s1.exprCounter + 1) s1.taskCounter :=
        List.getElem?_mem g1
      have hm2 : reindex s1.taskCounter s2.taskCounter (s2.exprCounter + 1) t1
          ∈ node.tasks (s2.exprCounter + 1) s2.taskCounter := by
        rw [hT]; exact List.mem_map_of_mem _ hm1
      obtain ⟨-, -, -, -, h5, h6, -, -⟩ := spec t1 hm1
      refine ⟨t1, _, add_tasks_new raw node s1 t1 hm1, add_tasks_new raw node s2 _ hm2,
        rfl, rfl, rfl, rfl, ?_, ?_⟩
      · simp only [hT]
        by_cases hd : t1.LeftDependency = 0
        · exact Or.inl ⟨hd, by simp [reindex, hd]⟩
        · obtain ⟨-, d, hd1, hd2⟩ := h5 hd
          have := samePos_reindex _ s1.taskCounter s2.taskCounter (s2.exprCounter + 1) d hd1
          rw [hd2] at this
          simpa [reindex, hd] using this
      · simp only [hT]
        by_cases hd : t1.RightDependency = 0
        · exact Or.inl ⟨hd, by simp [reindex, hd]⟩
        · obtain ⟨-, d, hd1, hd2⟩ := h6 hd
          have := samePos_reindex _ s1.taskCounter s2.taskCounter (s2.exprCounter + 1) d hd1
          rw [hd2] at this
          simpa [reindex, hd] using this
  · left
    exact ⟨e, ha1, AddExpression_error raw s2 e hp⟩

theorem same_text_same_structure_witness :
    (∃ e, AddExpression "(1+2)*3" Store.init = (.error e, Store.init) ∧
      AddExpression "(1+2)*3" (run [Call.add "1+2"] Store.init)
        = (.error e, (run [Call.add "1+2"] Store.init))) ∨
    (∃ x1 x2,
      (AddExpression "(1+2)*3" Store.init).1 = .ok (Store.init.exprCounter + 1) ∧
      (AddExpression "(1+2)*3" (run [Call.add "1+2"] Store.init)).1
        = .ok ((run [Call.add "1+2"] Store.init).exprCounter + 1) ∧
      (AddExpression "(1+2)*3" Store.init).2.expressions (Store.init.exprCounter + 1)
        = some x1 ∧
      (AddExpression "(1+2)*3" (run [Call.add "1+2"] Store.init)).2.expressions
        ((run [Call.add "1+2"] Store.init).exprCounter + 1) = some x2 ∧
      x1.TaskIDs.length = x2.TaskIDs.length ∧ x1.Status = x2.Status ∧
      SamePos x1.TaskIDs x2.TaskIDs x1.RootTaskID x2.RootTaskID ∧
      ∀ (i : Nat) (k1 k2 : Int), x1.TaskIDs[i]? = some k1 → x2.TaskIDs[i]? = some k2 →
        ∃ t1 t2, (AddExpression "(1+2)*3" Store.init).2.tasks k1 = some t1 ∧
          (AddExpression "(1+2)*3" (run [Call.add "1+2"] Store.init)).2.tasks k2 = some t2 ∧
          t1.Operator = t2.Operator ∧ t1.OperationTime = t2.OperationTime ∧
          t1.Arg1 = t2.Arg1 ∧ t1.Arg2 = t2.Arg2 ∧
          SamePos x1.TaskIDs x2.TaskIDs t1.LeftDependency t2.LeftDependency ∧
          SamePos x1.TaskIDs x2.TaskIDs t1.RightDependency t2.RightDependency) :=
  same_text_same_structure "(1+2)*3" Store.init (run [Call.add "1+2"] Store.init)
    (by decide) (by decide)

/-! ### Task ids grow -/

theorem idRange_pairwise (c : Int) (n : Nat) : (idRange c n).Pairwise (· < ·) := by
  unfold idRange
  rw [List.pairwise_map]
  exact (List.pairwise_lt_range n).imp (by intro a b h; omega)

theorem assigned_step (s : Store) (log : List Int) (c : Call) (hI : Inv s log) :
    ∃ n : Nat, assigned s c = idRange s.taskCounter n ∧
      (step s c).taskCounter = s.taskCounter + n := by
  cases c with
  | add raw =>
    simp only [assigned, step]
    rcases AddExpression_cases raw s with ⟨node, -, -, h3⟩ | ⟨e, -, -, h3⟩
    · rw [h3]
      refine ⟨node.size, ?_, by simp [addResult]⟩
      simp only [add_expressions, if_true]
      exact tasks_ids node _ _
    · rw [h3]; exact ⟨0, by simp [idRange], by simp⟩
  | get =>
    refine ⟨0, by simp [assigned, idRange], ?_⟩
    simp only [step, GetReadyTask]
    cases s.readyTasks <;> simp
  | complete a r =>
    refine ⟨0, by simp [assigned, idRange], ?_⟩
    simp only [step]
    rcases CompleteTask_cases a r s log hI with ⟨-, h'⟩ | ⟨ta, -, -, h'⟩ | ⟨ta, x, -, -, -, h'⟩
    · rw [h']; simp
    · rw [h']; simp
    · rw [h']; simp [(complete_counters a ta x r s).1]

theorem created_from (calls : List Call) : ∀ (s : Store) (log : List Int), Inv s log →
    ∃ n : Nat, created calls s = idRange s.taskCounter n ∧
      (run calls s).taskCounter = s.taskCounter + n := by
  induction calls with
  | nil => intro s log _; exact ⟨0, by simp [created, idRange], by simp [run]⟩
  | cons c cs ih =>
    intro s log hI
    obtain ⟨n, h1, h2⟩ := assigned_step s log c hI
    obtain ⟨m, h3, h4⟩ := ih (step s c) _ (Inv_step s log c hI)
    refine ⟨n + m, ?_, ?_⟩
    · simp only [created]
      rw [h1, h3, h2, idRange_add]
    · simp only [run, List.foldl_cons] at h4 ⊢
      rw [h4, h2]; push_cast; ring

/-- C18: over every sequence of calls the task ids assigned are, in the order of
their assignment, 1, 2, 3, ... up to the task counter: each is greater than all
ids assigned before it and at least 1.  So every registered task is registered
under its own id, which is one of the ids assigned, no two registered tasks
share an id, no id is assigned twice, and 0 is no task id: a dependency or a
root task id that is not 0 names a registered task. -/
theorem task_ids_strictly_increase (calls : List Call) :
    created calls Store.init = idRange 0 (run calls Store.init).taskCounter.toNat ∧
    (created calls Store.init).Pairwise (· < ·) ∧
    (created calls Store.init).Nodup ∧
    (∀ k ∈ created calls Store.init, 1 ≤ k) ∧
    (∀ k t, (run calls Store.init).tasks k = some t →
      t.ID = k ∧ k ∈ created calls Store.init) ∧
    (∀ k1 k2 t1 t2, (run calls Store.init).tasks k1 = some t1 →
      (run calls Store.init).tasks k2 = some t2 → k1 ≠ k2 → t1.ID ≠ t2.ID) ∧
    (run calls Store.init).tasks 0 = none ∧
    (∀ k t, (run calls Store.init).tasks k = some t →
      (t.LeftDependency ≠ 0 → ∃ d, (run calls Store.init).tasks t.LeftDependency = some d) ∧
      (t.RightDependency ≠ 0 → ∃ d, (run calls Store.init).tasks t.RightDependency = some d)) ∧
    (∀ i x, (run calls Store.init).expressions i = some x → x.RootTaskID ≠ 0 →
      ∃ t, (run calls Store.init).tasks x.RootTaskID = some t) := by
  obtain ⟨n, h1, h2⟩ := created_from calls Store.init [] Inv_init
  have hI := Inv_run calls
  have hn : (run calls Store.init).taskCounter.toNat = n := by
    rw [h2]; simp [Store.init]
  have hc : created calls Store.init = idRange 0 n := by simpa [Store.init] using h1
  refine ⟨by rw [hn, hc], by rw [hc]; exact idRange_pairwise 0 n,
    by rw [hc]; exact idRange_nodup 0 n, ?_, ?_, ?_, ?_, ?_, ?_⟩
  · intro k hk
    rw [hc, mem_idRange] at hk; omega
  · intro k t hk
    obtain ⟨g1, g2, g3⟩ := hI.task_key k t hk
    refine ⟨g1, ?_⟩
    rw [hc, mem_idRange]
    rw [h2] at g3
    simp only [Store.init] at g3
    omega
  · intro k1 k2 t1 t2 g1 g2 hne
    rw [(hI.task_key k1 t1 g1).1, (hI.task_key k2 t2 g2).1]
    exact hne
  · cases h0 : (run calls Store.init).tasks 0 with
    | none => rfl
    | some t => have := (hI.task_key 0 t h0).2.1; omega
  · intro k t hk
    obtain ⟨d1, d2⟩ := hI.deps k t hk
    exact ⟨fun h => (d1 h).imp (fun _ hd => hd.1), fun h => (d2 h).imp (fun _ hd => hd.1)⟩
  · intro i x hx hr
    obtain ⟨t, ht, -⟩ := hI.root i x hx hr
    exact ⟨t, ht⟩

/-! ### `buildTasks` works in post-order -/

theorem tasks_length (node : Node) (e c : Int) : (node.tasks e c).length = node.size := by
  have := congrArg List.length (tasks_ids node e c)
  simpa [idRange] using this

theorem side_of_child (child : Node) (h : child.isTree = true) (c : Int) (hc : 0 ≤ c)
    (arg : Float64) (harg : arg = if child.rootID c ≠ 0 then Float64.NaN else child.retVal) :
    Side child (c + (child.size : Nat)) arg (child.rootID c) := by
  cases child with
  | nil => simp [Node.isTree] at h
  | mk op v l r =>
    by_cases hop : op = ""
    · subst hop
      simp only [Node.isTree, if_true, Bool.and_eq_true, decide_eq_true_eq] at h
      obtain ⟨⟨rfl, rfl⟩, -⟩ := h
      simp only [Node.rootID, Node.retVal, if_true, ne_eq, not_true_eq_false, if_false] at harg ⊢
      rw [harg]
      exact Side.leaf v _
    · have hr : (Node.mk op v l r).rootID c = c + ((Node.mk op v l r).size : Nat) := by
        simp [Node.rootID, Node.size, hop]
      have hne : (Node.mk op v l r).rootID c ≠ 0 := by
        rw [hr]; simp only [Node.size, hop, if_false]; omega
      rw [if_pos hne] at harg
      rw [harg, hr]
      exact Side.inner op v l r _ hop

theorem tasks_postorder (node : Node) (h : node.isTree = true) (e : Int) :
    ∀ c : Int, 0 ≤ c → PostOrder e node c (node.tasks e c) := by
  induction node with
  | nil => simp [Node.isTree] at h
  | mk op v l r ihl ihr =>
    intro c hc
    by_cases hop : op = ""
    · subst hop
      simp only [Node.isTree, if_true, Bool.and_eq_true, decide_eq_true_eq] at h
      obtain ⟨⟨rfl, rfl⟩, -⟩ := h
      simp only [Node.tasks, if_true]
      exact PostOrder.leaf v c
    · obtain ⟨hl, hr⟩ := isTree_children hop h
      simp only [Node.tasks, hop, if_false]
      have e1 := tasks_length l e c
      have e2 := tasks_length r e (c + (l.size : Nat))
      refine PostOrder.node op v l r c _ _ _ hop (ihl hl c hc) ?_ ?_ rfl rfl rfl ?_ ?_
      · rw [e1]; exact ihr hr _ (by omega)
      · rw [e1, e2]; rfl
      · rw [e1]; exact side_of_child l hl c hc _ rfl
      · rw [e1, e2]
        have := side_of_child r hr (c + (l.size : Nat)) (by omega) _ rfl
        exact this

/-- C19: for a tree `node` that `parseExpression` returns, with `n` internal
nodes, `buildTasks` called when the task counter stands at `c` (not negative)
registers exactly `n` new tasks, under the ids `c + 1, ..., c + n`; these are
the tasks the post-order description prescribes (left subtree, right subtree,
then the node, each task with the operator of its node and on each side the
literal value of a leaf child with dependency none, or the unresolved operand
with the id of the task of an internal child); it appends their ids in this
order to the task list and returns the last id `c + n` as root task id, none
when `n = 0`. -/
theorem buildTasks_postorder (raw : String) (node : Node)
    (hp : parseExpression raw = .ok node) (e : Int) (s : Store) (ids : List Int)
    (hc : 0 ≤ s.taskCounter) :
    ∃ ts : List Task,
      PostOrder e node s.taskCounter ts ∧ ts.length = node.size ∧
      ts.map (·.ID) = idRange s.taskCounter node.size ∧
      (buildTasks node e (s, ids)).1
        = .ok (node.retVal, if node.size = 0 then 0 else s.taskCounter + (node.size : Nat)) ∧
      (buildTasks node e (s, ids)).2.2 = ids ++ ts.map (·.ID) ∧
      (buildTasks node e (s, ids)).2.1.taskCounter = s.taskCounter + (node.size : Nat) ∧
      (∀ t ∈ ts, (buildTasks node e (s, ids)).2.1.tasks t.ID = some t) ∧
      (∀ k, ¬ (s.taskCounter < k ∧ k ≤ s.taskCounter + (node.size : Nat)) →
        (buildTasks node e (s, ids)).2.1.tasks k = s.tasks k) ∧
      (buildTasks node e (s, ids)).2.1.expressions = s.expressions ∧
      (buildTasks node e (s, ids)).2.1.readyTasks = s.readyTasks ∧
      (buildTasks node e (s, ids)).2.1.exprCounter = s.exprCounter := by
  have ht : node.isTree = true := by
    rcases parseExpression_cases raw with ⟨nd, h1, h2, -⟩ | ⟨err, h1, -⟩
    · rw [hp] at h1; injection h1 with h1; rw [h1]; exact h2
    · rw [hp] at h1; exact absurd h1 (by simp)
  refine ⟨node.tasks e s.taskCounter, tasks_postorder node ht e _ hc, tasks_length _ _ _,
    tasks_ids _ _ _, ?_, ?_, ?_, ?_, ?_, ?_, ?_, ?_⟩
  · rw [buildTasks_eq node ht e s ids]
    rcases rootID_cases node ht e s.taskCounter hc with ⟨h0, h1, -⟩ | ⟨h0, h1, -⟩
    · simp only [h0, h1, if_true]
    · simp only [h0, if_neg (Nat.pos_iff_ne_zero.1 h1)]
  · rw [buildTasks_eq node ht e s ids]
  · rw [buildTasks_eq node ht e s ids]
  · intro t hm
    rw [buildTasks_eq node ht e s ids]
    exact register_of_mem _ _ t (tasks_nodup _ _ _) hm
  · intro k hk
    rw [buildTasks_eq node ht e s ids]
    refine register_of_not_mem _ _ _ ?_
    intro t hm he
    have h1 : t.ID ∈ (node.tasks e s.taskCounter).map (·.ID) := List.mem_map.2 ⟨t, hm, rfl⟩
    rw [tasks_ids, mem_idRange, he] at h1
    exact hk h1
  · rw [buildTasks_eq node ht e s ids]
  · rw [buildTasks_eq node ht e s ids]
  · rw [buildTasks_eq node ht e s ids]

theorem buildTasks_postorder_witness :
    ∃ ts : List Task,
      PostOrder 1 (opNode '*' (opNode '+' (leafNode '1') (leafNode '2')) (leafNode '3'))
        Store.init.taskCounter ts ∧
      ts.length = (opNode '*' (opNode '+' (leafNode '1') (leafNode '2')) (leafNode '3')).size ∧
      ts.map (·.ID) = idRange Store.init.taskCounter
        (opNode '*' (opNode '+' (leafNode '1') (leafNode '2')) (leafNode '3')).size ∧
      (buildTasks (opNode '*' (opNode '+' (leafNode '1') (leafNode '2')) (leafNode '3')) 1
          (Store.init, [])).1
        = .ok ((opNode '*' (opNode '+' (leafNode '1') (leafNode '2')) (leafNode '3')).retVal,
            if (opNode '*' (opNode '+' (leafNode '1') (leafNode '2')) (leafNode '3')).size = 0
            then 0
            else Store.init.taskCounter +
              ((opNode '*' (opNode '+' (leafNode '1') (leafNode '2')) (leafNode '3')).size
                : Nat)) := by
  obtain ⟨ts, h1, h2, h3, h4, -⟩ := buildTasks_postorder "(1+2)*3"
    (opNode '*' (opNode '+' (leafNode '1') (leafNode '2')) (leafNode '3')) (by decide) 1
    Store.init [] (by decide)
  exact ⟨ts, h1, h2, h3, h4⟩

/-! ### Reachable stores are well-formed -/

theorem dependsOn_lt (s : Store) (log : List Int) (hI : Inv s log) {u v : Int}
    (h : DependsOn s u v) : v < u := by
  induction h with
  | @direct u v t ht hv hslot =>
    obtain ⟨d1, d2⟩ := hI.deps u t ht
    rcases hslot with hs | hs
    · obtain ⟨-, -, -, -, hlt⟩ := d1 (by rw [hs]; exact hv)
      rw [hs] at hlt; exact hlt
    · obtain ⟨-, -, -, -, hlt⟩ := d2 (by rw [hs]; exact hv)
      rw [hs] at hlt; exact hlt
  | @via u w v t ht hw hslot _ ih =>
    obtain ⟨d1, d2⟩ := hI.deps u t ht
    rcases hslot with hs | hs
    · obtain ⟨-, -, -, -, hlt⟩ := d1 (by rw [hs]; exact hw)
      rw [hs] at hlt; omega
    · obtain ⟨-, -, -, -, hlt⟩ := d2 (by rw [hs]; exact hw)
      rw [hs] at hlt; omega

/-- C20: every store reachable through `AddExpression`, `GetReadyTask` and
`CompleteTask` calls is well-formed.  The `ExpressionID` of every task names a
registered expression whose task list holds the id of the task; every id in
the task list of an expression names a registered task (of this expression);
every dependency that is not none is the id of a pending task of the same
expression with a smaller id, so no task waits for itself.  Therefore the
lookups `expressions[t.ExpressionID]` and `tasks[tid]` of `AddExpression` and
`CompleteTask` always find an entry: neither call ends in a nil dereference. -/
theorem reachable_store_well_formed (s : Store) (hs : Reachable s) :
    (∀ k t, s.tasks k = some t →
      ∃ x, s.expressions t.ExpressionID = some x ∧ k ∈ x.TaskIDs ∧ t.ID = k) ∧
    (∀ i x, s.expressions i = some x →
      ∀ k ∈ x.TaskIDs, ∃ t, s.tasks k = some t ∧ t.ExpressionID = i) ∧
    (∀ k t, s.tasks k = some t → ∀ d, d = t.LeftDependency ∨ d = t.RightDependency → d ≠ 0 →
      ∃ td, s.tasks d = some td ∧ td.Status = "pending" ∧
        td.ExpressionID = t.ExpressionID ∧ d < k) ∧
    (∀ u v, DependsOn s u v → v < u) ∧ (∀ k, ¬ DependsOn s k k) ∧
    (∀ raw e, (AddExpression raw s).1 ≠ .panic e) ∧
    (∀ taskID r e, (CompleteTask taskID r s).1 ≠ .panic e) ∧
    (∀ taskID t, s.tasks taskID = some t →
      ∃ x, s.expressions t.ExpressionID = some x ∧
        ∀ tid ∈ x.TaskIDs, ∃ c, s.tasks tid = some c) := by
  obtain ⟨log, hI⟩ := Reachable_Inv s hs
  refine ⟨?_, hI.expr_tasks, ?_, ?_, ?_, ?_, ?_, ?_⟩
  · intro k t ht
    obtain ⟨x, hx, hk⟩ := hI.task_expr k t ht
    exact ⟨x, hx, hk, (hI.task_key k t ht).1⟩
  · intro k t ht d hd hne
    obtain ⟨d1, d2⟩ := hI.deps k t ht
    rcases hd with rfl | rfl
    · exact d1 hne
    · exact d2 hne
  · intro u v h; exact dependsOn_lt s log hI h
  · intro k h; have := dependsOn_lt s log hI h; omega
  · intro raw e
    rcases AddExpression_cases raw s with ⟨node, -, -, h⟩ | ⟨e', -, -, h⟩ <;> rw [h] <;> simp
  · intro taskID r e
    rcases CompleteTask_cases taskID r s log hI with ⟨-, h⟩ | ⟨t, -, -, h⟩ | ⟨t, x, -, -, -, h⟩ <;>
      rw [h] <;> simp
  · intro taskID t ht
    obtain ⟨x, hx, -⟩ := hI.task_expr taskID t ht
    refine ⟨x, hx, ?_⟩
    intro tid htid
    obtain ⟨c, hc, -⟩ := hI.expr_tasks _ x hx tid htid
    exact ⟨c, hc⟩

theorem reachable_store_well_formed_witness :
    (∀ raw e, (AddExpression raw
      (run [Call.add "(1+2)*3", Call.get, Call.complete 1 (Float64.num 3)] Store.init)).1
        ≠ .panic e) ∧
    (∀ taskID r e, (CompleteTask taskID r
      (run [Call.add "(1+2)*3", Call.get, Call.complete 1 (Float64.num 3)] Store.init)).1
        ≠ .panic e) :=
  ⟨(reachable_store_well_formed
      (run [Call.add "(1+2)*3", Call.get, Call.complete 1 (Float64.num 3)] Store.init)
      ⟨_, rfl⟩).2.2.2.2.2.1,
    (reachable_store_well_formed
      (run [Call.add "(1+2)*3", Call.get, Call.complete 1 (Float64.num 3)] Store.init)
      ⟨_, rfl⟩).2.2.2.2.2.2.1⟩

/-! ### How often a task is appended to the ready queue -/

/-- The ids a call appends to the ready queue are ids of tasks it creates or of
tasks that were pending before it. -/
theorem appended_fresh_or_pending (s : Store) (log : List Int) (c : Call) (hI : Inv s log)
    (k : Int) (hk : k ∈ appended s c) :
    (s.tasks k = none ∨ ∃ t, s.tasks k = some t ∧ t.Status = "pending") ∧
    ∀ r, c ≠ .complete k r := by
  cases c with
  | add raw =>
    simp only [appended, step] at hk
    refine ⟨?_, fun r h => by cases h⟩
    rcases AddExpression_cases raw s with ⟨node, -, -, h3⟩ | ⟨e, -, -, h3⟩
    · rw [h3] at hk
      simp only [addResult, List.drop_left, List.mem_map, List.mem_filter] at hk
      obtain ⟨t, ⟨ht, -⟩, rfl⟩ := hk
      left
      cases h : s.tasks t.ID with
      | none => rfl
      | some u =>
        have h1 : t.ID ∈ (node.tasks (s.exprCounter + 1) s.taskCounter).map (·.ID) :=
          List.mem_map.2 ⟨t, ht, rfl⟩
        rw [tasks_ids, mem_idRange] at h1
        have h2 := (hI.task_key _ u h).2.2
        omega
    · rw [h3] at hk; simp at hk
  | get => simp [appended] at hk
  | complete a r =>
    simp only [appended, step] at hk
    rcases CompleteTask_cases a r s log hI with ⟨-, h'⟩ | ⟨ta, -, -, h'⟩ | ⟨ta, x, h1, -, -, h'⟩
    · rw [h'] at hk; simp at hk
    · rw [h'] at hk; simp at hk
    · rw [h', complete_ready] at hk
      simp only [List.drop_left, List.mem_filter] at hk
      rw [(hI.task_key a ta h1).1] at hk
      obtain ⟨hne, u, g1, -, -, -, g5⟩ := (newlyReady_iff a ta r s k h1).1 hk.2
      refine ⟨Or.inr ⟨u, g1, g5⟩, ?_⟩
      intro r' h
      injection h with h
      exact hne h.symm

/-- A completed task is not appended to the ready queue by any later call. -/
theorem completed_never_appended (k : Int) (more : List Call) : ∀ (s : Store) (log : List Int),
    Inv s log → (∃ t, s.tasks k = some t ∧ t.Status = "completed") →
    k ∉ enqueued more s := by
  induction more with
  | nil => intro s log _ _; simp [enqueued]
  | cons c cs ih =>
    intro s log hI hc
    obtain ⟨t, ht, hs⟩ := hc
    have hnot : t.Status ≠ "pending" := by rw [hs]; decide
    simp only [enqueued, List.mem_append, not_or]
    constructor
    · intro hk
      rcases (appended_fresh_or_pending s log c hI k hk).1 with h | ⟨u, h, hu⟩
      · rw [ht] at h; exact absurd h (by simp)
      · rw [ht] at h; injection h with h; subst h; exact hnot hu
    · apply ih (step s c) _ (Inv_step s log c hI)
      obtain ⟨t', h1, -, -, -, h5⟩ := step_task s log c hI k t ht
      rcases h5 with h5 | ⟨r, rfl⟩
      · exact ⟨t', h1, by rw [h5]; exact hs⟩
      · simp only [step, CompleteTask_already k r s t ht hnot]
        exact ⟨t, ht, hs⟩

/-- A task that is completed by a `CompleteTask` call while one of its slots is
still set is never appended to the ready queue. -/
theorem blocked_completed_count_zero (calls : List Call) (k : Int) (t : Task)
    (ht : (run calls Store.init).tasks k = some t) (hp : t.Status = "pending")
    (hb : t.LeftDependency ≠ 0 ∨ t.RightDependency ≠ 0) (r : Float64) (more : List Call) :
    (enqueued (calls ++ Call.complete k r :: more) Store.init).count k = 0 := by
  have hI := Inv_run calls
  rw [List.count_eq_zero, enqueued_append]
  simp only [enqueued, List.mem_append, not_or]
  refine ⟨?_, ?_, ?_⟩
  · intro hk
    obtain ⟨u, g1, g2, g3⟩ := hI.log_unblocked k hk
    rw [ht] at g1; injection g1 with g1; subst g1
    rcases hb with hb | hb
    · exact hb g2
    · exact hb g3
  · intro hk
    exact (appended_fresh_or_pending _ _ _ hI k hk).2 r rfl
  · apply completed_never_appended k more _ _ (Inv_step _ _ (Call.complete k r) hI)
    obtain ⟨x, -, h⟩ := CompleteTask_ok_of_Inv k r _ _ t hI ht hp
    have hid := (hI.task_key k t ht).1
    refine ⟨stepTask k r x.TaskIDs k t, ?_, ?_⟩
    · simp only [step, h]
      rw [complete_tasks k t x r _ ht hid, ht]; rfl
    · rw [(stepTask_spec k r x.TaskIDs k t).2.2.2.1, if_pos rfl]

/-- C3 (amended): over every sequence of calls, no task id is appended to the
ready queue twice.  For a task that is pending after some calls: if both its
slots are empty it has been appended exactly once, and that count never
changes afterwards; if it has two dependencies, then after `CompleteTask` calls
on the two tasks it depends on, in either order, both its slots are empty and
it has been appended exactly once; and if it still has a dependency and is
itself completed by a `CompleteTask` call, it has not been appended and is
never appended afterwards. -/
theorem ready_queue_append_once (calls : List Call) (k : Int) (t : Task)
    (ht : (run calls Store.init).tasks k = some t) (hp : t.Status = "pending") :
    (∀ cs : List Call, (enqueued cs Store.init).Nodup) ∧
    (t.LeftDependency = 0 → t.RightDependency = 0 →
      ∀ more, (enqueued (calls ++ more) Store.init).count k = 1) ∧
    (t.LeftDependency ≠ 0 → t.RightDependency ≠ 0 → ∀ r1 r2 two,
      two = [Call.complete t.LeftDependency r1, Call.complete t.RightDependency r2] ∨
      two = [Call.complete t.RightDependency r1, Call.complete t.LeftDependency r2] →
      (∃ t', (run (calls ++ two) Store.init).tasks k = some t' ∧
        t'.LeftDependency = 0 ∧ t'.RightDependency = 0) ∧
      ∀ more, (enqueued (calls ++ two ++ more) Store.init).count k = 1) ∧
    (t.LeftDependency ≠ 0 ∨ t.RightDependency ≠ 0 → ∀ r more,
      (CompleteTask k r (run calls Store.init)).1 = .ok () ∧
      (enqueued (calls ++ Call.complete k r :: more) Store.init).count k = 0) := by
  refine ⟨fun cs => (Inv_run cs).log_nodup, ?_, ?_, ?_⟩
  · intro hl hr more
    exact unblocked_count_one calls k t ht hl hr hp more
  · intro hl hr r1 r2 two htwo
    have key : ∀ a b, ((a = t.LeftDependency ∧ b = t.RightDependency) ∨
        (a = t.RightDependency ∧ b = t.LeftDependency)) →
        (∃ t', (run (calls ++ [Call.complete a r1, Call.complete b r2]) Store.init).tasks k
            = some t' ∧ t'.LeftDependency = 0 ∧ t'.RightDependency = 0) ∧
        ∀ more, (enqueued (calls ++ [Call.complete a r1, Call.complete b r2] ++ more)
          Store.init).count k = 1 := by
      intro a b hab
      obtain ⟨t', h1, h2, h3, h4⟩ := two_completions calls k t a b r1 r2 ht hp hl hr hab
      exact ⟨⟨t', h1, h2, h3⟩, fun more => unblocked_count_one _ k t' h1 h2 h3 h4 more⟩
    rcases htwo with rfl | rfl
    · exact key _ _ (Or.inl ⟨rfl, rfl⟩)
    · exact key _ _ (Or.inr ⟨rfl, rfl⟩)
  · intro hb r more
    obtain ⟨x, -, h⟩ := CompleteTask_ok_of_Inv k r _ _ t (Inv_run calls) ht hp
    exact ⟨by rw [h], blocked_completed_count_zero calls k t ht hp hb r more⟩

/-- Witness for C3: task 3 of "(1+2)*(3+4)", after tasks 2 and 1 are completed
in that order, has been appended exactly once; completed itself while it waits
for them, it is never appended. -/
theorem ready_queue_append_once_witness :
    (enqueued ([Call.add "(1+2)*(3+4)"] ++
      [Call.complete 2 (Float64.num 7), Call.complete 1 (Float64.num 3)] ++ [])
      Store.init).count 3 = 1 ∧
    (enqueued ([Call.add "(1+2)*(3+4)"] ++ Call.complete 3 (Float64.num 0) ::
      [Call.complete 1 (Float64.num 3), Call.complete 2 (Float64.num 7)])
      Store.init).count 3 = 0 :=
  ⟨((ready_queue_append_once [Call.add "(1+2)*(3+4)"] 3
      (newTask 3 1 "*" Float64.NaN Float64.NaN 1 2) (by decide) rfl).2.2.1 (by decide)
      (by decide) (Float64.num 7) (Float64.num 3) _ (Or.inr rfl)).2 [],
    ((ready_queue_append_once [Call.add "(1+2)*(3+4)"] 3
      (newTask 3 1 "*" Float64.NaN Float64.NaN 1 2) (by decide) rfl).2.2.2 (Or.inl (by decide))
      (Float64.num 0) [Call.complete 1 (Float64.num 3), Call.complete 2 (Float64.num 7)]).2⟩

end Orchestrator
